import Mathlib

set_option linter.unusedSectionVars false

/-!
Verification of the ParamTools value-object engine (`paramtools/parameters.py`).

The program manipulates "value objects": Python dicts mapping label names to
label values plus a reserved `value` key.  We embed a value object as an
association list of labels (`String × L`) together with an optional value
(`none` models the JSON `null` delete sentinel).  Python dict lookup is
embedded as association-list lookup; a failed lookup (Python `KeyError`)
is modelled by `Except` errors where the source can raise.

`L` is the type of label values and `V` the type of parameter values; both
only need decidable equality, as in the source (dict comparisons via `==`).
-/

namespace ParamTools

/-- One value object: the label dict (without the reserved key) and the
value stored at the reserved `value` key (`none` = the `null` sentinel). -/
structure ValueObject (L V : Type) where
  labels : List (String × L)
  value : Option V
  deriving DecidableEq

variable {L V : Type} [DecidableEq L] [DecidableEq V]

/-- Python dict lookup on an association list: first binding wins. -/
def lookupLbl : List (String × L) → String → Option L
  | [], _ => none
  | (k, v) :: rest, q => if k = q then some v else lookupLbl rest q

/-- `vo[k]` for a label key `k` (`none` models `KeyError`). -/
def getLbl (vo : ValueObject L V) (k : String) : Option L :=
  lookupLbl vo.labels k

/-- The label keys of a value object, in dict insertion order
(`tuple(k for k in vo if k != "value")` in `_update_param`). -/
def labelKeys (vo : ValueObject L V) : List String :=
  vo.labels.map Prod.fst

/-- Modelled from the spec: `utils.filter_labels(vo, drop=...)` (the `utils`
module is not under src/) — the label dict restricted to keys outside
`drop`; the reserved value key is held separately in our embedding, so
dropping it is implicit. -/
def filterLabels (vo : ValueObject L V) (drop : List String) : List (String × L) :=
  vo.labels.filter (fun p => ¬ (p.1 ∈ drop))

/-- A scalar-valued label dict used as a selection predicate (a scalar
query is the singleton admissible list). -/
def predsOf (ps : List (String × L)) : List (String × List L) :=
  ps.map (fun p => (p.1, [p.2]))

/-- Position of a value in a label grid (`grid.index(x)` in Python;
off-grid values get `grid.length`, a position after every grid member —
the claims below only exercise on-grid values). -/
def gridIdx (grid : List L) (x : L) : Nat :=
  grid.findIdx (fun g => g = x)

/-- Error-propagating map (Python: a loop that raises out of the caller). -/
def mapExc (f : α → Except ε β) : List α → Except ε (List β)
  | [] => .ok []
  | x :: xs =>
    match f x with
    | .error e => .error e
    | .ok y =>
      match mapExc f xs with
      | .error e => .error e
      | .ok ys => .ok (y :: ys)

/-- Error-propagating fold (Python: an accumulating loop that raises out
of the caller). -/
def foldExc (f : σ → α → Except ε σ) : σ → List α → Except ε σ
  | s, [] => .ok s
  | s, x :: xs =>
    match f s x with
    | .error e => .error e
    | .ok s1 => foldExc f s1 xs

/-- Two value objects carry the identical label-tuple: their label dicts
agree as partial maps (Python dict equality ignores insertion order). -/
def sameTuple (a b : ValueObject L V) : Prop :=
  ∀ k, getLbl a k = getLbl b k

/-- Boolean test for `sameTuple`: compare lookups over the keys of both. -/
def sameTupleB (a b : ValueObject L V) : Bool :=
  (labelKeys a ++ labelKeys b).all (fun k => getLbl a k == getLbl b k)

/-!  ## Selection engine

Modelled from the spec (§4.1): the `paramtools.select` module is not under
src/.  A predicate maps a label to the admissible values (a scalar query is
the singleton list; a list query is membership, logical OR within one label,
AND across labels).  With `exact_match`, a record lacking a queried label —
so its value cannot be part of the match basis — is excluded rather than
treated as a wildcard, ensuring comparison against the precise combination.
-/

/-- Modelled from the spec: the common filter underlying `select_*`, with a
comparison function applied between the record's label value and each
predicate value. -/
def selectCmp (cmp : L → L → Bool) (vos : List (ValueObject L V)) (exact : Bool)
    (preds : List (String × List L)) : List (ValueObject L V) :=
  vos.filter fun vo =>
    preds.all fun p =>
      match getLbl vo p.1 with
      | some x => p.2.any (fun v => cmp x v)
      | none => !exact

/-- Modelled from the spec: `select_eq` — all records matching every
predicate by equality. -/
def select_eq (vos : List (ValueObject L V)) (exact : Bool)
    (preds : List (String × List L)) : List (ValueObject L V) :=
  selectCmp (fun x v => x = v) vos exact preds

/-- Modelled from the spec: `select_ne` — the complement of `select_eq`
under the same predicate semantics. -/
def select_ne (vos : List (ValueObject L V)) (exact : Bool)
    (preds : List (String × List L)) : List (ValueObject L V) :=
  vos.filter fun vo =>
    ¬ (preds.all fun p =>
      match getLbl vo p.1 with
      | some x => p.2.any (fun v => x = v)
      | none => !exact)

/-- Modelled from the spec: `select_gt_ix` — "greater than" by position in
an explicit grid; used exclusively by the extension algorithm. -/
def select_gt_ix (vos : List (ValueObject L V)) (exact : Bool)
    (preds : List (String × List L)) (grid : List L) : List (ValueObject L V) :=
  selectCmp (fun x v => gridIdx grid v < gridIdx grid x) vos exact preds

/-!  ## Update merger (`Parameters._update_param`)

The source scans the current list once per incoming record, recording
matches (`matched_at_least_once`), collecting indices `to_delete` of
matching records when the incoming value is the `null` sentinel and
overwriting the value field of matching records otherwise; collected
indices are deleted after the scan (in reverse, which removes exactly the
matched elements preserving the order of the rest), and the incoming
record is appended when nothing matched and it is not a delete.  The scan
`all(curr_vals[j][k] == new_values[i][k] for k in labels_to_check)`
short-circuits at the first non-equal key and raises `KeyError` when it
reaches a key the current record lacks; `matchKeys` reproduces exactly
that: `.error k` is the `KeyError`.
-/

/-- The short-circuiting key scan of `_update_param`: for each key of the
incoming record in dict order, compare the current record's value at that
key (`KeyError` — `.error k` — if absent) with the incoming one, stopping
at the first mismatch. -/
def matchKeys (cv nv : ValueObject L V) : List String → Except String Bool
  | [] => .ok true
  | k :: ks =>
    match getLbl cv k with
    | none => .error k
    | some x => if some x = getLbl nv k then matchKeys cv nv ks else .ok false

/-- The inner `j`-loop of `_update_param`: annotate every current record
with its match flag, applying the in-place value overwrite the moment a
match is found (as the source does).  On a `KeyError` the already-scanned
prefix keeps its overwrites, the rest of the list is untouched and
unmatched, and the error is reported — the state Python leaves behind when
the exception fires mid-loop. -/
def scanAnnot (nv : ValueObject L V) :
    List (ValueObject L V) → List (ValueObject L V × Bool) × Option String
  | [] => ([], none)
  | cv :: rest =>
    match matchKeys cv nv (labelKeys nv) with
    | .error k => ((cv, false) :: rest.map (fun w => (w, false)), some k)
    | .ok false =>
      let t := scanAnnot nv rest
      ((cv, false) :: t.1, t.2)
    | .ok true =>
      let cv' := if nv.value = none then cv else { cv with value := nv.value }
      let t := scanAnnot nv rest
      ((cv', true) :: t.1, t.2)

/-- Application of one incoming record (`i`-th iteration of
`_update_param`): overwrites happen during the scan; matched records are
deleted after it when the incoming value is the sentinel (collected
indices removed in reverse ≡ dropping exactly the matched elements); the
incoming record is appended when nothing matched and it is not a delete.
A `KeyError` aborts before the deletions and the append. -/
def updateStep (nv : ValueObject L V) (curr : List (ValueObject L V)) :
    List (ValueObject L V) × Option String :=
  match scanAnnot nv curr with
  | (annot, some k) => (annot.map (fun p => p.1), some k)
  | (annot, none) =>
    let matched := annot.any (fun p => p.2)
    let kept :=
      if nv.value = none then
        annot.filterMap (fun p => if p.2 then none else some p.1)
      else
        annot.map (fun p => p.1)
    (if ¬ matched ∧ nv.value ≠ none then kept ++ [nv] else kept, none)

/-- `Parameters._update_param`: fold the incoming records, each applied to
the list produced by the previous ones (the source re-reads
`self._data[param]["value"]` at every iteration); an uncaught `KeyError`
leaves the effects of the completed iterations in place. -/
def updateParam (curr : List (ValueObject L V)) :
    List (ValueObject L V) → List (ValueObject L V) × Option String
  | [] => (curr, none)
  | nv :: rest =>
    match updateStep nv curr with
    | (l, some k) => (l, some k)
    | (l, none) => updateParam l rest

/-!  ## Array projection (`to_array` / `from_array` / `_resolve_order`)

A NumPy array is embedded as its shape plus a write log (newest entry
first); `np.empty` starts with an empty log, assignment prepends, reading
returns the latest write at an index (`none` for a never-written cell,
whose NumPy content is unspecified garbage).
-/

/-- The embedded `np.ndarray`: shape and mutation log (newest first). -/
structure NpArray (V : Type) where
  shape : List Nat
  writes : List (List Nat × V)
  deriving DecidableEq

/-- `arr[ix] = v`. -/
def writeArr (a : NpArray V) (ix : List Nat) (v : V) : NpArray V :=
  { a with writes := (ix, v) :: a.writes }

/-- `arr[ix]`: the latest value written at `ix`. -/
def readArr (a : NpArray V) (ix : List Nat) : Option V :=
  (a.writes.find? (fun p => p.1 = ix)).map Prod.snd

/-- `np.array([])`, the early return of `to_array` on an empty selection. -/
def emptyNp : NpArray V := { shape := [0], writes := [] }

/-- Errors raised by array projection: the Inconsistent-Labels failure, the
Sparse-grid failure (carrying the missing combinations), a `KeyError` on a
record lacking a resolved label, a `list.index` `ValueError` for a label
value absent from its grid, and the failure of writing the `null` sentinel
into a typed array. -/
inductive ProjErr (L : Type) where
  | inconsistent
  | sparse (missing : List (List L))
  | keyErr (k : String)
  | indexErr
  | badValue
  deriving DecidableEq

/-- Modelled from the spec: `utils.consistent_labels` (the `utils` module is
not under src/) — the label keys shared by every value object, or `none`
when some object adds or omits labels relative to the others. -/
def sameKeySetB (ks ls : List String) : Bool :=
  ks.all (fun k => k ∈ ls) && ls.all (fun k => k ∈ ks)

/-- Modelled from the spec: label-set consistency check; returns the used
label set (the first record's keys) when all records agree as sets. -/
def consistentLabels : List (ValueObject L V) → Option (List String)
  | [] => some []
  | vo :: rest =>
    if rest.all (fun w => sameKeySetB (labelKeys vo) (labelKeys w)) then
      some (labelKeys vo)
    else
      none

/-- `Parameters._resolve_order` applied to the already-selected value items
(the source re-runs the same `select_eq(param, False, **state)` it ran in
`to_array`, yielding the same list): the labels of the working grid that
are used by the records, in grid key order, paired with their ordered grid
values. -/
def resolveOrderItems (grid : List (String × List L)) (items : List (ValueObject L V)) :
    Except (ProjErr L) (List (String × List L)) :=
  match consistentLabels items with
  | none => .error .inconsistent
  | some used => .ok (grid.filter (fun p => p.1 ∈ used))

/-- `itertools.product` over a list of per-label value lists (rightmost
label varies fastest). -/
def cartProd : List (List α) → List (List α)
  | [] => [[]]
  | xs :: rest => xs.flatMap (fun x => (cartProd rest).map (fun t => x :: t))

/-- The label-tuple of a record along a label order (`tuple(vo[d] for d in
label_order)`; `none` components model the `KeyError` case precluded by
label-set consistency). -/
def tupleOf (lo : List String) (vo : ValueObject L V) : List (Option L) :=
  lo.map (getLbl vo)

/-- `value_order[label].index(vi[label])` with its `ValueError` on a value
absent from the grid order. -/
def indexOfE (vals : List L) (x : L) : Except (ProjErr L) Nat :=
  if x ∈ vals then .ok (gridIdx vals x) else .error .indexErr

/-- The multi-index of a record (`ix` in the write loop of `to_array`):
the position of each of its label values in the matching grid order. -/
def recordIx (order : List (String × List L)) (vi : ValueObject L V) :
    Except (ProjErr L) (List Nat) :=
  mapExc (fun p =>
    match getLbl vi p.1 with
    | none => .error (ProjErr.keyErr p.1)
    | some x => indexOfE p.2 x) order

/-- One write of the `to_array` fill loop: compute the record's
multi-index and assign its value (`arr[ix] = vi["value"]`; assigning the
`null` sentinel into a typed array fails). -/
def writeStep (order : List (String × List L)) (arr : NpArray V)
    (vi : ValueObject L V) : Except (ProjErr L) (NpArray V) :=
  match recordIx order vi with
  | .error e => .error e
  | .ok ix =>
    match vi.value with
    | some v => .ok (writeArr arr ix v)
    | none => .error .badValue

/-- `Parameters.to_array`: select by state; empty selection returns
`np.array([])`; resolve the order; compare the record count with the full
grid product, reporting the missing combinations on a mismatch (the
Sparse-grid failure); otherwise write every record's value at its
multi-index in a fresh array. -/
def toArray (grid : List (String × List L)) (state : List (String × List L))
    (data : List (ValueObject L V)) : Except (ProjErr L) (NpArray V) :=
  let value_items := select_eq data false state
  if value_items.isEmpty then
    .ok emptyNp
  else
    match resolveOrderItems grid value_items with
    | .error e => .error e
    | .ok order =>
    let lo := order.map Prod.fst
    let shape := order.map (fun p => p.2.length)
    let expFullShape := shape.prod
    if value_items.length ≠ expFullShape then
      let expGrid := cartProd (order.map Prod.snd)
      let actual := value_items.map (tupleOf lo)
      .error (.sparse (expGrid.filter (fun t => ¬ (t.map some ∈ actual))))
    else
      foldExc (writeStep order) (NpArray.mk shape []) value_items

/-- The multi-index of a grid combination: each component's position in
its grid order. -/
def ixTuple (order : List (String × List L)) (c : List L) : List Nat :=
  List.zipWith (fun p x => gridIdx p.2 x) order c

/-- `Parameters.from_array`: resolve the order from the state-filtered
records, then read the array back along the cartesian product of the value
orders zipped with the product of their index ranges, one value object per
combination. -/
def fromArray (grid : List (String × List L)) (state : List (String × List L))
    (data : List (ValueObject L V)) (array : NpArray V) :
    Except (ProjErr L) (List (ValueObject L V)) :=
  match resolveOrderItems grid (select_eq data false state) with
  | .error e => .error e
  | .ok order =>
    let lo := order.map Prod.fst
    let combos := cartProd (order.map Prod.snd)
    let idxs := cartProd (order.map (fun p => List.range p.2.length))
    .ok ((combos.zip idxs).map (fun t =>
      { labels := lo.zip t.1, value := readArr array t.2 }))

/-!  ## Dictionary state helpers

Python dict mutation on the instance dictionaries (`self._data[param]`,
`self._state`, `self.label_grid`): setting an existing key keeps its
position, a new key is appended.
-/

/-- Dict lookup. -/
def lookupAssoc : List (String × β) → String → Option β
  | [], _ => none
  | (k, v) :: rest, q => if k = q then some v else lookupAssoc rest q

/-- `d[k] = v`. -/
def setAssoc (m : List (String × β)) (k : String) (v : β) : List (String × β) :=
  if m.any (fun p => p.1 = k) then
    m.map (fun p => if p.1 = k then (k, v) else p)
  else
    m ++ [(k, v)]

/-- `d.update(other)` (each binding of `other` set in order). -/
def updateAssoc (m other : List (String × β)) : List (String × β) :=
  other.foldl (fun acc p => setAssoc acc p.1 p.2) m

/-- `dict(value_object, **{label: val})`: copy the record, setting one
label (replacing it in place when present, appending it otherwise). -/
def setLabel (vo : ValueObject L V) (k : String) (x : L) : ValueObject L V :=
  { vo with labels := setAssoc vo.labels k x }

/-!  ## Parameter state and the external collaborators

The schema collaborator (out of scope per spec §1/§6) is consumed as
opaque capabilities carried in `Ctx`: `validate` is the composition of
`self._validator_schema.load` with the boundary normalization of
`_parse_errors` (one call that either returns the parsed adjustment or the
per-parameter messages-plus-label-contexts failure shape), and each label
validator's `deserialize` is reduced to the error message it produces on
failure.  `St` carries the mutable fields of a `Parameters` instance that
the claims observe; the dynamic per-parameter attribute views recomputed by
the trailing `_set_state(params=...)` (spec §4.6/§9) are outside the
modelled state, so that call is the identity on `St` — it never touches
`_data`, `_errors`, `_state` or the working grid when called without label
arguments on an instance whose grid is already synced to its state.
-/

/-- The normalized failure shape stored in `self._errors` (`messages` and
`labels` keys, replaced wholesale by each `_parse_errors`). -/
structure ErrInfo (L : Type) where
  messages : List (String × List (List String))
  labelCtxs : List (String × List (List (String × L)))
  deriving DecidableEq

/-- Exceptions observable from `adjust` / `extend`. -/
inductive AdjErr (L : Type) where
  /-- `ValidationError` (raised from stored `_errors`). -/
  | validation (e : ErrInfo L)
  /-- A Python `KeyError` escaping `_update_param` or `extend`. -/
  | keyError (k : String)
  /-- A Python `ValueError` from `grid.index` on an off-grid value. -/
  | indexError
  /-- Recursion budget exhausted (shown unreachable: claim C6). -/
  | outOfFuel
  deriving DecidableEq

/-- Static configuration of a `Parameters` subclass plus its external
schema collaborator. -/
structure Ctx (L V : Type) where
  labelToExtend : Option String
  statelessGrid : List (String × List L)
  validate : List (String × List (ValueObject L V)) →
    Except (ErrInfo L) (List (String × List (ValueObject L V)))

/-- The mutable fields of a `Parameters` instance observed by the claims:
`self._data[param]["value"]` per parameter, `self._errors` (`none` is the
empty dict), `self._state` (values listified: a scalar is its singleton),
`self.label_grid`, and `self.array_first`. -/
structure St (L V : Type) where
  data : List (String × List (ValueObject L V))
  errors : Option (ErrInfo L)
  state : List (String × List L)
  labelGrid : List (String × List L)
  arrayFirst : Bool
  deriving DecidableEq

/-- `self._data[param]["value"]`. -/
def dataOf (st : St L V) (p : String) : List (ValueObject L V) :=
  (lookupAssoc st.data p).getD []

/-- Write one parameter's value list back. -/
def setData (st : St L V) (p : String) (vs : List (ValueObject L V)) : St L V :=
  { st with data := setAssoc st.data p vs }

/-!  ## `Parameters._set_state`

Only the label-validation phase and the `_state` / `label_grid` mutation
are modelled (the subsequent view recomputation does not touch them; see
above).  A label validator is modelled as the message its `deserialize`
returns on failure (`none` = value accepted).  The `messages` dict is
built in supplied-label order, later failures for the same label
overwriting earlier ones, exactly as the source's dict assignment does.
-/

/-- One supplied label's turn of the validation loop of `_set_state`: an
undeclared name records its message; otherwise each value is deserialized,
a failure recording its message (later failures for the same label
overwrite earlier ones, as the source's dict assignment does). -/
def ssInner (validators : List (String × (L → Option String)))
    (msgs : List (String × String)) (p : String × List L) :
    List (String × String) :=
  match lookupAssoc validators p.1 with
  | none => setAssoc msgs p.1 (p.1 ++ " is not a valid label.")
  | some deserialize =>
    p.2.foldl
      (fun msgs2 v =>
        match deserialize v with
        | some m => setAssoc msgs2 p.1 m
        | none => msgs2)
      msgs

/-- The `messages` dict accumulated by `_set_state`. -/
def ssMessages (validators : List (String × (L → Option String)))
    (labels : List (String × List L)) : List (String × String) :=
  labels.foldl (ssInner validators) []

/-- The outcome of `_set_state`: either the `ValidationError` carrying the
per-label messages (state untouched), or the mutated state: the supplied
labels merged into `_state` and the working grid rewritten from the new
state. -/
def setStateF (validators : List (String × (L → Option String)))
    (st : St L V) (labels : List (String × List L)) :
    St L V × Option (List (String × String)) :=
  let messages := ssMessages validators labels
  if messages.isEmpty then
    let newState := updateAssoc st.state labels
    let newGrid := newState.foldl (fun g p => setAssoc g p.1 p.2) st.labelGrid
    ({ st with state := newState, labelGrid := newGrid }, none)
  else
    (st, some messages)

/-!  ## The extension algorithm (`Parameters.extend`) and `Parameters.adjust`

`adjust` and `extend` are mutually recursive in the source; every inner
re-entry passes `extend_adj=False`.  We embed the recursion with an
explicit fuel: `adjustFuel (fuel+1)` runs the adjustment body with all
inner calls at fuel `fuel`, and fuel 0 reports `outOfFuel`.  Claim C6
shows two units of fuel always suffice — the recursion is bounded to
depth 1 exactly because the inner calls disable extension.
-/

/-- A stable sort by a bounded natural key, as Python's `sorted(xs, key=...)`
(a stable sort whose keys are computed once per element). -/
def sortByKey (keyOf : α → Nat) (bound : Nat) (xs : List α) : List α :=
  (List.range (bound + 1)).flatMap (fun i => xs.filter (fun x => keyOf x = i))

/-- Modelled from the spec: `utils.hashable_value_object` only serves to
put value-object dicts in a `set`; equality of the hashable forms is dict
equality, which we use directly for set membership. -/
def voEquivB (a b : ValueObject L V) : Bool :=
  sameTupleB a b && (a.value == b.value)

/-- Membership in the `extended_vos` set (dict equality). -/
def memVoSet (s : List (ValueObject L V)) (vo : ValueObject L V) : Bool :=
  s.any (fun w => voEquivB w vo)

/-- Modelled from the spec: `utils.grid_sort` — the incoming records of one
parameter processed in extend-label grid order (records lacking the label
sort first; they are skipped by the callers' loops). -/
def gridSortVos (lbl : String) (grid : List L) (vos : List (ValueObject L V)) :
    List (ValueObject L V) :=
  sortByKey
    (fun vo => match getLbl vo lbl with | some x => gridIdx grid x | none => 0)
    grid.length vos

/-- Generic dict lookup keyed by a label value (`extended[...]`). -/
def lookupByL : List (L × β) → L → Option β
  | [], _ => none
  | (k, v) :: rest, q => if k = q then some v else lookupByL rest q

/-- `extended.pop(key)`: drop the binding. -/
def removeByL : List (L × β) → L → List (L × β)
  | [], _ => []
  | (k, v) :: rest, q => if k = q then rest else (k, v) :: removeByL rest q

/-- `defaultdict(list)` append: extend the entry's list, creating the entry
on its first append. -/
def appendByL (m : List (L × List β)) (k : L) (vs : List β) : List (L × List β) :=
  match lookupByL m k with
  | some old =>
    m.map (fun p => if p.1 = k then (k, old ++ vs) else p)
  | none => if vs.isEmpty then m else m ++ [(k, vs)]

/-- Accumulator of the missing-value fill loop of `extend`: the `extended`
dict of freshly filled records by grid value, the `extended_vos` set, and
the records appended to `adjustment[param]`. -/
structure FillAcc (L V : Type) where
  extended : List (L × List (ValueObject L V))
  exVos : List (ValueObject L V)
  adj : List (ValueObject L V)

/-- The `for val in missing_vals` loop of `extend`: at grid index 0 the
fill source is the cohort's defined record with the smallest grid index;
otherwise the record freshly filled at the previous grid value when that
value was just filled (popping it from `extended`), or the cohort's
explicit record at the previous grid value.  Each source record is copied
with the extend label set to the missing value and collected. -/
def fillMissing (lbl : String) (grid : List L) (eq : List (ValueObject L V))
    (definedVals : List L) :
    List L → FillAcc L V → FillAcc L V
  | [], acc => acc
  | g :: rest, acc =>
    let i := gridIdx grid g
    let src :=
      if i = 0 then
        (match (grid.filter (fun d => d ∈ definedVals)).head? with
         | some fd => select_eq eq true [(lbl, [fd])]
         | none => [],
         acc.extended)
      else
        match grid.get? (i - 1) with
        | none => ([], acc.extended)
        | some gp =>
          match lookupByL acc.extended gp with
          | some vs => (vs, removeByL acc.extended gp)
          | none => (select_eq eq true [(lbl, [gp])], acc.extended)
    let exts := src.1.map (fun vo => setLabel vo lbl g)
    fillMissing lbl grid eq definedVals rest
      { extended := appendByL src.2 g exts
        exVos := src.1 ++ acc.exVos
        adj := acc.adj ++ exts }

/-- The body of `for vo in sorted(...)` in `extend`, for one record: skip
it when already marked extended; otherwise mark it, gather its cohort (the
records at strictly greater grid positions sharing all other labels), mark
those too, compute the cohort's defined and missing grid values, and run
the fill loop.  The accumulator pairs the `extended_vos` set with the
records appended to `adjustment[param]`. -/
def processVo (lbl : String) (grid : List L) (fullData : List (ValueObject L V))
    (acc : List (ValueObject L V) × List (ValueObject L V)) (vo : ValueObject L V) :
    List (ValueObject L V) × List (ValueObject L V) :=
  if memVoSet acc.1 vo then acc
  else
    match getLbl vo lbl with
    | none => acc
    | some x =>
      let gt := select_gt_ix fullData true [(lbl, [x])] grid
      let eq0 := select_eq gt true (predsOf (filterLabels vo [lbl]))
      let exVos := eq0 ++ vo :: acc.1
      let eq := eq0 ++ [vo]
      let definedVals := eq.filterMap (fun e => getLbl e lbl)
      let missing := grid.filter (fun g => ¬ g ∈ definedVals)
      if missing.isEmpty then (exVos, acc.2)
      else
        let res := fillMissing lbl grid eq definedVals missing ⟨[], exVos, acc.2⟩
        (res.exVos, res.adj)

/-- One parameter's pass of `extend`: skipped when no record carries the
extend label; otherwise the per-record sort keys are computed (a record
lacking the label is the `KeyError` of the sort key, an off-grid value the
`ValueError` of `grid.index`), the records are processed in grid order and
the generated records for `adjustment[param]` returned. -/
def extendParam (lbl : String) (grid : List L)
    (fullData values : List (ValueObject L V)) :
    Except (AdjErr L) (List (ValueObject L V)) :=
  if ¬ values.any (fun vo => (getLbl vo lbl).isSome) then .ok []
  else
    match mapExc (fun vo =>
      match getLbl vo lbl with
      | none => .error (AdjErr.keyError lbl)
      | some x =>
        let i := gridIdx grid x
        if i = grid.length then .error AdjErr.indexError else .ok (i, vo)) values with
    | .error e => .error e
    | .ok keyed =>
      let sorted := (sortByKey (fun pr => pr.1) grid.length keyed).map Prod.snd
      .ok (sorted.foldl (processVo lbl grid fullData) ([], [])).2

/-- `spec = self.specification(meta_data=True)` restricted as `extend`
does: parameters with a non-empty state-filtered selection; with a `params`
restriction the full stored lists are used, otherwise the state-filtered
selections. -/
def extendSpec (st : St L V) (params : Option (List String)) :
    List (String × List (ValueObject L V)) :=
  let spec0 := st.data.filter (fun pd => ¬ (select_eq pd.2 false st.state).isEmpty)
  match params with
  | none => spec0.map (fun pd => (pd.1, select_eq pd.2 false st.state))
  | some ps => (spec0.filter (fun pd => pd.1 ∈ ps)).map (fun pd => (pd.1, dataOf st pd.1))

/-- The `to_delete` batch of the extend branch of `adjust`, for one
parameter: for each incoming record carrying the extend label, every
stored record at a strictly greater grid position sharing all its other
labels, marked with the delete sentinel. -/
def toDeleteList (lbl : String) (grid : List L)
    (fullData vos : List (ValueObject L V)) : List (ValueObject L V) :=
  ((gridSortVos lbl grid vos).foldl
    (fun td vo =>
      match getLbl vo lbl with
      | none => td
      | some x =>
        let gt := select_gt_ix fullData true [(lbl, [x])] grid
        let eq := select_eq gt true (predsOf (filterLabels vo [lbl]))
        td ++ eq)
    []).map (fun td => { td with value := none })

/-- An adjustment: parameter name to incoming records. -/
def Adjustment (L V : Type) := List (String × List (ValueObject L V))

/-- The non-extending adjustment path (`adjust` with `extend_adj=False`):
the signature of the inner re-entries from `extend` and from the extend
branch of `adjust`. -/
def NEFun (L V : Type) :=
  Ctx L V → St L V → Adjustment L V → Bool →
    St L V × Except (AdjErr L) (Adjustment L V)

/-- The signature of `extend` (`params`, `raise_errors`). -/
def ExtFun (L V : Type) :=
  Ctx L V → St L V → Option (List String) → Bool → St L V × Option (AdjErr L)

/-- The observable outcome of one parameter's delete/merge/extend sequence
in the extend branch of `adjust`: completed, caught `ValidationError` with
rollback, or an uncaught exception. -/
inductive StepOutcome (L : Type) where
  | completed
  | rolledBack
  | raised (e : AdjErr L)
  deriving DecidableEq

/-- `for param, value in parsed_params.items(): self._update_param(...)`;
an uncaught `KeyError` aborts the loop, keeping earlier updates. -/
def updateLoop : St L V → Adjustment L V → St L V × Option (AdjErr L)
  | st, [] => (st, none)
  | st, (p, vs) :: rest =>
    match updateParam (dataOf st p) vs with
    | (l, some k) => (setData st p l, some (.keyError k))
    | (l, none) => updateLoop (setData st p l) rest

/-- The tail of `adjust`: `if raise_errors and self._errors: raise
self.validation_error`, then the trailing `_set_state(params=...)` (the
identity on the modelled fields) and the return of the parsed
adjustment. -/
def finishAdjust (st : St L V) (raiseErrors : Bool) (parsed : Adjustment L V) :
    St L V × Except (AdjErr L) (Adjustment L V) :=
  match st.errors with
  | some e => if raiseErrors then (st, .error (.validation e)) else (st, .ok parsed)
  | none => (st, .ok parsed)

/-- `Parameters.extend` given the inner adjustment path: resolve the extend
label and its stateless grid, build the pending batch over the restricted
specification, and apply the entire batch as one adjustment with extension
disabled. -/
def extendWith (adj : NEFun L V) : ExtFun L V := fun ctx st params raiseErrors =>
  match ctx.labelToExtend with
  | none => (st, some (.keyError "label_to_extend"))
  | some lbl =>
    match lookupAssoc ctx.statelessGrid lbl with
    | none => (st, some (.keyError lbl))
    | some extendGrid =>
      match foldExc
        (fun acc pv =>
          match extendParam lbl extendGrid (dataOf st pv.1) pv.2 with
          | .error e => .error e
          | .ok fills => .ok (if fills.isEmpty then acc else acc ++ [(pv.1, fills)]))
        ([] : Adjustment L V) (extendSpec st params) with
      | .error e => (st, some e)
      | .ok adjustment =>
        match adj ctx st adjustment raiseErrors with
        | (st1, .error e) => (st1, some e)
        | (st1, .ok _) => (st1, none)

/-- One parameter's delete/merge/extend sequence in the extend branch of
`adjust`: compute the delete batch, snapshot the parameter, set
`array_first` to `False`, apply the deletions and then the incoming
records through the inner adjustment path, restore `array_first`, extend
the parameter; a `ValidationError` anywhere in the sequence restores the
snapshot for this parameter only, any other exception propagates. -/
def stepWith (adj : NEFun L V) (ext : ExtFun L V) (ctx : Ctx L V) (st : St L V)
    (p : String) (vos : List (ValueObject L V)) : St L V × StepOutcome L :=
  match ctx.labelToExtend with
  | none => (st, .raised (.keyError "label_to_extend"))
  | some lbl =>
    let extendGrid := (lookupAssoc ctx.statelessGrid lbl).getD []
    let toDelete := toDeleteList lbl extendGrid (dataOf st p) vos
    let backup := dataOf st p
    let st1 := { st with arrayFirst := false }
    match adj ctx st1 [(p, toDelete)] true with
    | (st2, .error (.validation _)) => (setData st2 p backup, .rolledBack)
    | (st2, .error e) => (st2, .raised e)
    | (st2, .ok _) =>
      match adj ctx st2 [(p, vos)] true with
      | (st3, .error (.validation _)) => (setData st3 p backup, .rolledBack)
      | (st3, .error e) => (st3, .raised e)
      | (st3, .ok _) =>
        let st4 := { st3 with arrayFirst := st.arrayFirst }
        match ext ctx st4 (some [p]) true with
        | (st5, some (.validation _)) => (setData st5 p backup, .rolledBack)
        | (st5, some e) => (st5, .raised e)
        | (st5, none) => (st5, .completed)

/-- The extend branch's `for param, vos in parsed_params.items()` loop:
run the per-parameter sequence, recording each outcome; an uncaught
exception aborts the loop and propagates. -/
def extLoopWith (adj : NEFun L V) (ext : ExtFun L V) (ctx : Ctx L V) :
    St L V → Adjustment L V →
      St L V × List (String × StepOutcome L) × Option (AdjErr L)
  | st, [] => (st, [], none)
  | st, (p, vos) :: rest =>
    match stepWith adj ext ctx st p vos with
    | (st1, StepOutcome.raised e) => (st1, [(p, .raised e)], some e)
    | (st1, o) =>
      let t := extLoopWith adj ext ctx st1 rest
      (t.1, (p, o) :: t.2.1, t.2.2)

/-- The body of `Parameters.adjust` given the inner re-entry functions:
validate (a failure replaces the stored `_errors` wholesale via
`_parse_errors` and skips application); when `_errors` is empty apply the
parsed adjustment through the extend branch (when an extend label is
configured and `extend_adj` holds) or directly through the update merger;
finally raise the stored errors when requested. -/
def adjustBody (adj : NEFun L V) (ext : ExtFun L V) (ctx : Ctx L V) (st : St L V)
    (params : Adjustment L V) (raiseErrors extendAdj : Bool) :
    St L V × Except (AdjErr L) (Adjustment L V) :=
  match ctx.validate params with
  | .error ve => finishAdjust { st with errors := some ve } raiseErrors []
  | .ok parsed =>
    if st.errors.isSome then
      finishAdjust st raiseErrors parsed
    else if ctx.labelToExtend.isSome && extendAdj then
      match extLoopWith adj ext ctx st parsed with
      | (st1, _, some e) => (st1, .error e)
      | (st1, _, none) => finishAdjust st1 raiseErrors parsed
    else
      match updateLoop st parsed with
      | (st1, some e) => (st1, .error e)
      | (st1, none) => finishAdjust st1 raiseErrors parsed

/-- The fuelled tying of the recursive knot: all inner re-entries run at
one unit less fuel and with `extend_adj=False`, as in the source. -/
def adjustFuel :
    Nat → Ctx L V → St L V → Adjustment L V → Bool → Bool →
      St L V × Except (AdjErr L) (Adjustment L V)
  | 0, _, st, _, _, _ => (st, .error .outOfFuel)
  | fuel + 1, ctx, st, ps, re, ea =>
    adjustBody
      (fun c s q r => adjustFuel fuel c s q r false)
      (extendWith (fun c s q r => adjustFuel fuel c s q r false))
      ctx st ps re ea

/-- `Parameters.extend` at a given fuel. -/
def extendFuel (fuel : Nat) : ExtFun L V :=
  extendWith (fun c s q r => adjustFuel fuel c s q r false)

/-- `Parameters.adjust` (two units of fuel always suffice: claim C6). -/
def adjustRun (ctx : Ctx L V) (st : St L V) (params : Adjustment L V)
    (raiseErrors extendAdj : Bool) :
    St L V × Except (AdjErr L) (Adjustment L V) :=
  adjustFuel 2 ctx st params raiseErrors extendAdj

/-- `Parameters.extend` (one unit of inner fuel suffices: claim C6). -/
def extendRun (ctx : Ctx L V) (st : St L V) (params : Option (List String))
    (raiseErrors : Bool) : St L V × Option (AdjErr L) :=
  extendFuel 1 ctx st params raiseErrors

/-!  ## Concrete instances used by the witnesses -/

/-- A concrete stored failure shape. -/
def eInfo0 : ErrInfo Int := ErrInfo.mk [("p", [["msg"]])] []

/-- A configuration whose external validator always fails with `eInfo0`. -/
def ctxFail : Ctx Int Int := Ctx.mk none [] (fun _ => .error eInfo0)

/-- A configuration whose external validator accepts everything. -/
def ctxOk : Ctx Int Int := Ctx.mk none [] (fun a => .ok a)

/-- An empty instance state. -/
def stEmpty : St Int Int := St.mk [] none [] [] false

/-- An instance state carrying a previously stored failure. -/
def stErr : St Int Int := St.mk [] (some eInfo0) [] [] false

/-- A label-validator table declaring only the label `"y"`, accepting
every value. -/
def vals0 : List (String × (Int → Option String)) := [("y", fun _ => none)]

/-- A two-value grid on one label. -/
def grid3 : List (String × List Int) := [("y", [2020, 2021])]

/-- A sparse record set: one record over a two-cell grid. -/
def data3 : List (ValueObject Int Int) := [ValueObject.mk [("y", 2020)] (some 5)]

/-- A dense record set over `grid3`. -/
def data3b : List (ValueObject Int Int) :=
  [ValueObject.mk [("y", 2020)] (some 5), ValueObject.mk [("y", 2021)] (some 6)]

/-- The record removed from `data3b`. -/
def vo3 : ValueObject Int Int := ValueObject.mk [("y", 2020)] (some 5)

/-- A configuration with the extend label `"y"` on a two-value stateless
grid and an accepting external validator. -/
def ctx7 : Ctx Int Int := Ctx.mk (some "y") [("y", [2020, 2021])] (fun a => .ok a)

/-- An instance state holding one parameter with one record. -/
def st7 : St Int Int :=
  St.mk [("p", [ValueObject.mk [("y", 2020)] (some 5)])] none [] [("y", [2020, 2021])] false

/-- A one-parameter adjustment. -/
def params7 : Adjustment Int Int := [("p", [ValueObject.mk [("y", 2021)] (some 7)])]

/-- The non-extending inner adjustment path at one unit of fuel. -/
def adj7 : NEFun Int Int := fun c s a r => adjustFuel 1 c s a r false

/-- `extend` over `adj7`. -/
def ext7 : ExtFun Int Int := extendWith adj7

/-- A cohort of the extension claims: the fixed non-extend labels split
around the extend label's position in the record dict (`pre`/`post`), and
the grid values at which the cohort is explicit. -/
structure Cohort (L : Type) where
  pre : List (String × L)
  post : List (String × L)
  vals : List L
  deriving DecidableEq

/-- The cohort's non-extend label dict — the basis the per-record
`filter_labels(vo, drop=[label])` query is built from. -/
def cohortBase (c : Cohort L) : List (String × L) :=
  c.pre ++ c.post

/-- A record of a cohort: its base labels with the extend label at a grid
value, holding a value — both the explicit records and the generated fills
have this shape. -/
def cohortVO (lbl : String) (c : Cohort L) (d : L) (w : Option V) :
    ValueObject L V :=
  ValueObject.mk (c.pre ++ (lbl, d) :: c.post) w

/-- The cohort's explicit record at a grid value, its value given by the
value table `F` (indexed by the base labels and the grid value). -/
def cohortRecB (lbl : String) (F : List (String × L) → L → V) (c : Cohort L)
    (d : L) : ValueObject L V :=
  cohortVO lbl c d (some (F (cohortBase c) d))

/-- A parameter's record list made of the explicit records of a family of
cohorts. -/
def cohortData (lbl : String) (F : List (String × L) → L → V)
    (cs : List (Cohort L)) : List (ValueObject L V) :=
  cs.flatMap (fun c => c.vals.map (cohortRecB lbl F c))

/-- The cohort's defined-value map over the grid. -/
def definedOf (F : List (String × L) → L → V) (c : Cohort L) :
    L → Option V :=
  fun g => if g ∈ c.vals then some (F (cohortBase c) g) else none

/-- The value of the cohort's defined record with the smallest grid index
(the fill source at grid index 0 per the spec's recurrence). -/
def firstDefined (defined : L → Option V) : List L → Option V
  | [] => none
  | g :: rest =>
    match defined g with
    | some v => some v
    | none => firstDefined defined rest

/-- Modelled from the spec: the forward-fill recurrence of the extension
algorithm, written from the spec's words as the reference side of the
refinement — walk the grid in order carrying the value at the previous
position (explicit where defined, freshly filled otherwise; the fill
source at index 0 is the first defined value), emitting one generated
record (built by `mkr`, which keeps the cohort's base labels) per missing
grid value. -/
def specFills (mkr : L → Option V → ValueObject L V)
    (defined : L → Option V) :
    Option V → List L → List (ValueObject L V)
  | _, [] => []
  | prev, g :: rest =>
    match defined g with
    | some v => specFills mkr defined (some v) rest
    | none => mkr g prev :: specFills mkr defined prev rest

/-- Modelled from the spec: the full expected batch of generated records
for one cohort — the forward-fill walk seeded with the first defined
value. -/
def specExtend (mkr : L → Option V → ValueObject L V)
    (defined : L → Option V) (grid : List L) : List (ValueObject L V) :=
  specFills mkr defined (firstDefined defined grid) grid

/-- The expected generated batch for one cohort of a family: forward-fill
over the cohort's defined values, each emitted record carrying the
cohort's base labels. -/
def specExtendCohort (lbl : String) (F : List (String × L) → L → V)
    (c : Cohort L) (grid : List L) : List (ValueObject L V) :=
  specExtend (cohortVO lbl c) (definedOf F c) grid

/-- The sort key of `utils.grid_sort` on a record: the grid position of its
extend-label value. -/
def extSortKey (lbl : String) (grid : List L) (vo : ValueObject L V) : Nat :=
  match getLbl vo lbl with
  | some x => gridIdx grid x
  | none => 0

/-- The exact-match selection predicate of `selectCmp` specialised to the
equality comparison over the scalar predicates of a cohort base, named so
the per-cohort match lemmas can be stated once. -/
def basePred (base : List (String × L)) (vo : ValueObject L V) : Bool :=
  (predsOf base).all fun p =>
    match getLbl vo p.1 with
    | some x => p.2.any (fun v => x = v)
    | none => !true

/-- The extension example configuration of the claims: extend label `"y"`
over the stateless grid `[2020, 2021, 2022]`, accepting validator. -/
def ctxC1 : Ctx Int Int :=
  Ctx.mk (some "y") [("y", [2020, 2021, 2022])] (fun a => .ok a)

/-- One parameter explicit only at `year=2020` with value `5`. -/
def stC1 : St Int Int :=
  St.mk [("p", [ValueObject.mk [("y", 2020)] (some 5)])] none []
    [("y", [2020, 2021, 2022])] false

/-- A two-cohort two-label configuration: marital status `m` crossed with
the extend label `"y"` on a two-value grid. -/
def ctxC1b : Ctx Int Int :=
  Ctx.mk (some "y") [("y", [2020, 2021])] (fun a => .ok a)

/-- Two multi-label cohorts (`m=0` and `m=1`), each explicit only at
`2020`. -/
def stC1b : St Int Int :=
  St.mk [("p", [ValueObject.mk [("m", 0), ("y", 2020)] (some 5),
                ValueObject.mk [("m", 1), ("y", 2020)] (some 6)])] none []
    [("y", [2020, 2021])] false

/-!  ## Derived notions used by the statements -/

/-- `sameTuple` is decidable via `sameTupleB`. -/
instance decSameTuple (a b : ValueObject L V) : Decidable (sameTuple a b) :=
  decidable_of_iff (sameTupleB a b = true) (by
    have hnone : ∀ (l : List (String × L)) (k : String),
        ¬ k ∈ l.map Prod.fst → lookupLbl l k = none := by
      intro l
      induction l with
      | nil => intro k _; rfl
      | cons p rest ih =>
        obtain ⟨k1, v1⟩ := p
        intro k hk
        simp only [List.map_cons, List.mem_cons] at hk
        push_neg at hk
        have hne : ¬ (k1 = k) := fun h => hk.1 h.symm
        simp only [lookupLbl]
        rw [if_neg hne]
        exact ih k hk.2
    constructor
    · intro h k
      rcases Classical.em (k ∈ labelKeys a ++ labelKeys b) with hin | hout
      · have := List.all_eq_true.mp h k hin
        exact eq_of_beq this
      · rw [List.mem_append] at hout
        push_neg at hout
        rw [getLbl, getLbl, hnone a.labels k hout.1, hnone b.labels k hout.2]
    · intro h
      refine List.all_eq_true.mpr ?_
      intro k _
      exact beq_iff_eq.mpr (h k))

/-- Value objects equal as Python dicts: same label map and same value. -/
def equivVO (a b : ValueObject L V) : Prop :=
  sameTuple a b ∧ a.value = b.value

instance (a b : ValueObject L V) : Decidable (equivVO a b) := by
  unfold equivVO; infer_instance

/-- No two records of the list share an identical label-tuple. -/
def DistinctTuples (l : List (ValueObject L V)) : Prop :=
  l.Pairwise (fun a b => ¬ sameTuple a b)

instance (l : List (ValueObject L V)) : Decidable (DistinctTuples l) := by
  unfold DistinctTuples; infer_instance

/-- Membership of a record in a record list up to dict equality. -/
def inVoSet (l : List (ValueObject L V)) (w : ValueObject L V) : Prop :=
  ∃ x ∈ l, equivVO x w

/-- Two record lists equal as sets of value objects (dict equality,
order-independent). -/
def eqAsVoSets (l₁ l₂ : List (ValueObject L V)) : Prop :=
  ∀ w, inVoSet l₁ w ↔ inVoSet l₂ w

/-- The `errors` view of a `Parameters` instance: the stored per-parameter
messages (`{}` when nothing is stored). -/
def errorsView (st : St L V) : List (String × List (List String)) :=
  match st.errors with
  | none => []
  | some e => e.messages

/-!  ## Theorems -/

/-- C10: when the state-filtered selection of a parameter is empty,
`to_array` returns the empty array and raises nothing — neither the
Sparse-grid failure nor the Inconsistent-Labels failure is reachable, so a
parameter whose records were all deleted or filtered out is never reported
as sparse. -/
theorem c10_empty_selection_to_array (grid state : List (String × List L))
    (data : List (ValueObject L V)) (h : select_eq data false state = []) :
    toArray grid state data = .ok emptyNp := by
  simp [toArray, h]

/-- Witness for C10: a parameter whose single record is filtered out by
the state yields the empty array. -/
theorem c10_witness :
    select_eq [ValueObject.mk [("y", (2020 : Int))] (some (5 : Int))] false
        [("y", [(2021 : Int)])] = [] ∧
      toArray [("y", [(2020 : Int), 2021])] [("y", [(2021 : Int)])]
        [ValueObject.mk [("y", (2020 : Int))] (some (5 : Int))] = .ok emptyNp :=
  ⟨rfl, c10_empty_selection_to_array _ _ _ rfl⟩

/-- C4 (divergence witness): the merge loop of `_update_param` raises a
`KeyError` — contradicting its own docstring, "For now, no exceptions are
raised by this method" — when an incoming record carries a label key that a
current record lacks: with current records `[{"value": 1}]` and adjustment
`[{"year": 2020, "value": 5}]`, the scan raises `KeyError("year")` instead
of appending the unmatched record. -/
theorem c4_update_param_keyerror :
    updateParam [ValueObject.mk ([] : List (String × Int)) (some (1 : Int))]
        [ValueObject.mk [("year", (2020 : Int))] (some (5 : Int))] =
      ([ValueObject.mk [] (some 1)], some "year") := rfl

/-- `sameTuple` only depends on the label dicts. -/
theorem sameTuple_congr {a a1 b b1 : ValueObject L V}
    (ha : a1.labels = a.labels) (hb : b1.labels = b.labels)
    (h : sameTuple a b) : sameTuple a1 b1 := by
  intro k
  rw [getLbl, getLbl, ha, hb]
  exact h k

/-- A scan that ends in `False` on a key certifies the tuples differ. -/
theorem matchKeys_false_not_sameTuple (cv nv : ValueObject L V) :
    ∀ (ks : List String), matchKeys cv nv ks = .ok false → ¬ sameTuple cv nv := by
  intro ks
  induction ks with
  | nil => intro h; simp [matchKeys] at h
  | cons k ks ih =>
    intro h hsame
    unfold matchKeys at h
    cases hg : getLbl cv k with
    | none => rw [hg] at h; cases h
    | some x =>
      rw [hg] at h
      dsimp only at h
      by_cases hx : some x = getLbl nv k
      · rw [if_pos hx] at h
        exact ih h hsame
      · exact hx (hg ▸ hsame k)

/-- Soundness of the completed match scan: each annotated record keeps the
original's labels; an unmatched one is the untouched original whose scan
returned `False`. -/
theorem scanAnnot_sound (nv : ValueObject L V) :
    ∀ (curr : List (ValueObject L V)) (annot : List (ValueObject L V × Bool)),
      scanAnnot nv curr = (annot, none) →
      List.Forall₂
        (fun cv p => (p : ValueObject L V × Bool).1.labels = cv.labels ∧
          (p.2 = false → p.1 = cv ∧ matchKeys cv nv (labelKeys nv) = .ok false))
        curr annot := by
  intro curr
  induction curr with
  | nil =>
    intro annot h
    simp only [scanAnnot] at h
    cases h
    exact List.Forall₂.nil
  | cons cv rest ih =>
    intro annot h
    simp only [scanAnnot] at h
    cases hm : matchKeys cv nv (labelKeys nv) with
    | error k => rw [hm] at h; cases h
    | ok b =>
      rw [hm] at h
      cases b with
      | false =>
        rw [Prod.mk.injEq] at h
        obtain ⟨h1, h2⟩ := h
        subst h1
        exact List.Forall₂.cons ⟨rfl, fun _ => ⟨rfl, hm⟩⟩ (ih _ (by rw [← h2]))
      | true =>
        rw [Prod.mk.injEq] at h
        obtain ⟨h1, h2⟩ := h
        subst h1
        refine List.Forall₂.cons ⟨?_, fun hcon => by cases hcon⟩ (ih _ (by rw [← h2]))
        split <;> rfl

theorem forall₂_mem_right {α β : Type} {R : α → β → Prop} :
    ∀ {l : List α} {l1 : List β}, List.Forall₂ R l l1 →
      ∀ b ∈ l1, ∃ a ∈ l, R a b := by
  intro l l1 h
  induction h with
  | nil => intro b hb; simp at hb
  | cons hR hrest ih =>
    intro b hb
    rcases List.mem_cons.mp hb with heq | hmem
    · exact ⟨_, by simp, heq ▸ hR⟩
    · obtain ⟨a, ha, hab⟩ := ih b hmem
      exact ⟨a, by simp [ha], hab⟩

/-- Tuple distinctness carries over to any list whose members' labels
correspond pointwise. -/
theorem distinct_of_forall₂_labels :
    ∀ (curr : List (ValueObject L V)) (annot : List (ValueObject L V × Bool)),
      List.Forall₂ (fun cv p => (p : ValueObject L V × Bool).1.labels = cv.labels)
        curr annot →
      DistinctTuples curr → DistinctTuples (annot.map (fun p => p.1)) := by
  intro curr annot hf
  induction hf with
  | nil => intro _; exact List.Pairwise.nil
  | @cons a p rest arest hR hrest ih =>
    intro hd
    cases hd with
    | cons hhead htail =>
      refine List.Pairwise.cons ?_ (ih htail)
      intro b hb hsame
      obtain ⟨q, hq, hqb⟩ := List.mem_map.mp hb
      obtain ⟨c, hc, hcl⟩ := forall₂_mem_right hrest q hq
      exact hhead c hc (sameTuple_congr hR.symm (hqb ▸ hcl).symm hsame)

theorem filterMap_opt_sublist {α β : Type} (g : α × β → Option α)
    (hg : ∀ p, g p = none ∨ g p = some p.1) :
    ∀ (l : List (α × β)), (l.filterMap g).Sublist (l.map (fun p => p.1)) := by
  intro l
  induction l with
  | nil => simp
  | cons p rest ih =>
    simp only [List.filterMap_cons, List.map_cons]
    rcases hg p with hnone | hsome
    · rw [hnone]
      exact ih.cons _
    · rw [hsome]
      exact ih.cons₂ _

/-- One merge iteration preserves tuple distinctness when it completes. -/
theorem updateStep_preserves_distinct (nv : ValueObject L V)
    (curr res : List (ValueObject L V)) (hd : DistinctTuples curr)
    (h : updateStep nv curr = (res, none)) : DistinctTuples res := by
  unfold updateStep at h
  cases hs : scanAnnot nv curr with
  | mk annot err =>
    rw [hs] at h
    cases err with
    | some k => cases h
    | none =>
      have hsound := scanAnnot_sound nv curr annot hs
      have hlbl : List.Forall₂
          (fun cv p => (p : ValueObject L V × Bool).1.labels = cv.labels) curr annot :=
        List.Forall₂.imp (fun a b hab => hab.1) hsound
      have hkept : DistinctTuples (annot.map (fun p => p.1)) :=
        distinct_of_forall₂_labels curr annot hlbl hd
      simp only at h
      split at h
      · -- no match and not a delete: append the incoming record
        rename_i hcond
        cases h
        obtain ⟨hnm, hnv⟩ := hcond
        have hkept2 : DistinctTuples
            (if nv.value = none then
              annot.filterMap (fun p => if p.2 then none else some p.1)
             else annot.map (fun p => p.1)) := by
          split
          · exact List.Pairwise.sublist
              (filterMap_opt_sublist _ (fun p => by split <;> simp) annot) hkept
          · exact hkept
        unfold DistinctTuples
        rw [List.pairwise_append]
        refine ⟨hkept2, List.pairwise_singleton _ _, ?_⟩
        intro a ha b hb
        rw [List.mem_singleton] at hb
        rw [hb]
        have hmem : a ∈ annot.map (fun p => p.1) := by
          revert ha
          split
          · intro ha
            exact (filterMap_opt_sublist _ (fun p => by split <;> simp) annot).mem ha
          · intro ha
            exact ha
        obtain ⟨q, hq, hqa⟩ := List.mem_map.mp hmem
        have hqfalse : q.2 = false := by
          by_contra hq2
          have : annot.any (fun p => p.2) = true :=
            List.any_eq_true.mpr ⟨q, hq, by simpa using hq2⟩
          simp [this] at hnm
        obtain ⟨c, hc, _, horig⟩ := forall₂_mem_right hsound q hq
        obtain ⟨horig1, horig2⟩ := horig hqfalse
        intro hsame
        exact matchKeys_false_not_sameTuple c nv _ horig2
          (sameTuple_congr (by rw [← hqa, horig1]) rfl hsame)
      · -- in-place replace or delete: no new tuple appears
        cases h
        split
        · exact List.Pairwise.sublist
            (filterMap_opt_sublist _ (fun p => by split <;> simp) annot) hkept
        · exact hkept

/-- C5: for every parameter whose current value-object list has
pairwise-distinct label-tuples, after a merge that completes no two value
objects share an identical label-tuple — the merger replaces in place when
a match exists rather than appending a duplicate. -/
theorem c5_merge_keeps_tuples_distinct :
    ∀ (news curr res : List (ValueObject L V)), DistinctTuples curr →
      updateParam curr news = (res, none) → DistinctTuples res := by
  intro news
  induction news with
  | nil =>
    intro curr res hd h
    simp only [updateParam] at h
    cases h
    exact hd
  | cons nv rest ih =>
    intro curr res hd h
    simp only [updateParam] at h
    cases hs : updateStep nv curr with
    | mk l err =>
      rw [hs] at h
      cases err with
      | some k => cases h
      | none => exact ih l res (updateStep_preserves_distinct nv curr l hd hs) h

/-- Witness for C5: an overwrite plus an append keep the tuples
pairwise-distinct. -/
theorem c5_witness :
    DistinctTuples [ValueObject.mk [("y", (2020 : Int))] (some (1 : Int)),
        ValueObject.mk [("y", (2021 : Int))] (some 2)] ∧
      updateParam
          [ValueObject.mk [("y", (2020 : Int))] (some (1 : Int)),
            ValueObject.mk [("y", (2021 : Int))] (some 2)]
          [ValueObject.mk [("y", (2021 : Int))] (some 7),
            ValueObject.mk [("y", (2022 : Int))] (some 9)] =
        ([ValueObject.mk [("y", (2020 : Int))] (some 1),
          ValueObject.mk [("y", (2021 : Int))] (some 7),
          ValueObject.mk [("y", (2022 : Int))] (some 9)], none) ∧
      DistinctTuples [ValueObject.mk [("y", (2020 : Int))] (some (1 : Int)),
        ValueObject.mk [("y", (2021 : Int))] (some 7),
        ValueObject.mk [("y", (2022 : Int))] (some 9)] :=
  ⟨by decide, by decide,
    c5_merge_keeps_tuples_distinct
      [ValueObject.mk [("y", (2021 : Int))] (some 7),
        ValueObject.mk [("y", (2022 : Int))] (some 9)]
      [ValueObject.mk [("y", (2020 : Int))] (some (1 : Int)),
        ValueObject.mk [("y", (2021 : Int))] (some 2)]
      [ValueObject.mk [("y", (2020 : Int))] (some 1),
        ValueObject.mk [("y", (2021 : Int))] (some 7),
        ValueObject.mk [("y", (2022 : Int))] (some 9)]
      (by decide) (by decide)⟩

/-!  ### Lemmas on lookups, grids and the cartesian product -/

theorem lookupLbl_eq_none (l : List (String × L)) (k : String)
    (h : ¬ k ∈ l.map Prod.fst) : lookupLbl l k = none := by
  induction l with
  | nil => rfl
  | cons p rest ih =>
    obtain ⟨k1, v1⟩ := p
    simp only [List.map_cons, List.mem_cons] at h
    push_neg at h
    simp only [lookupLbl]
    rw [if_neg (fun hc => h.1 hc.symm)]
    exact ih h.2

theorem lookupLbl_some_mem {l : List (String × L)} {k : String} {x : L}
    (h : lookupLbl l k = some x) : k ∈ l.map Prod.fst := by
  by_contra hc
  rw [lookupLbl_eq_none l k hc] at h
  cases h

theorem gridIdx_cons_self (a : L) (as : List L) : gridIdx (a :: as) a = 0 := by
  simp [gridIdx, List.findIdx_cons]

theorem gridIdx_cons_ne (a x : L) (as : List L) (h : ¬ a = x) :
    gridIdx (a :: as) x = gridIdx as x + 1 := by
  simp [gridIdx, List.findIdx_cons, h]

theorem gridIdx_lt_length (l : List L) (x : L) (hx : x ∈ l) :
    gridIdx l x < l.length := by
  induction l with
  | nil => simp at hx
  | cons a as ih =>
    by_cases hax : a = x
    · subst hax
      rw [gridIdx_cons_self]
      simp
    · rw [gridIdx_cons_ne a x as hax]
      have := ih (by rcases List.mem_cons.mp hx with h | h; exact absurd h.symm hax; exact h)
      simpa using this

theorem gridIdx_inj (l : List L) (h : l.Nodup) (x y : L) (hx : x ∈ l) (hy : y ∈ l)
    (hxy : gridIdx l x = gridIdx l y) : x = y := by
  induction l with
  | nil => simp at hx
  | cons a as ih =>
    rcases List.nodup_cons.mp h with ⟨hna, hnd⟩
    by_cases hax : a = x <;> by_cases hay : a = y
    · rw [← hax, hay]
    · rw [gridIdx_cons_ne a y as hay, ← hax, gridIdx_cons_self] at hxy
      cases hxy
    · rw [gridIdx_cons_ne a x as hax, ← hay, gridIdx_cons_self] at hxy
      cases hxy
    · rw [gridIdx_cons_ne a x as hax, gridIdx_cons_ne a y as hay] at hxy
      have hx2 : x ∈ as := by
        rcases List.mem_cons.mp hx with h1 | h1; exact absurd h1.symm hax; exact h1
      have hy2 : y ∈ as := by
        rcases List.mem_cons.mp hy with h1 | h1; exact absurd h1.symm hay; exact h1
      exact ih hnd hx2 hy2 (Nat.succ_injective hxy)

theorem map_gridIdx_of_nodup (l : List L) (h : l.Nodup) :
    l.map (fun x => gridIdx l x) = List.range l.length := by
  induction l with
  | nil => rfl
  | cons a as ih =>
    rcases List.nodup_cons.mp h with ⟨hna, hnd⟩
    simp only [List.map_cons, gridIdx_cons_self, List.length_cons,
      List.range_succ_eq_map]
    congr 1
    have h1 : as.map (fun x => gridIdx (a :: as) x) =
        as.map (fun x => gridIdx as x + 1) := by
      refine List.map_congr_left ?_
      intro x hx
      exact gridIdx_cons_ne a x as (fun hc => hna (hc ▸ hx))
    rw [h1, ← ih hnd, List.map_map]
    rfl

theorem mem_cartProd {α : Type} (ls : List (List α)) (t : List α) :
    t ∈ cartProd ls ↔ List.Forall₂ (fun x l => x ∈ l) t ls := by
  induction ls generalizing t with
  | nil =>
    simp only [cartProd, List.mem_singleton]
    constructor
    · intro h; subst h; exact List.Forall₂.nil
    · intro h; cases h; rfl
  | cons xs rest ih =>
    simp only [cartProd, List.mem_flatMap, List.mem_map]
    constructor
    · rintro ⟨x, hx, t1, ht1, rfl⟩
      exact List.Forall₂.cons hx ((ih t1).mp ht1)
    · intro h
      cases h with
      | cons hx ht => exact ⟨_, hx, _, (ih _).mpr ht, rfl⟩

theorem length_flatMap_const {α β : Type} (l : List α) (f : α → List β) (c : Nat)
    (h : ∀ x ∈ l, (f x).length = c) : (l.flatMap f).length = l.length * c := by
  induction l with
  | nil => simp
  | cons x xs ih =>
    simp only [List.flatMap_cons, List.length_append, List.length_cons]
    rw [h x (by simp), ih (fun y hy => h y (by simp [hy]))]
    ring

theorem cartProd_length {α : Type} (ls : List (List α)) :
    (cartProd ls).length = (ls.map List.length).prod := by
  induction ls with
  | nil => rfl
  | cons xs rest ih =>
    simp only [cartProd, List.map_cons, List.prod_cons]
    rw [length_flatMap_const xs _ (cartProd rest).length (fun x _ => by simp), ih]

theorem cartProd_nodup {α : Type} (ls : List (List α)) (h : ∀ l ∈ ls, l.Nodup) :
    (cartProd ls).Nodup := by
  induction ls with
  | nil => simp [cartProd]
  | cons xs rest ih =>
    have hxs : xs.Nodup := h xs (by simp)
    have hrest : (cartProd rest).Nodup := ih (fun l hl => h l (by simp [hl]))
    simp only [cartProd]
    clear h ih
    induction xs with
    | nil => simp
    | cons x xs2 ih2 =>
      rcases List.nodup_cons.mp hxs with ⟨hx, hxs2⟩
      simp only [List.flatMap_cons]
      refine List.Nodup.append ?_ (ih2 hxs2) ?_
      · exact hrest.map (fun t1 t2 he => by injection he)
      · intro t ht1 ht2
        obtain ⟨t1, ht1m, rfl⟩ := List.mem_map.mp ht1
        obtain ⟨x2, hx2, ht2m⟩ := List.mem_flatMap.mp ht2
        obtain ⟨t2, ht2mm, heq⟩ := List.mem_map.mp ht2m
        injection heq with h1 h2
        exact hx (h1 ▸ hx2)

theorem filter_not_mem_nil {α : Type} [DecidableEq α] (l : List α) (a : α)
    (h : ¬ a ∈ l) : l.filter (fun x => x = a) = [] := by
  induction l with
  | nil => rfl
  | cons b bs ih =>
    simp only [List.mem_cons] at h
    push_neg at h
    have hba : ¬ (b = a) := fun hc => h.1 hc.symm
    rw [List.filter_cons, if_neg (by simpa using hba)]
    exact ih h.2

theorem filter_eq_singleton_of_nodup {α : Type} [DecidableEq α] (l : List α)
    (hn : l.Nodup) (a : α) (ha : a ∈ l) : l.filter (fun x => x = a) = [a] := by
  induction l with
  | nil => simp at ha
  | cons b bs ih =>
    rcases List.nodup_cons.mp hn with ⟨hb, hbs⟩
    by_cases hba : b = a
    · rw [List.filter_cons, if_pos (by simpa using hba), hba,
        filter_not_mem_nil bs a (fun hc => hb (hba ▸ hc))]
    · rw [List.filter_cons, if_neg (by simpa using hba)]
      refine ih hbs ?_
      rcases List.mem_cons.mp ha with h | h
      · exact absurd h.symm hba
      · exact h

theorem map_erase_of_nodup_map {α β : Type} [DecidableEq α] [DecidableEq β]
    (f : α → β) (l : List α) (hf : (l.map f).Nodup) (a : α) (ha : a ∈ l) :
    (l.erase a).map f = (l.map f).erase (f a) := by
  induction l with
  | nil => simp at ha
  | cons b bs ih =>
    simp only [List.map_cons] at hf
    rcases List.nodup_cons.mp hf with ⟨hfb, hfbs⟩
    by_cases hba : b = a
    · subst hba
      rw [List.erase_cons_head, List.map_cons, List.erase_cons_head]
    · have hab : a ∈ bs := by
        rcases List.mem_cons.mp ha with h | h; exact absurd h.symm hba; exact h
      have hfba : f b ≠ f a := by
        intro hc
        exact hfb (hc ▸ List.mem_map_of_mem f hab)
      rw [List.erase_cons_tail (by simpa using hba),
        List.map_cons, List.map_cons,
        List.erase_cons_tail (by simpa using hfba)]
      rw [ih hfbs hab]

theorem sameKeySetB_iff (ks ls : List String) :
    sameKeySetB ks ls = true ↔ ∀ k, k ∈ ks ↔ k ∈ ls := by
  unfold sameKeySetB
  rw [Bool.and_eq_true, List.all_eq_true, List.all_eq_true]
  constructor
  · intro ⟨h1, h2⟩ k
    constructor
    · intro hk; simpa using h1 k hk
    · intro hk; simpa using h2 k hk
  · intro h
    exact ⟨fun k hk => by simpa using (h k).mp hk,
      fun k hk => by simpa using (h k).mpr hk⟩

theorem consistentLabels_spec (items : List (ValueObject L V)) (used : List String)
    (h : consistentLabels items = some used) :
    ∀ vo ∈ items, ∀ k, k ∈ labelKeys vo ↔ k ∈ used := by
  cases items with
  | nil =>
    intro vo hvo
    simp at hvo
  | cons v0 rest =>
    simp only [consistentLabels] at h
    split at h
    · rename_i hall
      cases h
      intro vo hvo k
      rcases List.mem_cons.mp hvo with heq | hmem
      · subst heq; rfl
      · have := List.all_eq_true.mp hall vo hmem
        exact ((sameKeySetB_iff _ _).mp (by simpa using this) k).symm
    · cases h

theorem consistentLabels_of_all (items : List (ValueObject L V)) (used : List String)
    (hne : items ≠ []) (h : ∀ vo ∈ items, ∀ k, k ∈ labelKeys vo ↔ k ∈ used) :
    ∃ used1, consistentLabels items = some used1 ∧ ∀ k, k ∈ used1 ↔ k ∈ used := by
  cases items with
  | nil => exact absurd rfl hne
  | cons v0 rest =>
    refine ⟨labelKeys v0, ?_, h v0 (by simp)⟩
    simp only [consistentLabels]
    have hall : (rest.all fun w => sameKeySetB (labelKeys v0) (labelKeys w)) = true := by
      refine List.all_eq_true.mpr ?_
      intro w hw
      simpa using (sameKeySetB_iff (labelKeys v0) (labelKeys w)).mpr
        (fun k => (h v0 (by simp) k).trans ((h w (by simp [hw]) k).symm))
    rw [if_pos hall]

theorem select_eq_nil_preds (vos : List (ValueObject L V)) (ex : Bool) :
    select_eq vos ex [] = vos := by
  unfold select_eq selectCmp
  simp

theorem mem_erase_iff_of_nodup {α : Type} [DecidableEq α] :
    ∀ (l : List α), l.Nodup → ∀ (a b : α), a ∈ l.erase b ↔ a ≠ b ∧ a ∈ l := by
  intro l
  induction l with
  | nil => intro _ a b; simp
  | cons x xs ih =>
    intro hn a b
    rcases List.nodup_cons.mp hn with ⟨hx, hxs⟩
    by_cases hxb : x = b
    · subst hxb
      rw [List.erase_cons_head]
      constructor
      · intro ha
        exact ⟨fun hab => hx (hab ▸ ha), List.mem_cons_of_mem _ ha⟩
      · rintro ⟨hab, hmem⟩
        rcases List.mem_cons.mp hmem with h | h
        · exact absurd h hab
        · exact h
    · rw [List.erase_cons_tail (by simpa using hxb)]
      constructor
      · intro ha
        rcases List.mem_cons.mp ha with h | h
        · subst h
          exact ⟨hxb, by simp⟩
        · have h2 := (ih hxs a b).mp h
          exact ⟨h2.1, List.mem_cons_of_mem _ h2.2⟩
      · rintro ⟨hab, hmem⟩
        rcases List.mem_cons.mp hmem with h | h
        · subst h; simp
        · exact List.mem_cons_of_mem _ ((ih hxs a b).mpr ⟨hab, h⟩)

theorem resolveOrderItems_ok_inv (grid : List (String × List L))
    (items : List (ValueObject L V)) (order : List (String × List L))
    (h : resolveOrderItems grid items = .ok order) :
    ∃ used, consistentLabels items = some used ∧
      order = grid.filter (fun p => p.1 ∈ used) := by
  unfold resolveOrderItems at h
  cases hc : consistentLabels items with
  | none => rw [hc] at h; cases h
  | some used =>
    rw [hc] at h
    cases h
    exact ⟨used, rfl, rfl⟩

/-- The Sparse-grid failure of `to_array`: a non-empty, label-consistent
selection whose record count differs from the full grid product reports
exactly the cartesian-product combinations absent from the records. -/
theorem toArray_sparse_general (grid state : List (String × List L))
    (data : List (ValueObject L V)) (order : List (String × List L))
    (hne : select_eq data false state ≠ [])
    (hres : resolveOrderItems grid (select_eq data false state) = .ok order)
    (hlen : (select_eq data false state).length ≠
      (order.map (fun p => p.2.length)).prod) :
    toArray grid state data = .error (.sparse
      ((cartProd (order.map Prod.snd)).filter
        (fun t => ¬ (t.map some ∈ (select_eq data false state).map
          (tupleOf (order.map Prod.fst)))))) := by
  have hie : (select_eq data false state).isEmpty = false := by
    cases h : select_eq data false state with
    | nil => exact absurd h hne
    | cons a l => rfl
  simp only [toArray, hie, Bool.false_eq_true, if_false, hres]
  rw [if_pos]
  exact hlen

/-- C3 (amended): a non-empty, label-consistent, state-filtered selection
whose record count differs from the resolved grid product makes `to_array`
raise the Sparse-grid failure reporting exactly the label-tuples of the
cartesian product absent from the records; and removing any single record
from a dense set of at least two records makes `to_array` fail reporting
exactly the removed combination as missing.  (A dense singleton turns
empty on removal and `to_array` then returns the empty array: see the
counterexample.) -/
theorem c3_sparse_detection :
    (∀ (grid state : List (String × List L)) (data : List (ValueObject L V))
        (order : List (String × List L)),
      select_eq data false state ≠ [] →
      resolveOrderItems grid (select_eq data false state) = .ok order →
      (select_eq data false state).length ≠
        (order.map (fun p => p.2.length)).prod →
      ∃ M, toArray grid state data = .error (.sparse M) ∧
        ∀ t, t ∈ M ↔ t ∈ cartProd (order.map Prod.snd) ∧
          ¬ (t.map some ∈ (select_eq data false state).map
            (tupleOf (order.map Prod.fst)))) ∧
    (∀ (grid : List (String × List L)) (data : List (ValueObject L V))
        (vo : ValueObject L V) (order : List (String × List L)),
      resolveOrderItems grid data = .ok order →
      (∀ p ∈ order, p.2.Nodup) →
      List.Perm (data.map (tupleOf (order.map Prod.fst)))
        ((cartProd (order.map Prod.snd)).map (List.map some)) →
      2 ≤ data.length →
      vo ∈ data →
      ∃ t, t ∈ cartProd (order.map Prod.snd) ∧
        tupleOf (order.map Prod.fst) vo = t.map some ∧
        toArray grid [] (data.erase vo) = .error (.sparse [t])) := by
  constructor
  · intro grid state data order hne hres hlen
    refine ⟨_, toArray_sparse_general grid state data order hne hres hlen, ?_⟩
    intro t
    rw [List.mem_filter]
    simp
  · intro grid data vo order hres hnd hperm hlen2 hvo
    have hcombnd : (cartProd (order.map Prod.snd)).Nodup := by
      refine cartProd_nodup _ ?_
      intro l hl
      obtain ⟨p, hp, rfl⟩ := List.mem_map.mp hl
      exact hnd p hp
    have hsomeinj : Function.Injective (List.map (some : L → Option L)) :=
      List.map_injective_iff.mpr (Option.some_injective L)
    have hcombSnd : ((cartProd (order.map Prod.snd)).map (List.map some)).Nodup :=
      hcombnd.map hsomeinj
    have htupnd : (data.map (tupleOf (order.map Prod.fst))).Nodup :=
      hperm.nodup_iff.mpr hcombSnd
    have htvo : tupleOf (order.map Prod.fst) vo ∈
        (cartProd (order.map Prod.snd)).map (List.map some) :=
      hperm.mem_iff.mp (List.mem_map_of_mem _ hvo)
    obtain ⟨t, ht, hteq⟩ := List.mem_map.mp htvo
    have hlendata : data.length = (order.map (fun p => p.2.length)).prod := by
      have h1 := hperm.length_eq
      simp only [List.length_map] at h1
      rw [h1, cartProd_length, List.map_map]
      rfl
    have hEne : data.erase vo ≠ [] := by
      have hl := List.length_erase_of_mem hvo
      intro hc
      rw [hc] at hl
      simp only [List.length_nil] at hl
      omega
    obtain ⟨used, hcons, horder⟩ := resolveOrderItems_ok_inv grid data order hres
    have hspec := consistentLabels_spec data used hcons
    obtain ⟨used1, hcons1, hused1⟩ := consistentLabels_of_all (data.erase vo) used hEne
      (fun w hw k => hspec w (List.mem_of_mem_erase hw) k)
    have hresE : resolveOrderItems grid (data.erase vo) = .ok order := by
      unfold resolveOrderItems
      rw [hcons1]
      dsimp only
      rw [horder]
      congr 1
      refine List.filter_congr ?_
      intro p hp
      exact decide_eq_decide.mpr (hused1 p.1)
    have hsel : select_eq (data.erase vo) false ([] : List (String × List L)) =
        data.erase vo := select_eq_nil_preds _ _
    have hneE : select_eq (data.erase vo) false ([] : List (String × List L)) ≠ [] := by
      rw [hsel]; exact hEne
    have hresE2 : resolveOrderItems grid
        (select_eq (data.erase vo) false ([] : List (String × List L))) = .ok order := by
      rw [hsel]; exact hresE
    have hlenE : (select_eq (data.erase vo) false
        ([] : List (String × List L))).length ≠
        (order.map (fun p => p.2.length)).prod := by
      rw [hsel, List.length_erase_of_mem hvo, ← hlendata]
      omega
    have hmain := toArray_sparse_general grid [] (data.erase vo) order hneE hresE2 hlenE
    have hmapE := map_erase_of_nodup_map (tupleOf (order.map Prod.fst)) data htupnd vo hvo
    have hpermE := hperm.erase (tupleOf (order.map Prod.fst) vo)
    have hfilter : (cartProd (order.map Prod.snd)).filter
        (fun c => ¬ (c.map some ∈ (select_eq (data.erase vo) false
          ([] : List (String × List L))).map (tupleOf (order.map Prod.fst)))) = [t] := by
      have hstep : ∀ c ∈ cartProd (order.map Prod.snd),
          (decide ¬ (c.map some ∈ (select_eq (data.erase vo) false
            ([] : List (String × List L))).map (tupleOf (order.map Prod.fst)))) =
          decide (c = t) := by
        intro c hc
        refine decide_eq_decide.mpr ?_
        rw [hsel]
        rw [hmapE]
        rw [hpermE.mem_iff]
        rw [← hteq]
        constructor
        · intro hnotin
          by_contra hct
          apply hnotin
          refine (mem_erase_iff_of_nodup _ hcombSnd _ _).mpr ?_
          exact ⟨fun hmapeq => hct (hsomeinj hmapeq), List.mem_map_of_mem _ hc⟩
        · intro hct
          subst hct
          intro hcon
          exact ((mem_erase_iff_of_nodup _ hcombSnd _ _).mp hcon).1 rfl
      rw [List.filter_congr hstep]
      exact filter_eq_singleton_of_nodup _ hcombnd t ht
    refine ⟨t, ht, hteq.symm, ?_⟩
    rw [hfilter] at hmain
    exact hmain

/-- Witness for C3: a one-record selection over a two-cell grid raises the
Sparse-grid failure reporting the absent combination, and removing one
record from a dense two-record set reports exactly the removed
combination. -/
theorem c3_witness :
    (select_eq data3 false [] ≠ [] ∧
      resolveOrderItems grid3 (select_eq data3 false []) = .ok grid3 ∧
      (select_eq data3 false []).length ≠ (grid3.map (fun p => p.2.length)).prod ∧
      ∃ M, toArray grid3 [] data3 = .error (.sparse M) ∧
        ∀ t, t ∈ M ↔ t ∈ cartProd (grid3.map Prod.snd) ∧
          ¬ (t.map some ∈ (select_eq data3 false []).map
            (tupleOf (grid3.map Prod.fst)))) ∧
    (List.Perm (data3b.map (tupleOf (grid3.map Prod.fst)))
        ((cartProd (grid3.map Prod.snd)).map (List.map some)) ∧
      ∃ t, t ∈ cartProd (grid3.map Prod.snd) ∧
        tupleOf (grid3.map Prod.fst) vo3 = t.map some ∧
        toArray grid3 [] (data3b.erase vo3) = .error (.sparse [t])) :=
  ⟨⟨by decide, rfl, by decide,
    c3_sparse_detection.1 grid3 [] data3 grid3 (by decide) rfl (by decide)⟩,
   ⟨List.Perm.of_eq rfl,
    c3_sparse_detection.2 grid3 data3b vo3 grid3 rfl (by decide)
      (List.Perm.of_eq rfl) (by decide) (by decide)⟩⟩

/-- Counterexample to C3 as stated: a dense single-record set (grid
product 1).  Removing its only record leaves an empty selection, and
`to_array` then returns the empty array instead of raising the Sparse-grid
failure reporting the removed combination. -/
theorem c3_counterexample :
    resolveOrderItems [("y", [(2020 : Int)])]
        [ValueObject.mk [("y", (2020 : Int))] (some (5 : Int))] =
      .ok [("y", [(2020 : Int)])] ∧
    [ValueObject.mk [("y", (2020 : Int))] (some (5 : Int))].map
        (tupleOf ["y"]) =
      (cartProd [[(2020 : Int)]]).map (List.map some) ∧
    toArray [("y", [(2020 : Int)])] []
        [ValueObject.mk [("y", (2020 : Int))] (some (5 : Int))] =
      .ok (NpArray.mk [1] [([0], 5)]) ∧
    toArray [("y", [(2020 : Int)])] []
        ([ValueObject.mk [("y", (2020 : Int))] (some (5 : Int))].erase
          (ValueObject.mk [("y", (2020 : Int))] (some (5 : Int)))) =
      .ok emptyNp :=
  ⟨rfl, rfl, rfl, rfl⟩

/-!  ### Lemmas for the array round trip -/

theorem readArr_writeArr_self (a : NpArray V) (ix : List Nat) (v : V) :
    readArr (writeArr a ix v) ix = some v := by
  simp [readArr, writeArr]

theorem readArr_writeArr_ne (a : NpArray V) (ix ix1 : List Nat) (v : V)
    (h : ix1 ≠ ix) : readArr (writeArr a ix v) ix1 = readArr a ix1 := by
  simp only [readArr, writeArr]
  rw [List.find?_cons]
  have : (decide ((ix, v).1 = ix1)) = false := by
    simp only [decide_eq_false_iff_not]
    exact fun hc => h hc.symm
  rw [this]

theorem recordIx_ok (order : List (String × List L)) (vi : ValueObject L V) :
    ∀ (t : List L), List.Forall₂ (fun x l => x ∈ l) t (order.map Prod.snd) →
      tupleOf (order.map Prod.fst) vi = t.map some →
      recordIx order vi = .ok (ixTuple order t) := by
  induction order with
  | nil =>
    intro t hf _
    cases hf
    rfl
  | cons p rest ih =>
    intro t hf htv
    cases t with
    | nil => rw [List.map_cons] at hf; cases hf
    | cons x t1 =>
      rw [List.map_cons] at hf
      cases hf with
      | cons hx hrest =>
        simp only [tupleOf, List.map_cons] at htv
        injection htv with hhead htail
        have hidx : indexOfE p.2 x = Except.ok (gridIdx p.2 x) := by
          simp [indexOfE, hx]
        simp only [recordIx, mapExc, hhead, hidx]
        have hrec := ih t1 hrest htail
        simp only [recordIx] at hrec
        rw [hrec]
        simp [ixTuple]

theorem recordIx_ok_inv (order : List (String × List L)) (vi : ValueObject L V) :
    ∀ (ix : List Nat), recordIx order vi = .ok ix →
      ∃ t, List.Forall₂ (fun x l => x ∈ l) t (order.map Prod.snd) ∧
        tupleOf (order.map Prod.fst) vi = t.map some ∧ ix = ixTuple order t := by
  induction order with
  | nil =>
    intro ix h
    cases h
    exact ⟨[], List.Forall₂.nil, rfl, rfl⟩
  | cons p rest ih =>
    intro ix h
    simp only [recordIx, mapExc] at h
    cases hg : getLbl vi p.1 with
    | none => rw [hg] at h; cases h
    | some x =>
      rw [hg] at h
      dsimp only at h
      by_cases hx : x ∈ p.2
      · rw [show indexOfE p.2 x = Except.ok (gridIdx p.2 x) from by
          simp [indexOfE, hx]] at h
        dsimp only at h
        split at h
        · cases h
        · rename_i ys hys
          cases h
          obtain ⟨t1, hf1, ht1, hix1⟩ := ih ys hys
          refine ⟨x :: t1, ?_, ?_, ?_⟩
          · rw [List.map_cons]
            exact List.Forall₂.cons hx hf1
          · simp only [tupleOf, List.map_cons, hg]
            simp only [tupleOf] at ht1
            rw [ht1]
          · simp only [ixTuple, List.zipWith_cons_cons, hix1]
      · rw [show indexOfE p.2 x = Except.error ProjErr.indexErr from by
          simp [indexOfE, hx]] at h
        cases h

theorem ixTuple_inj (order : List (String × List L))
    (h2 : ∀ p ∈ order, p.2.Nodup) :
    ∀ (c t : List L), List.Forall₂ (fun x l => x ∈ l) c (order.map Prod.snd) →
      List.Forall₂ (fun x l => x ∈ l) t (order.map Prod.snd) →
      ixTuple order c = ixTuple order t → c = t := by
  induction order with
  | nil =>
    intro c t hc ht _
    cases hc
    cases ht
    rfl
  | cons p rest ih =>
    intro c t hc ht he
    cases c with
    | nil => rw [List.map_cons] at hc; cases hc
    | cons x c1 =>
      cases t with
      | nil => rw [List.map_cons] at ht; cases ht
      | cons y t1 =>
        rw [List.map_cons] at hc ht
        cases hc with
        | cons hxc hc1 =>
          cases ht with
          | cons hxt ht1 =>
            simp only [ixTuple, List.zipWith_cons_cons] at he
            injection he with hh htl
            have hxy := gridIdx_inj p.2 (h2 p (by simp)) x y hxc hxt hh
            rw [hxy, ih (fun q hq => h2 q (by simp [hq])) c1 t1 hc1 ht1 htl]

theorem foldExc_ok_of_all {σ α ε : Type} (f : σ → α → Except ε σ) :
    ∀ (l : List α), (∀ x ∈ l, ∀ s, ∃ s1, f s x = .ok s1) →
      ∀ s, ∃ s1, foldExc f s l = .ok s1 := by
  intro l
  induction l with
  | nil => intro _ s; exact ⟨s, rfl⟩
  | cons x xs ih =>
    intro h s
    obtain ⟨s1, hs1⟩ := h x (by simp) s
    obtain ⟨s2, hs2⟩ := ih (fun y hy => h y (by simp [hy])) s1
    refine ⟨s2, ?_⟩
    simp only [foldExc, hs1, hs2]

theorem writeStep_ok_inv (order : List (String × List L)) (a0 a1 : NpArray V)
    (vi : ValueObject L V) (h : writeStep order a0 vi = .ok a1) :
    ∃ ix v, recordIx order vi = .ok ix ∧ vi.value = some v ∧
      a1 = writeArr a0 ix v := by
  unfold writeStep at h
  cases hr : recordIx order vi with
  | error e => rw [hr] at h; cases h
  | ok ix =>
    rw [hr] at h
    cases hv : vi.value with
    | none => rw [hv] at h; cases h
    | some v =>
      rw [hv] at h
      cases h
      exact ⟨ix, v, rfl, rfl, rfl⟩

theorem fold_write_read_untouched (order : List (String × List L)) :
    ∀ (items : List (ValueObject L V)) (a0 arr : NpArray V),
      foldExc (writeStep order) a0 items = .ok arr →
      ∀ ix, (∀ vi ∈ items, recordIx order vi ≠ .ok ix) →
        readArr arr ix = readArr a0 ix := by
  intro items
  induction items with
  | nil =>
    intro a0 arr h ix hno
    cases h
    rfl
  | cons vi rest ih =>
    intro a0 arr h ix hno
    simp only [foldExc] at h
    cases hw : writeStep order a0 vi with
    | error e => rw [hw] at h; cases h
    | ok a1 =>
      rw [hw] at h
      obtain ⟨ixvi, v, hr, hv, heq⟩ := writeStep_ok_inv order a0 a1 vi hw
      have hne : ix ≠ ixvi := by
        intro hc
        exact hno vi (by simp) (hc ▸ hr)
      rw [ih a1 arr h ix (fun w hwm => hno w (by simp [hwm])), heq]
      exact readArr_writeArr_ne a0 ixvi ix v hne

theorem fold_write_read_unique (order : List (String × List L)) :
    ∀ (items : List (ValueObject L V)) (a0 arr : NpArray V),
      foldExc (writeStep order) a0 items = .ok arr →
      ∀ (vi : ValueObject L V) (ix : List Nat), vi ∈ items →
        recordIx order vi = .ok ix →
        (∀ w ∈ items, recordIx order w = .ok ix → w = vi) →
        readArr arr ix = vi.value := by
  intro items
  induction items with
  | nil =>
    intro a0 arr _ vi ix hvi
    simp at hvi
  | cons w rest ih =>
    intro a0 arr h vi ix hvi hrec huniq
    simp only [foldExc] at h
    cases hw : writeStep order a0 w with
    | error e => rw [hw] at h; cases h
    | ok a1 =>
      rw [hw] at h
      obtain ⟨ixw, vw, hrw, hvw, heq⟩ := writeStep_ok_inv order a0 a1 w hw
      by_cases hvir : vi ∈ rest
      · exact ih a1 arr h vi ix hvir hrec
          (fun w1 hw1 hr1 => huniq w1 (by simp [hw1]) hr1)
      · have hviw : vi = w := by
          rcases List.mem_cons.mp hvi with h1 | h1
          · exact h1
          · exact absurd h1 hvir
        have hnorest : ∀ w1 ∈ rest, recordIx order w1 ≠ .ok ix := by
          intro w1 hw1 hr1
          exact hvir ((huniq w1 (by simp [hw1]) hr1) ▸ hw1)
        rw [fold_write_read_untouched order rest a1 arr h ix hnorest, heq]
        have hixw : ix = ixw := by
          rw [hviw] at hrec
          rw [hrec] at hrw
          exact Except.ok.inj hrw
        rw [hixw, hviw, hvw]
        exact readArr_writeArr_self a0 ixw vw

theorem lookup_zip_eq (f : String → Option L) :
    ∀ (lo : List String) (c : List L), lo.map f = c.map some →
      ∀ k, lookupLbl (lo.zip c) k = if k ∈ lo then f k else none := by
  intro lo
  induction lo with
  | nil =>
    intro c _ k
    simp [lookupLbl]
  | cons k0 lo1 ih =>
    intro c hmap k
    cases c with
    | nil => cases hmap
    | cons x c1 =>
      simp only [List.map_cons] at hmap
      injection hmap with hh ht
      show lookupLbl ((k0, x) :: lo1.zip c1) k = _
      simp only [lookupLbl]
      by_cases hk : k0 = k
      · subst hk
        rw [if_pos rfl, if_pos (by simp), hh]
      · rw [if_neg hk, ih c1 ht k]
        have hmem : (k ∈ k0 :: lo1) ↔ (k ∈ lo1) := by
          simp only [List.mem_cons]
          constructor
          · intro h1
            rcases h1 with h1 | h1
            · exact absurd h1.symm hk
            · exact h1
          · intro h1; exact Or.inr h1
        by_cases hk1 : k ∈ lo1
        · rw [if_pos hk1, if_pos (hmem.mpr hk1)]
        · rw [if_neg hk1, if_neg (fun hc => hk1 (hmem.mp hc))]

theorem cartProd_ranges (order : List (String × List L))
    (h2 : ∀ p ∈ order, p.2.Nodup) :
    cartProd (order.map (fun p => List.range p.2.length)) =
      (cartProd (order.map Prod.snd)).map (ixTuple order) := by
  induction order with
  | nil => rfl
  | cons p rest ih =>
    simp only [List.map_cons, cartProd]
    rw [← map_gridIdx_of_nodup p.2 (h2 p (by simp))]
    rw [List.flatMap_map, List.map_flatMap]
    simp only [ih (fun q hq => h2 q (by simp [hq])), List.map_map]
    congr 1

theorem eq_of_nodup_map {α β : Type} (f : α → β) :
    ∀ (l : List α), (l.map f).Nodup → ∀ a ∈ l, ∀ b ∈ l, f a = f b → a = b := by
  intro l
  induction l with
  | nil =>
    intro _ a ha
    simp at ha
  | cons x xs ih =>
    intro hn a ha b hb hab
    simp only [List.map_cons] at hn
    rcases List.nodup_cons.mp hn with ⟨hx, hxs⟩
    rcases List.mem_cons.mp ha with h1 | h1 <;> rcases List.mem_cons.mp hb with h2 | h2
    · rw [h1, h2]
    · subst h1
      exact absurd (hab ▸ List.mem_map_of_mem f h2) hx
    · subst h2
      exact absurd (hab ▸ List.mem_map_of_mem f h1) hx
    · exact ih hxs a h1 b h2 hab

theorem equivVO_symm {a b : ValueObject L V} (h : equivVO a b) : equivVO b a :=
  ⟨fun k => (h.1 k).symm, h.2.symm⟩

theorem equivVO_trans {a b c : ValueObject L V} (h1 : equivVO a b)
    (h2 : equivVO b c) : equivVO a c :=
  ⟨fun k => (h1.1 k).trans (h2.1 k), h1.2.trans h2.2⟩

/-- With extension disabled the adjustment body never consults its inner
re-entry functions. -/
theorem adjustBody_noext (a a' : NEFun L V) (e e' : ExtFun L V)
    (ctx : Ctx L V) (st : St L V) (ps : Adjustment L V) (re : Bool) :
    adjustBody a e ctx st ps re false = adjustBody a' e' ctx st ps re false := by
  unfold adjustBody
  cases ctx.validate ps with
  | error ve => rfl
  | ok parsed => simp [Bool.and_false]

/-- The non-extending path is insensitive to the fuel (it makes no
recursive call). -/
theorem adjustFuel_noext_collapse (n : Nat) (c : Ctx L V) (s : St L V)
    (q : Adjustment L V) (r : Bool) :
    adjustFuel (n + 1) c s q r false = adjustFuel 1 c s q r false := by
  cases n with
  | zero => rfl
  | succ m => exact adjustBody_noext _ _ _ _ c s q r

theorem adjustFuel_noext_funext (n : Nat) :
    (fun (c : Ctx L V) s q r => adjustFuel (n + 1) c s q r false) =
      (fun c s q r => adjustFuel 1 c s q r false) := by
  funext c s q r
  exact adjustFuel_noext_collapse n c s q r

/-- Two units of fuel reproduce any larger budget. -/
theorem adjustFuel_ge_two (n : Nat) (ctx : Ctx L V) (st : St L V)
    (ps : Adjustment L V) (re ea : Bool) :
    adjustFuel (n + 2) ctx st ps re ea = adjustRun ctx st ps re ea := by
  show adjustBody (fun c s q r => adjustFuel (n + 1) c s q r false)
      (extendWith (fun c s q r => adjustFuel (n + 1) c s q r false)) ctx st ps re ea =
    adjustBody (fun c s q r => adjustFuel 1 c s q r false)
      (extendWith (fun c s q r => adjustFuel 1 c s q r false)) ctx st ps re ea
  rw [adjustFuel_noext_funext n]

theorem extendFuel_ge_one (n : Nat) (ctx : Ctx L V) (st : St L V)
    (pm : Option (List String)) (r : Bool) :
    extendFuel (n + 1) ctx st pm r = extendRun ctx st pm r := by
  show extendWith (fun c s q r1 => adjustFuel (n + 1) c s q r1 false) ctx st pm r =
    extendWith (fun c s q r1 => adjustFuel 1 c s q r1 false) ctx st pm r
  rw [adjustFuel_noext_funext n]

/-- An error produced by `foldExc` comes from its step function. -/
theorem foldExc_error_from {σ α ε : Type} (f : σ → α → Except ε σ) (P : ε → Prop)
    (hf : ∀ s x e, f s x = .error e → P e) :
    ∀ (l : List α) (s : σ) (e : ε), foldExc f s l = .error e → P e := by
  intro l
  induction l with
  | nil => intro s e h; simp [foldExc] at h
  | cons x xs ih =>
    intro s e h
    simp only [foldExc] at h
    cases hx : f s x with
    | error e1 => rw [hx] at h; cases h; exact hf s x _ hx
    | ok s1 => rw [hx] at h; exact ih s1 e h

/-- An error produced by `mapExc` comes from its function. -/
theorem mapExc_error_from {α β ε : Type} (f : α → Except ε β) (P : ε → Prop)
    (hf : ∀ x e, f x = .error e → P e) :
    ∀ (l : List α) (e : ε), mapExc f l = .error e → P e := by
  intro l
  induction l with
  | nil => intro e h; simp [mapExc] at h
  | cons x xs ih =>
    intro e h
    simp only [mapExc] at h
    cases hx : f x with
    | error e1 => rw [hx] at h; cases h; exact hf x _ hx
    | ok y =>
      rw [hx] at h
      cases hxs : mapExc f xs with
      | error e1 => rw [hxs] at h; cases h; exact ih _ hxs
      | ok ys => rw [hxs] at h; cases h

theorem updateLoop_no_fuel_err (st : St L V) (ps : Adjustment L V) :
    (updateLoop st ps).2 ≠ some AdjErr.outOfFuel := by
  induction ps generalizing st with
  | nil => simp [updateLoop]
  | cons pv rest ih =>
    obtain ⟨p, vs⟩ := pv
    simp only [updateLoop]
    cases h : updateParam (dataOf st p) vs with
    | mk l err =>
      cases err with
      | none => exact ih (setData st p l)
      | some k => simp

theorem finishAdjust_no_fuel_err (st : St L V) (re : Bool) (ps : Adjustment L V) :
    (finishAdjust st re ps).2 ≠ .error AdjErr.outOfFuel := by
  unfold finishAdjust
  cases st.errors with
  | none => simp
  | some e => cases re <;> simp

theorem adjustFuel_one_no_fuel_err (c : Ctx L V) (s : St L V)
    (q : Adjustment L V) (r : Bool) :
    (adjustFuel 1 c s q r false).2 ≠ .error AdjErr.outOfFuel := by
  show (adjustBody _ _ c s q r false).2 ≠ _
  unfold adjustBody
  cases c.validate q with
  | error ve => exact finishAdjust_no_fuel_err _ _ _
  | ok parsed =>
    simp only [Bool.and_false, Bool.false_eq_true, if_false]
    split
    · exact finishAdjust_no_fuel_err _ _ _
    · cases h : updateLoop s parsed with
      | mk st1 err =>
        have hul := updateLoop_no_fuel_err s parsed
        rw [h] at hul
        cases err with
        | none => exact finishAdjust_no_fuel_err _ _ _
        | some e =>
          intro hcon
          simp only [Except.error.injEq] at hcon
          exact hul (by rw [hcon])

theorem extendParam_no_fuel_err (lbl : String) (grid : List L)
    (fullData values : List (ValueObject L V)) (e : AdjErr L) :
    extendParam lbl grid fullData values = .error e → e ≠ AdjErr.outOfFuel := by
  unfold extendParam
  split
  · intro h; cases h
  · split
    · rename_i e1 hm
      intro h
      cases h
      refine mapExc_error_from _ (fun e2 => e2 ≠ AdjErr.outOfFuel) ?_ values _ hm
      intro vo e2 hv
      split at hv
      · cases hv; simp
      · dsimp only at hv
        split at hv
        · cases hv; simp
        · cases hv
    · intro h; cases h

theorem extendWith_no_fuel_err (a : NEFun L V)
    (ha : ∀ c s q r, (a c s q r).2 ≠ .error AdjErr.outOfFuel)
    (c : Ctx L V) (s : St L V) (pm : Option (List String)) (r : Bool) :
    (extendWith a c s pm r).2 ≠ some AdjErr.outOfFuel := by
  unfold extendWith
  split
  · simp
  · split
    · simp
    · rename_i lbl extendGrid hgrid
      split
      · rename_i e hf
        have hne : e ≠ AdjErr.outOfFuel := by
          refine foldExc_error_from _ (fun e2 => e2 ≠ AdjErr.outOfFuel) ?_ _ _ _ hf
          intro acc pv e2 hstep
          split at hstep
          · rename_i e3 hp
            cases hstep
            exact extendParam_no_fuel_err _ _ _ _ _ hp
          · cases hstep
        simp only [ne_eq, Prod.snd, Option.some.injEq]
        intro hcon
        exact hne hcon
      · rename_i adjustment hf
        split
        · rename_i st1 e hadj
          have := ha c s adjustment r
          rw [hadj] at this
          simp only [ne_eq, Option.some.injEq]
          intro hcon
          exact this (by rw [hcon])
        · simp

theorem stepWith_no_fuel_err (a : NEFun L V) (ext : ExtFun L V)
    (ha : ∀ c s q r, (a c s q r).2 ≠ .error AdjErr.outOfFuel)
    (he : ∀ c s pm r, (ext c s pm r).2 ≠ some AdjErr.outOfFuel)
    (ctx : Ctx L V) (st : St L V) (p : String) (vos : List (ValueObject L V)) :
    (stepWith a ext ctx st p vos).2 ≠ StepOutcome.raised AdjErr.outOfFuel := by
  unfold stepWith
  split
  · simp
  · rename_i lbl hlbl
    dsimp only
    split
    · simp
    · rename_i ev hnv h1
      cases ev with
      | validation ve => exact (hnv ve rfl).elim
      | keyError k => simp
      | indexError => simp
      | outOfFuel => exact absurd (congrArg Prod.snd h1) (ha _ _ _ _)
    · rename_i st2 l1 h1
      split
      · simp
      · rename_i ev hnv h2
        cases ev with
        | validation ve => exact (hnv ve rfl).elim
        | keyError k => simp
        | indexError => simp
        | outOfFuel => exact absurd (congrArg Prod.snd h2) (ha _ _ _ _)
      · rename_i st3 l2 h2
        split
        · simp
        · rename_i ev hnv h3
          cases ev with
          | validation ve => exact (hnv ve rfl).elim
          | keyError k => simp
          | indexError => simp
          | outOfFuel => exact absurd (congrArg Prod.snd h3) (he _ _ _ _)
        · simp

theorem extLoopWith_no_fuel_err (a : NEFun L V) (ext : ExtFun L V)
    (ha : ∀ c s q r, (a c s q r).2 ≠ .error AdjErr.outOfFuel)
    (he : ∀ c s pm r, (ext c s pm r).2 ≠ some AdjErr.outOfFuel)
    (ctx : Ctx L V) :
    ∀ (ps : Adjustment L V) (st : St L V),
      (extLoopWith a ext ctx st ps).2.2 ≠ some AdjErr.outOfFuel := by
  intro ps
  induction ps with
  | nil => intro st; simp [extLoopWith]
  | cons pv rest ih =>
    intro st
    obtain ⟨p, vos⟩ := pv
    simp only [extLoopWith]
    split
    · rename_i st1 e h
      have hs := stepWith_no_fuel_err a ext ha he ctx st p vos
      rw [h] at hs
      simp only [ne_eq, Option.some.injEq]
      intro hcon
      exact hs (by rw [hcon])
    · rename_i st1 o h hne
      exact ih st1

/-- C6: every run of the extension algorithm applies its entire pending
batch as one adjustment through the ordinary adjustment path with
extension disabled for that inner call, so the mutual recursion between
`adjust` and `extend` is bounded to depth 1: two units of recursion budget
reproduce any larger budget and the budget of the canonical runs is never
exhausted — both operations terminate on every input. -/
theorem c6_recursion_bounded :
    (∀ (fuel : Nat), 2 ≤ fuel → ∀ (ctx : Ctx L V) (st : St L V)
        (ps : Adjustment L V) (re ea : Bool),
      adjustFuel fuel ctx st ps re ea = adjustRun ctx st ps re ea ∧
        (adjustRun ctx st ps re ea).2 ≠ .error AdjErr.outOfFuel) ∧
    (∀ (fuel : Nat), 1 ≤ fuel → ∀ (ctx : Ctx L V) (st : St L V)
        (pm : Option (List String)) (r : Bool),
      extendFuel fuel ctx st pm r = extendRun ctx st pm r ∧
        (extendRun ctx st pm r).2 ≠ some AdjErr.outOfFuel) := by
  have hinner : ∀ (c : Ctx L V) (s : St L V) (q : Adjustment L V) (r : Bool),
      ((fun c1 s1 q1 r1 => adjustFuel 1 c1 s1 q1 r1 false) c s q r).2 ≠
        .error AdjErr.outOfFuel := by
    intro c s q r
    exact adjustFuel_one_no_fuel_err c s q r
  have hext : ∀ (c : Ctx L V) (s : St L V) (pm : Option (List String)) (r : Bool),
      (extendRun c s pm r).2 ≠ some AdjErr.outOfFuel := by
    intro c s pm r
    exact extendWith_no_fuel_err _ hinner c s pm r
  constructor
  · intro fuel hfuel ctx st ps re ea
    obtain ⟨n, rfl⟩ : ∃ n, fuel = n + 2 := ⟨fuel - 2, by omega⟩
    refine ⟨adjustFuel_ge_two n ctx st ps re ea, ?_⟩
    show (adjustBody (fun c s q r => adjustFuel 1 c s q r false)
      (extendWith (fun c s q r => adjustFuel 1 c s q r false)) ctx st ps re ea).2 ≠ _
    unfold adjustBody
    cases ctx.validate ps with
    | error ve => exact finishAdjust_no_fuel_err _ _ _
    | ok parsed =>
      simp only
      split
      · exact finishAdjust_no_fuel_err _ _ _
      · split
        · cases hl : extLoopWith (fun c s q r => adjustFuel 1 c s q r false)
              (extendWith (fun c s q r => adjustFuel 1 c s q r false)) ctx st parsed with
          | mk st1 osr =>
            obtain ⟨os, rres⟩ := osr
            have := extLoopWith_no_fuel_err _ _ hinner
              (fun c s pm r => extendWith_no_fuel_err _ hinner c s pm r) ctx parsed st
            rw [hl] at this
            cases rres with
            | none => exact finishAdjust_no_fuel_err _ _ _
            | some e =>
              simp only at this
              intro hcon
              simp only [Except.error.injEq] at hcon
              exact this (by rw [hcon])
        · cases h : updateLoop st parsed with
          | mk st1 err =>
            have hul := updateLoop_no_fuel_err st parsed
            rw [h] at hul
            cases err with
            | none => exact finishAdjust_no_fuel_err _ _ _
            | some e =>
              intro hcon
              simp only [Except.error.injEq] at hcon
              exact hul (by rw [hcon])
  · intro fuel hfuel ctx st pm r
    obtain ⟨n, rfl⟩ : ∃ n, fuel = n + 1 := ⟨fuel - 1, by omega⟩
    exact ⟨extendFuel_ge_one n ctx st pm r, hext ctx st pm r⟩

theorem setAssoc_ne_nil (m : List (String × β)) (k : String) (v : β) :
    setAssoc m k v ≠ [] := by
  unfold setAssoc
  split
  · rename_i hany
    intro h
    rw [List.map_eq_nil_iff] at h
    subst h
    simp at hany
  · intro h
    cases m <;> simp_all

theorem foldl_ne_nil {β γ : Type} {g : List (String × β) → γ → List (String × β)}
    (hg : ∀ m x, m ≠ [] → g m x ≠ []) :
    ∀ (l : List γ) (m : List (String × β)), m ≠ [] → l.foldl g m ≠ [] := by
  intro l
  induction l with
  | nil => intro m h; simpa using h
  | cons x xs ih => intro m h; exact ih (g m x) (hg m x h)

theorem ssInner_preserves_ne (validators : List (String × (L → Option String)))
    (p : String × List L) (m : List (String × String)) (h : m ≠ []) :
    ssInner validators m p ≠ [] := by
  unfold ssInner
  split
  · exact setAssoc_ne_nil _ _ _
  · refine foldl_ne_nil ?_ p.2 m h
    intro m2 v h2
    split
    · exact setAssoc_ne_nil _ _ _
    · exact h2

theorem ssVals_fold_good (dv : L → Option String) (k : String) :
    ∀ (vals : List L), (∀ v ∈ vals, dv v = none) →
      ∀ (m : List (String × String)),
        vals.foldl
          (fun msgs2 v =>
            match dv v with
            | some msg => setAssoc msgs2 k msg
            | none => msgs2) m = m := by
  intro vals
  induction vals with
  | nil => intro _ m; rfl
  | cons v vs ih =>
    intro hok m
    simp only [List.foldl_cons]
    rw [hok v (by simp)]
    exact ih (fun w hw => hok w (by simp [hw])) m

theorem ssVals_fold_bad (dv : L → Option String) (k : String) :
    ∀ (vals : List L) (v : L), v ∈ vals → dv v ≠ none →
      ∀ (m : List (String × String)),
        vals.foldl
          (fun msgs2 v1 =>
            match dv v1 with
            | some msg => setAssoc msgs2 k msg
            | none => msgs2) m ≠ [] := by
  intro vals
  induction vals with
  | nil => intro v hv; simp at hv
  | cons w ws ih =>
    intro v hv hfail m
    simp only [List.foldl_cons]
    rcases List.mem_cons.mp hv with heq | hmem
    · subst heq
      cases hw : dv v with
      | none => exact absurd hw hfail
      | some msg =>
        refine foldl_ne_nil ?_ ws _ (setAssoc_ne_nil m k msg)
        intro m2 u h2
        split
        · exact setAssoc_ne_nil _ _ _
        · exact h2
    · cases hw : dv w with
      | none => exact ih v hmem hfail m
      | some msg =>
        refine foldl_ne_nil ?_ ws _ (setAssoc_ne_nil m k msg)
        intro m2 u h2
        split
        · exact setAssoc_ne_nil _ _ _
        · exact h2

theorem ssInner_good (validators : List (String × (L → Option String)))
    (p : String × List L) (dv : L → Option String)
    (hdv : lookupAssoc validators p.1 = some dv) (hok : ∀ v ∈ p.2, dv v = none)
    (m : List (String × String)) :
    ssInner validators m p = m := by
  unfold ssInner
  rw [hdv]
  exact ssVals_fold_good dv p.1 p.2 hok m

theorem ssInner_bad (validators : List (String × (L → Option String)))
    (p : String × List L)
    (hbad : lookupAssoc validators p.1 = none ∨
      ∃ dv, lookupAssoc validators p.1 = some dv ∧ ∃ v ∈ p.2, dv v ≠ none)
    (m : List (String × String)) :
    ssInner validators m p ≠ [] := by
  unfold ssInner
  rcases hbad with hnone | ⟨dv, hdv, v, hv, hfail⟩
  · rw [hnone]
    exact setAssoc_ne_nil _ _ _
  · rw [hdv]
    exact ssVals_fold_bad dv p.1 p.2 v hv hfail m

/-- A supplied label is either fully accepted by its validator or has a
recordable failure. -/
theorem good_or_bad (validators : List (String × (L → Option String)))
    (p : String × List L) :
    (∃ dv, lookupAssoc validators p.1 = some dv ∧ ∀ v ∈ p.2, dv v = none) ∨
      (lookupAssoc validators p.1 = none ∨
        ∃ dv, lookupAssoc validators p.1 = some dv ∧ ∃ v ∈ p.2, dv v ≠ none) := by
  cases hdv : lookupAssoc validators p.1 with
  | none => exact Or.inr (Or.inl rfl)
  | some dv =>
    rcases Classical.em (∀ v ∈ p.2, dv v = none) with hall | hnot
    · exact Or.inl ⟨dv, rfl, hall⟩
    · push_neg at hnot
      obtain ⟨v, hv, hfail⟩ := hnot
      exact Or.inr (Or.inr ⟨dv, rfl, v, hv, hfail⟩)

theorem ssMessages_nil_of_good (validators : List (String × (L → Option String)))
    (labels : List (String × List L))
    (h : ∀ p ∈ labels, ∃ dv, lookupAssoc validators p.1 = some dv ∧
      ∀ v ∈ p.2, dv v = none) :
    ssMessages validators labels = [] := by
  unfold ssMessages
  induction labels with
  | nil => rfl
  | cons q rest ih =>
    simp only [List.foldl_cons]
    obtain ⟨dv, hdv, hok⟩ := h q (by simp)
    rw [ssInner_good validators q dv hdv hok]
    exact ih (fun p hp => h p (by simp [hp]))

theorem ssMessages_ne_nil_of_bad (validators : List (String × (L → Option String)))
    (labels : List (String × List L))
    (h : ∃ p ∈ labels, lookupAssoc validators p.1 = none ∨
      ∃ dv, lookupAssoc validators p.1 = some dv ∧ ∃ v ∈ p.2, dv v ≠ none) :
    ssMessages validators labels ≠ [] := by
  unfold ssMessages
  obtain ⟨p, hp, hbad⟩ := h
  have key : ∀ (l : List (String × List L)) (m : List (String × String)),
      p ∈ l → l.foldl (ssInner validators) m ≠ [] := by
    intro l
    induction l with
    | nil => intro m hm; simp at hm
    | cons q rest ih =>
      intro m hm
      simp only [List.foldl_cons]
      rcases List.mem_cons.mp hm with heq | hmem
      · subst heq
        exact foldl_ne_nil
          (fun m2 x h2 => ssInner_preserves_ne validators x m2 h2) rest _
          (ssInner_bad validators p hbad m)
      · exact ih _ hmem
  exact key labels [] hp

/-- C9: `set_state` is atomic — when a supplied label name is undeclared
or one of its values fails its validator's deserialize, the
`ValidationError` carrying the accumulated messages is raised and the
instance's state and working label grid are exactly as before the call;
on success the supplied labels are merged into the current state and the
working grid is narrowed per updated label. -/
theorem c9_set_state_atomic (validators : List (String × (L → Option String)))
    (st : St L V) (labels : List (String × List L)) :
    ((∃ p ∈ labels, lookupAssoc validators p.1 = none ∨
        ∃ dv, lookupAssoc validators p.1 = some dv ∧ ∃ v ∈ p.2, dv v ≠ none) →
      setStateF validators st labels = (st, some (ssMessages validators labels)) ∧
        ssMessages validators labels ≠ []) ∧
    ((∀ p ∈ labels, ∃ dv, lookupAssoc validators p.1 = some dv ∧
        ∀ v ∈ p.2, dv v = none) →
      setStateF validators st labels =
        ({ st with
            state := updateAssoc st.state labels,
            labelGrid := (updateAssoc st.state labels).foldl
              (fun g q => setAssoc g q.1 q.2) st.labelGrid }, none)) := by
  constructor
  · intro hbad
    have hne := ssMessages_ne_nil_of_bad validators labels hbad
    have hfalse : (ssMessages validators labels).isEmpty = false := by
      cases h : ssMessages validators labels with
      | nil => exact absurd h hne
      | cons a l => rfl
    constructor
    · simp only [setStateF]
      rw [hfalse]
      simp
    · exact hne
  · intro hgood
    have hnil := ssMessages_nil_of_good validators labels hgood
    simp only [setStateF]
    rw [hnil]
    simp

/-- Witness for C9: an undeclared label name `"z"` leaves the state
untouched and raises the message dict. -/
theorem c9_witness :
    (∃ p ∈ [("z", [(1 : Int)])],
        lookupAssoc vals0 p.1 = none ∨
        ∃ dv, lookupAssoc vals0 p.1 = some dv ∧
          ∃ v ∈ p.2, dv v ≠ none) ∧
      setStateF vals0 stEmpty [("z", [(1 : Int)])] =
        (stEmpty, some (ssMessages vals0 [("z", [(1 : Int)])])) :=
  ⟨⟨("z", [(1 : Int)]), by simp, Or.inl rfl⟩,
    ((c9_set_state_atomic vals0 stEmpty [("z", [(1 : Int)])]).1
      ⟨("z", [(1 : Int)]), by simp, Or.inl rfl⟩).1⟩

/-- C8: with `raise_errors=true` a failing validation surfaces the
accumulated failures (the wholesale-stored error info covering the entire
adjustment set) as one combined `ValidationError` raised only at the end
of `adjust`; with `raise_errors=false` the failures are stored for the
errors view without raising and the call returns; and previously stored
failures survive a subsequent successfully-validating adjustment
untouched. -/
theorem c8_error_deferral (ctx : Ctx L V) (st : St L V)
    (ps : Adjustment L V) (ea : Bool) :
    (∀ ve, ctx.validate ps = .error ve →
      adjustRun ctx st ps true ea =
        ({ st with errors := some ve }, .error (.validation ve)) ∧
      adjustRun ctx st ps false ea = ({ st with errors := some ve }, .ok []) ∧
      errorsView (adjustRun ctx st ps false ea).1 = ve.messages) ∧
    (∀ parsed e0, ctx.validate ps = .ok parsed → st.errors = some e0 →
      ∀ re, adjustRun ctx st ps re ea =
        (st, if re then .error (.validation e0) else .ok parsed)) := by
  constructor
  · intro ve hve
    refine ⟨?_, ?_, ?_⟩
    · show (adjustBody _ _ ctx st ps true ea) = _
      unfold adjustBody
      rw [hve]
      unfold finishAdjust
      rfl
    · show (adjustBody _ _ ctx st ps false ea) = _
      unfold adjustBody
      rw [hve]
      unfold finishAdjust
      rfl
    · show errorsView (adjustBody _ _ ctx st ps false ea).1 = _
      unfold adjustBody
      rw [hve]
      unfold finishAdjust
      rfl
  · intro parsed e0 hok herr re
    show (adjustBody _ _ ctx st ps re ea) = _
    unfold adjustBody
    rw [hok]
    dsimp only
    have hsome : st.errors.isSome = true := by rw [herr]; rfl
    rw [if_pos hsome]
    unfold finishAdjust
    rw [herr]
    cases re <;> rfl

/-- Witness for C8: a concrete failing validation is stored and raised as
one combined error; a later successful validation leaves it stored. -/
theorem c8_witness :
    (ctxFail.validate [] = .error eInfo0 ∧
      adjustRun ctxFail stEmpty [] true false =
        ({ stEmpty with errors := some eInfo0 }, .error (.validation eInfo0))) ∧
    (ctxOk.validate [] = .ok [] ∧ stErr.errors = some eInfo0 ∧
      adjustRun ctxOk stErr [] false false = (stErr, .ok [])) :=
  ⟨⟨rfl, ((c8_error_deferral ctxFail stEmpty [] false).1 eInfo0 rfl).1⟩,
   ⟨rfl, rfl, by
    have h := ((c8_error_deferral ctxOk stErr [] false).2 [] eInfo0 rfl rfl) false
    simpa using h⟩⟩

/-- Witness for C6 at fuel 3 and a concrete configuration: the collapsed
equality and the non-exhaustion, at an adjustment that actually extends. -/
theorem c6_witness :
    (2 ≤ 3 ∧
      adjustFuel 3
          (Ctx.mk (some "y") [("y", [(2020 : Int), 2021, 2022])] (fun a => .ok a))
          (St.mk [("p", [ValueObject.mk [("y", (2020 : Int))] (some (5 : Int))])]
            none [] [("y", [(2020 : Int), 2021, 2022])] false)
          [("p", [ValueObject.mk [("y", (2021 : Int))] (some (7 : Int))])] true true =
        adjustRun
          (Ctx.mk (some "y") [("y", [(2020 : Int), 2021, 2022])] (fun a => .ok a))
          (St.mk [("p", [ValueObject.mk [("y", (2020 : Int))] (some (5 : Int))])]
            none [] [("y", [(2020 : Int), 2021, 2022])] false)
          [("p", [ValueObject.mk [("y", (2021 : Int))] (some (7 : Int))])] true true) ∧
    (1 ≤ 2 ∧
      extendFuel 2
          (Ctx.mk (some "y") [("y", [(2020 : Int), 2021, 2022])] (fun a => .ok a))
          (St.mk [("p", [ValueObject.mk [("y", (2020 : Int))] (some (5 : Int))])]
            none [] [("y", [(2020 : Int), 2021, 2022])] false)
          none true =
        extendRun
          (Ctx.mk (some "y") [("y", [(2020 : Int), 2021, 2022])] (fun a => .ok a))
          (St.mk [("p", [ValueObject.mk [("y", (2020 : Int))] (some (5 : Int))])]
            none [] [("y", [(2020 : Int), 2021, 2022])] false)
          none true) :=
  ⟨⟨by norm_num,
    (c6_recursion_bounded.1 3 (by norm_num) _ _ _ _ _).1⟩,
   ⟨by norm_num,
    (c6_recursion_bounded.2 2 (by norm_num) _ _ _ _).1⟩⟩

theorem zip_self_map {α β γ : Type} (f : α → β) (g : α × β → γ) :
    ∀ l : List α, (l.zip (l.map f)).map g = l.map (fun x => g (x, f x)) := by
  intro l
  induction l with
  | nil => rfl
  | cons x xs ih =>
    simp only [List.map_cons, List.zip_cons_cons, ih]

theorem tupleOf_mem_combos (order : List (String × List L))
    (R : List (ValueObject L V))
    (h3 : List.Perm (R.map (tupleOf (order.map Prod.fst)))
      ((cartProd (order.map Prod.snd)).map (List.map some)))
    (x : ValueObject L V) (hx : x ∈ R) :
    ∃ c, List.Forall₂ (fun v l => v ∈ l) c (order.map Prod.snd) ∧
      tupleOf (order.map Prod.fst) x = c.map some := by
  have hmem : tupleOf (order.map Prod.fst) x ∈
      (cartProd (order.map Prod.snd)).map (List.map some) :=
    h3.mem_iff.mp (List.mem_map.mpr ⟨x, hx, rfl⟩)
  obtain ⟨c, hc, he⟩ := List.mem_map.mp hmem
  exact ⟨c, (mem_cartProd _ _).mp hc, he.symm⟩

theorem rmap_tuple_nodup (order : List (String × List L))
    (h2 : ∀ p ∈ order, p.2.Nodup) (R : List (ValueObject L V))
    (h3 : List.Perm (R.map (tupleOf (order.map Prod.fst)))
      ((cartProd (order.map Prod.snd)).map (List.map some))) :
    (R.map (tupleOf (order.map Prod.fst))).Nodup := by
  have hcn : (cartProd (order.map Prod.snd)).Nodup := by
    refine cartProd_nodup _ ?_
    intro l hl
    obtain ⟨p, hp, rfl⟩ := List.mem_map.mp hl
    exact h2 p hp
  have hinj : Function.Injective (List.map (some : L → Option L)) :=
    List.map_injective_iff.mpr (Option.some_injective L)
  exact h3.nodup_iff.mpr (hcn.map hinj)

theorem c2_item_matches (grid state : List (String × List L))
    (data : List (ValueObject L V)) (order : List (String × List L))
    (a0 arr : NpArray V)
    (h1 : resolveOrderItems grid (select_eq data false state) = .ok order)
    (h2 : ∀ p ∈ order, p.2.Nodup)
    (hnodup : ((select_eq data false state).map
      (tupleOf (order.map Prod.fst))).Nodup)
    (hfold : foldExc (writeStep order) a0 (select_eq data false state) = .ok arr)
    (h6 : ∀ vo ∈ select_eq data false state, ∀ k ∈ labelKeys vo,
      k ∈ grid.map Prod.fst)
    (c : List L) (hc : List.Forall₂ (fun v l => v ∈ l) c (order.map Prod.snd))
    (x : ValueObject L V) (hx : x ∈ select_eq data false state)
    (ht : tupleOf (order.map Prod.fst) x = c.map some) :
    equivVO (ValueObject.mk ((order.map Prod.fst).zip c)
      (readArr arr (ixTuple order c))) x := by
  have hrec : recordIx order x = .ok (ixTuple order c) :=
    recordIx_ok order x c hc ht
  have huniq : ∀ w ∈ select_eq data false state,
      recordIx order w = .ok (ixTuple order c) → w = x := by
    intro w hw hrw
    obtain ⟨t, htf, htw, hixeq⟩ := recordIx_ok_inv order w (ixTuple order c) hrw
    have hct : c = t := ixTuple_inj order h2 c t hc htf hixeq
    rw [← hct] at htw
    exact eq_of_nodup_map (tupleOf (order.map Prod.fst)) _ hnodup w hw x hx
      (htw.trans ht.symm)
  have hval : readArr arr (ixTuple order c) = x.value :=
    fold_write_read_unique order (select_eq data false state) a0 arr hfold x
      (ixTuple order c) hx hrec huniq
  obtain ⟨used, hcl, horder⟩ :=
    resolveOrderItems_ok_inv grid (select_eq data false state) order h1
  have hkeys := consistentLabels_spec (select_eq data false state) used hcl x hx
  have hmap : (order.map Prod.fst).map (getLbl x) = c.map some := ht
  have hlz := lookup_zip_eq (getLbl x) (order.map Prod.fst) c hmap
  refine ⟨?_, hval⟩
  intro k
  show lookupLbl ((order.map Prod.fst).zip c) k = getLbl x k
  rw [hlz k]
  by_cases hk : k ∈ order.map Prod.fst
  · rw [if_pos hk]
  · rw [if_neg hk]
    cases hg : getLbl x k with
    | none => rfl
    | some v =>
      exfalso
      have hkx : k ∈ labelKeys x := lookupLbl_some_mem hg
      have hku : k ∈ used := (hkeys k).mp hkx
      obtain ⟨p, hp, hpk⟩ := List.mem_map.mp (h6 x hx k hkx)
      refine hk ?_
      rw [horder]
      refine List.mem_map.mpr ⟨p, ?_, hpk⟩
      refine List.mem_filter.mpr ⟨hp, ?_⟩
      rw [hpk]
      exact decide_eq_true hku

/-- C2: for a parameter whose state-filtered record set `R` is dense over
the resolved label order — the label-tuples of `R` are exactly the
cartesian product of the per-label value orders — `from_array` applied to
the array returned by `to_array` reproduces `R` as a set of value objects,
independent of record order.  (Each per-label order is duplicate-free, no
record carries the `null` sentinel — it could not be written into the
typed array — and records use only declared labels.) -/
theorem c2_round_trip (grid state : List (String × List L))
    (data : List (ValueObject L V)) (order : List (String × List L))
    (h1 : resolveOrderItems grid (select_eq data false state) = .ok order)
    (h2 : ∀ p ∈ order, p.2.Nodup)
    (h3 : List.Perm ((select_eq data false state).map
        (tupleOf (order.map Prod.fst)))
      ((cartProd (order.map Prod.snd)).map (List.map some)))
    (h4 : ∀ vo ∈ select_eq data false state, vo.value ≠ none)
    (h6 : ∀ vo ∈ select_eq data false state, ∀ k ∈ labelKeys vo,
      k ∈ grid.map Prod.fst) :
    ∃ arr items, toArray grid state data = .ok arr ∧
      fromArray grid state data arr = .ok items ∧
      eqAsVoSets items (select_eq data false state) := by
  have hne : select_eq data false state ≠ [] := by
    intro hR
    rw [hR] at h1 h3
    obtain ⟨used, hcl, hord⟩ := resolveOrderItems_ok_inv grid [] order h1
    have hused : used = [] := by
      simp only [consistentLabels] at hcl
      exact (Option.some.inj hcl).symm
    have hord0 : order = [] := by
      rw [hord, hused]
      simp
    rw [hord0] at h3
    have hlen := h3.length_eq
    simp [cartProd] at hlen
  have hie : (select_eq data false state).isEmpty = false := by
    cases hh : select_eq data false state with
    | nil => exact absurd hh hne
    | cons a l => rfl
  have hlen : (select_eq data false state).length =
      (order.map (fun p => p.2.length)).prod := by
    have hl := h3.length_eq
    rw [List.length_map, List.length_map, cartProd_length, List.map_map] at hl
    exact hl
  have hnodup := rmap_tuple_nodup order h2 (select_eq data false state) h3
  have hwrites : ∀ vo ∈ select_eq data false state, ∀ a,
      ∃ a1, writeStep order a vo = .ok a1 := by
    intro vo hvo a
    obtain ⟨c, hc, ht⟩ :=
      tupleOf_mem_combos order (select_eq data false state) h3 vo hvo
    have hrec := recordIx_ok order vo c hc ht
    cases hv : vo.value with
    | none => exact absurd hv (h4 vo hvo)
    | some v =>
      refine ⟨writeArr a (ixTuple order c) v, ?_⟩
      simp [writeStep, hrec, hv]
  obtain ⟨arr, harr⟩ := foldExc_ok_of_all (writeStep order)
    (select_eq data false state) hwrites
    (NpArray.mk (order.map (fun p => p.2.length)) [])
  have htoa : toArray grid state data = .ok arr := by
    simp only [toArray, hie, Bool.false_eq_true, if_false, h1]
    rw [if_neg (fun hc => hc hlen)]
    exact harr
  have hfrom : fromArray grid state data arr = .ok
      ((cartProd (order.map Prod.snd)).map (fun c =>
        ValueObject.mk ((order.map Prod.fst).zip c)
          (readArr arr (ixTuple order c)))) := by
    simp only [fromArray, h1]
    rw [cartProd_ranges order h2, zip_self_map]
  refine ⟨arr, _, htoa, hfrom, ?_⟩
  intro w
  constructor
  · rintro ⟨it, hit, heq⟩
    obtain ⟨c, hcmem, rfl⟩ := List.mem_map.mp hit
    have hc := (mem_cartProd _ _).mp hcmem
    have hmm : List.map some c ∈ (select_eq data false state).map
        (tupleOf (order.map Prod.fst)) :=
      h3.mem_iff.mpr (List.mem_map.mpr ⟨c, hcmem, rfl⟩)
    obtain ⟨x, hxR, hxt⟩ := List.mem_map.mp hmm
    have hmatch := c2_item_matches grid state data order _ arr h1 h2 hnodup
      harr h6 c hc x hxR hxt
    exact ⟨x, hxR, equivVO_trans (equivVO_symm hmatch) heq⟩
  · rintro ⟨x, hxR, heq⟩
    obtain ⟨c, hc, ht⟩ :=
      tupleOf_mem_combos order (select_eq data false state) h3 x hxR
    have hcmem : c ∈ cartProd (order.map Prod.snd) := (mem_cartProd _ _).mpr hc
    have hmatch := c2_item_matches grid state data order _ arr h1 h2 hnodup
      harr h6 c hc x hxR ht
    exact ⟨_, List.mem_map.mpr ⟨c, hcmem, rfl⟩, equivVO_trans hmatch heq⟩

/-- C2 witness: a dense two-record parameter on a single `year` label with
grid `[2020, 2021]` — every hypothesis holds by computation and the
round-trip reproduces the records as a set. -/
theorem c2_witness :
    (resolveOrderItems [("year", [(2020 : Int), 2021])]
        (select_eq [ValueObject.mk [("year", (2020 : Int))] (some (5 : Int)),
          ValueObject.mk [("year", (2021 : Int))] (some (7 : Int))] false []) =
      .ok [("year", [(2020 : Int), 2021])]) ∧
    ∃ arr items,
      toArray [("year", [(2020 : Int), 2021])] []
          [ValueObject.mk [("year", (2020 : Int))] (some (5 : Int)),
           ValueObject.mk [("year", (2021 : Int))] (some (7 : Int))] = .ok arr ∧
      fromArray [("year", [(2020 : Int), 2021])] []
          [ValueObject.mk [("year", (2020 : Int))] (some (5 : Int)),
           ValueObject.mk [("year", (2021 : Int))] (some (7 : Int))] arr =
        .ok items ∧
      eqAsVoSets items
        (select_eq [ValueObject.mk [("year", (2020 : Int))] (some (5 : Int)),
          ValueObject.mk [("year", (2021 : Int))] (some (7 : Int))] false []) :=
  ⟨by rfl,
   c2_round_trip [("year", [(2020 : Int), 2021])] []
     [ValueObject.mk [("year", (2020 : Int))] (some (5 : Int)),
      ValueObject.mk [("year", (2021 : Int))] (some (7 : Int))]
     [("year", [(2020 : Int), 2021])]
     (by rfl) (by decide) (List.Perm.of_eq (by decide)) (by decide) (by decide)⟩

theorem any_key_false_lookup_none {β : Type} :
    ∀ (m : List (String × β)) (k : String),
      (m.any fun p => p.1 = k) = false → lookupAssoc m k = none := by
  intro m k
  induction m with
  | nil => intro _; rfl
  | cons p rest ih =>
    intro h
    simp only [List.any_cons, Bool.or_eq_false_iff] at h
    simp only [lookupAssoc]
    rw [if_neg (by simpa using h.1)]
    exact ih h.2

theorem lookupAssoc_append {β : Type} :
    ∀ (m l : List (String × β)) (q : String),
      lookupAssoc (m ++ l) q =
        match lookupAssoc m q with
        | some x => some x
        | none => lookupAssoc l q := by
  intro m l q
  induction m with
  | nil => rfl
  | cons p rest ih =>
    simp only [List.cons_append, lookupAssoc]
    by_cases hp : p.1 = q
    · rw [if_pos hp, if_pos hp]
    · rw [if_neg hp, if_neg hp]
      exact ih

theorem lookup_map_set_self {β : Type} (k : String) (v : β) :
    ∀ (m : List (String × β)), (m.any fun p => p.1 = k) = true →
      lookupAssoc (m.map (fun p => if p.1 = k then (k, v) else p)) k = some v := by
  intro m
  induction m with
  | nil => intro h; cases h
  | cons p rest ih =>
    intro h
    simp only [List.map_cons]
    by_cases hp : p.1 = k
    · rw [if_pos hp]
      simp [lookupAssoc]
    · rw [if_neg hp]
      simp only [lookupAssoc]
      rw [if_neg hp]
      apply ih
      simp only [List.any_cons, Bool.or_eq_true] at h
      rcases h with h | h
      · exact absurd (of_decide_eq_true h) hp
      · exact h

theorem lookup_map_set_ne {β : Type} (k q : String) (v : β) (hq : ¬ q = k) :
    ∀ (m : List (String × β)),
      lookupAssoc (m.map (fun p => if p.1 = k then (k, v) else p)) q =
        lookupAssoc m q := by
  intro m
  induction m with
  | nil => rfl
  | cons p rest ih =>
    simp only [List.map_cons]
    by_cases hp : p.1 = k
    · rw [if_pos hp]
      simp only [lookupAssoc]
      rw [if_neg (fun h => hq h.symm), if_neg (fun h => hq (hp ▸ h).symm), ih]
    · rw [if_neg hp]
      simp only [lookupAssoc]
      by_cases hpq : p.1 = q
      · rw [if_pos hpq, if_pos hpq]
      · rw [if_neg hpq, if_neg hpq, ih]

theorem lookupAssoc_set_self {β : Type} (m : List (String × β)) (k : String) (v : β) :
    lookupAssoc (setAssoc m k v) k = some v := by
  unfold setAssoc
  split
  · rename_i h
    exact lookup_map_set_self k v m h
  · rename_i h
    rw [lookupAssoc_append, any_key_false_lookup_none m k (Bool.eq_false_iff.mpr h)]
    simp [lookupAssoc]

theorem lookupAssoc_set_ne {β : Type} (m : List (String × β)) (k q : String) (v : β)
    (hq : ¬ q = k) : lookupAssoc (setAssoc m k v) q = lookupAssoc m q := by
  unfold setAssoc
  split
  · exact lookup_map_set_ne k q v hq m
  · rw [lookupAssoc_append]
    cases h : lookupAssoc m q with
    | some x => rfl
    | none =>
      dsimp only
      simp only [lookupAssoc]
      rw [if_neg (fun hh => hq hh.symm)]

theorem dataOf_setData_self (st : St L V) (p : String)
    (vs : List (ValueObject L V)) : dataOf (setData st p vs) p = vs := by
  unfold dataOf setData
  rw [lookupAssoc_set_self]
  rfl

theorem dataOf_setData_ne (st : St L V) (p q : String)
    (vs : List (ValueObject L V)) (hq : ¬ q = p) :
    dataOf (setData st p vs) q = dataOf st q := by
  unfold dataOf setData
  rw [lookupAssoc_set_ne st.data p q vs hq]

theorem finishAdjust_fst (st : St L V) (re : Bool) (ps : Adjustment L V) :
    (finishAdjust st re ps).1 = st := by
  unfold finishAdjust
  split
  · split <;> rfl
  · rfl

theorem updateLoop_frame :
    ∀ (ps : Adjustment L V) (st : St L V) (q : String), ¬ q ∈ ps.map Prod.fst →
      dataOf (updateLoop st ps).1 q = dataOf st q := by
  intro ps
  induction ps with
  | nil => intro st q _; rfl
  | cons pv rest ih =>
    intro st q hq
    obtain ⟨p, vs⟩ := pv
    simp only [List.map_cons, List.mem_cons] at hq
    push_neg at hq
    simp only [updateLoop]
    split
    · exact dataOf_setData_ne st p q _ hq.1
    · rename_i l h
      rw [ih (setData st p l) q hq.2]
      exact dataOf_setData_ne st p q l hq.1

theorem adjustFuel_noext_frame (ctx : Ctx L V)
    (hmono : ∀ ps parsed, ctx.validate ps = .ok parsed →
      ∀ k, k ∈ parsed.map Prod.fst → k ∈ ps.map Prod.fst) :
    ∀ (fuel : Nat) (st : St L V) (ps : Adjustment L V) (re : Bool) (q : String),
      ¬ q ∈ ps.map Prod.fst →
      dataOf (adjustFuel fuel ctx st ps re false).1 q = dataOf st q := by
  intro fuel st ps re q hq
  cases fuel with
  | zero => rfl
  | succ n =>
    show dataOf (adjustBody (fun c s a r => adjustFuel n c s a r false)
      (extendWith (fun c s a r => adjustFuel n c s a r false)) ctx st ps re false).1 q =
        dataOf st q
    unfold adjustBody
    cases hv : ctx.validate ps with
    | error ve =>
      rw [finishAdjust_fst]
      rfl
    | ok parsed =>
      dsimp only
      split
      · rw [finishAdjust_fst]
      · rw [if_neg (by simp)]
        have hq2 : ¬ q ∈ parsed.map Prod.fst := fun hc => hq (hmono ps parsed hv q hc)
        split
        · rename_i st1 e h
          have hfr := updateLoop_frame parsed st q hq2
          rw [h] at hfr
          exact hfr
        · rename_i st1 h
          rw [finishAdjust_fst]
          have hfr := updateLoop_frame parsed st q hq2
          rw [h] at hfr
          exact hfr

theorem extendSpec_keys (st : St L V) (pl : List String) :
    ∀ k ∈ (extendSpec st (some pl)).map Prod.fst, k ∈ pl := by
  intro k hk
  simp only [extendSpec] at hk
  obtain ⟨pr, hpr, hprk⟩ := List.mem_map.mp hk
  obtain ⟨pd, hpd, hpdr⟩ := List.mem_map.mp hpr
  have hmem := (List.mem_filter.mp hpd).2
  rw [← hprk, ← hpdr]
  exact of_decide_eq_true hmem

theorem extFold_keys (lbl : String) (grid : List L) (st : St L V) :
    ∀ (items : List (String × List (ValueObject L V))) (acc out : Adjustment L V),
      foldExc (fun acc pv =>
        match extendParam lbl grid (dataOf st pv.1) pv.2 with
        | .error e => .error e
        | .ok fills => .ok (if fills.isEmpty then acc else acc ++ [(pv.1, fills)]))
        acc items = .ok out →
      ∀ k, k ∈ out.map Prod.fst → k ∈ acc.map Prod.fst ∨ k ∈ items.map Prod.fst := by
  intro items
  induction items with
  | nil =>
    intro acc out h k hk
    cases h
    exact Or.inl hk
  | cons pv rest ih =>
    intro acc out h k hk
    simp only [foldExc] at h
    cases hstep : extendParam lbl grid (dataOf st pv.1) pv.2 with
    | error e =>
      rw [hstep] at h
      cases h
    | ok fills =>
      rw [hstep] at h
      dsimp only at h
      rcases ih _ out h k hk with hin | hin
      · by_cases hemp : fills.isEmpty
        · rw [if_pos hemp] at hin
          exact Or.inl hin
        · rw [if_neg hemp] at hin
          simp only [List.map_append, List.mem_append] at hin
          rcases hin with hin | hin
          · exact Or.inl hin
          · simp only [List.map_cons, List.map_nil, List.mem_singleton] at hin
            right
            rw [hin]
            simp
      · right
        simp [hin]

theorem extendWith_frame (ctx : Ctx L V)
    (hmono : ∀ ps parsed, ctx.validate ps = .ok parsed →
      ∀ k, k ∈ parsed.map Prod.fst → k ∈ ps.map Prod.fst)
    (fuel : Nat) (st : St L V) (p : String) (re : Bool) (q : String) (hq : ¬ q = p) :
    dataOf (extendWith (fun c s a r => adjustFuel fuel c s a r false)
      ctx st (some [p]) re).1 q = dataOf st q := by
  unfold extendWith
  dsimp only
  split
  · rfl
  · rename_i lbl hlbl
    split
    · rfl
    · rename_i extendGrid hgrid
      split
      · rfl
      · rename_i adjustment hf
        have hkeys : ¬ q ∈ adjustment.map Prod.fst := by
          intro hc
          rcases extFold_keys lbl extendGrid st (extendSpec st (some [p])) []
              adjustment hf q hc with h1 | h1
          · cases h1
          · have hin := extendSpec_keys st [p] q h1
            simp only [List.mem_singleton] at hin
            exact hq hin
        split
        · rename_i st1 e hadj
          have hfr := adjustFuel_noext_frame ctx hmono fuel st adjustment re q hkeys
          rw [hadj] at hfr
          exact hfr
        · rename_i st1 l hadj
          have hfr := adjustFuel_noext_frame ctx hmono fuel st adjustment re q hkeys
          rw [hadj] at hfr
          exact hfr

theorem stepWith_scoped (ctx : Ctx L V)
    (hmono : ∀ ps parsed, ctx.validate ps = .ok parsed →
      ∀ k, k ∈ parsed.map Prod.fst → k ∈ ps.map Prod.fst)
    (fuel : Nat) (st : St L V) (p : String) (vos : List (ValueObject L V))
    (sOut : St L V) (o : StepOutcome L)
    (h : stepWith (fun c s a r => adjustFuel fuel c s a r false)
      (extendWith (fun c s a r => adjustFuel fuel c s a r false)) ctx st p vos =
        (sOut, o)) :
    (o = StepOutcome.rolledBack → dataOf sOut p = dataOf st p) ∧
    (∀ q, ¬ q = p → dataOf sOut q = dataOf st q) := by
  unfold stepWith at h
  split at h
  · rw [Prod.mk.injEq] at h
    obtain ⟨h1, h2⟩ := h
    subst h1
    constructor
    · intro hc
      rw [hc] at h2
    · intro q _; rfl
  · rename_i lbl hlbl
    dsimp only at h
    split at h
    · rename_i st2 ve heq
      rw [Prod.mk.injEq] at h
      obtain ⟨h1, h2⟩ := h
      subst h1
      have hfr : ∀ q, ¬ q = p → dataOf st2 q = dataOf st q := by
        intro q hqp
        have hfr1 := adjustFuel_noext_frame ctx hmono fuel { st with arrayFirst := false }
          [(p, toDeleteList lbl ((lookupAssoc ctx.statelessGrid lbl).getD [])
            (dataOf st p) vos)] true q (by simp [hqp])
        rw [heq] at hfr1
        exact hfr1
      constructor
      · intro _
        exact dataOf_setData_self st2 p (dataOf st p)
      · intro q hqp
        rw [dataOf_setData_ne st2 p q _ hqp]
        exact hfr q hqp
    · rename_i st2 ev hnv heq
      rw [Prod.mk.injEq] at h
      obtain ⟨h1, h2⟩ := h
      subst h1
      constructor
      · intro hc
        rw [hc] at h2
        exact StepOutcome.noConfusion h2
      · intro q hqp
        have hfr1 := adjustFuel_noext_frame ctx hmono fuel { st with arrayFirst := false }
          [(p, toDeleteList lbl ((lookupAssoc ctx.statelessGrid lbl).getD [])
            (dataOf st p) vos)] true q (by simp [hqp])
        rw [heq] at hfr1
        exact hfr1
    · rename_i st2 l1 heq1
      have hfr2 : ∀ q, ¬ q = p → dataOf st2 q = dataOf st q := by
        intro q hqp
        have hfr1 := adjustFuel_noext_frame ctx hmono fuel { st with arrayFirst := false }
          [(p, toDeleteList lbl ((lookupAssoc ctx.statelessGrid lbl).getD [])
            (dataOf st p) vos)] true q (by simp [hqp])
        rw [heq1] at hfr1
        exact hfr1
      split at h
      · rename_i st3 ve heq
        rw [Prod.mk.injEq] at h
        obtain ⟨h1, h2⟩ := h
        subst h1
        have hfr3 : ∀ q, ¬ q = p → dataOf st3 q = dataOf st2 q := by
          intro q hqp
          have hfr1 := adjustFuel_noext_frame ctx hmono fuel st2 [(p, vos)] true q
            (by simp [hqp])
          rw [heq] at hfr1
          exact hfr1
        constructor
        · intro _
          exact dataOf_setData_self st3 p (dataOf st p)
        · intro q hqp
          rw [dataOf_setData_ne st3 p q _ hqp, hfr3 q hqp]
          exact hfr2 q hqp
      · rename_i st3 ev hnv heq
        rw [Prod.mk.injEq] at h
        obtain ⟨h1, h2⟩ := h
        subst h1
        constructor
        · intro hc
          rw [hc] at h2
          exact StepOutcome.noConfusion h2
        · intro q hqp
          have hfr1 := adjustFuel_noext_frame ctx hmono fuel st2 [(p, vos)] true q
            (by simp [hqp])
          rw [heq] at hfr1
          rw [hfr1]
          exact hfr2 q hqp
      · rename_i st3 l2 heq2
        have hfr3 : ∀ q, ¬ q = p → dataOf st3 q = dataOf st2 q := by
          intro q hqp
          have hfr1 := adjustFuel_noext_frame ctx hmono fuel st2 [(p, vos)] true q
            (by simp [hqp])
          rw [heq2] at hfr1
          exact hfr1
        split at h
        · rename_i st5 ve heq
          rw [Prod.mk.injEq] at h
          obtain ⟨h1, h2⟩ := h
          subst h1
          have hfr5 : ∀ q, ¬ q = p →
              dataOf st5 q = dataOf { st3 with arrayFirst := st.arrayFirst } q := by
            intro q hqp
            have hfr1 := extendWith_frame ctx hmono fuel
              { st3 with arrayFirst := st.arrayFirst } p true q hqp
            rw [heq] at hfr1
            exact hfr1
          constructor
          · intro _
            exact dataOf_setData_self st5 p (dataOf st p)
          · intro q hqp
            rw [dataOf_setData_ne st5 p q _ hqp, hfr5 q hqp]
            show dataOf st3 q = dataOf st q
            rw [hfr3 q hqp]
            exact hfr2 q hqp
        · rename_i st5 ev hnv heq
          rw [Prod.mk.injEq] at h
          obtain ⟨h1, h2⟩ := h
          subst h1
          constructor
          · intro hc
            rw [hc] at h2
            exact StepOutcome.noConfusion h2
          · intro q hqp
            have hfr1 := extendWith_frame ctx hmono fuel
              { st3 with arrayFirst := st.arrayFirst } p true q hqp
            rw [heq] at hfr1
            rw [hfr1]
            show dataOf st3 q = dataOf st q
            rw [hfr3 q hqp]
            exact hfr2 q hqp
        · rename_i st5 heq
          rw [Prod.mk.injEq] at h
          obtain ⟨h1, h2⟩ := h
          subst h1
          constructor
          · intro hc
            rw [hc] at h2
            exact StepOutcome.noConfusion h2
          · intro q hqp
            have hfr1 := extendWith_frame ctx hmono fuel
              { st3 with arrayFirst := st.arrayFirst } p true q hqp
            rw [heq] at hfr1
            rw [hfr1]
            show dataOf st3 q = dataOf st q
            rw [hfr3 q hqp]
            exact hfr2 q hqp

theorem extLoop_outs_keys (adj : NEFun L V) (ext : ExtFun L V) (ctx : Ctx L V) :
    ∀ (ps : Adjustment L V) (st : St L V) (p : String) (o : StepOutcome L),
      (p, o) ∈ (extLoopWith adj ext ctx st ps).2.1 → p ∈ ps.map Prod.fst := by
  intro ps
  induction ps with
  | nil =>
    intro st p o hp
    simp [extLoopWith] at hp
  | cons pv rest ih =>
    intro st p o hp
    obtain ⟨p0, vos0⟩ := pv
    simp only [extLoopWith] at hp
    split at hp
    · simp only [List.mem_singleton] at hp
      rw [Prod.mk.injEq] at hp
      simp [hp.1]
    · rename_i s1 o1 hne heq
      dsimp only at hp
      rcases List.mem_cons.mp hp with hh | hh
      · rw [Prod.mk.injEq] at hh
        simp [hh.1]
      · simp only [List.map_cons, List.mem_cons]
        exact Or.inr (ih s1 p o hh)

theorem extLoop_frame (ctx : Ctx L V)
    (hmono : ∀ ps parsed, ctx.validate ps = .ok parsed →
      ∀ k, k ∈ parsed.map Prod.fst → k ∈ ps.map Prod.fst) (fuel : Nat) :
    ∀ (ps : Adjustment L V) (st : St L V) (q : String), ¬ q ∈ ps.map Prod.fst →
      dataOf (extLoopWith (fun c s a r => adjustFuel fuel c s a r false)
        (extendWith (fun c s a r => adjustFuel fuel c s a r false)) ctx st ps).1 q =
        dataOf st q := by
  intro ps
  induction ps with
  | nil => intro st q _; rfl
  | cons pv rest ih =>
    intro st q hq
    obtain ⟨p0, vos0⟩ := pv
    simp only [List.map_cons, List.mem_cons] at hq
    push_neg at hq
    simp only [extLoopWith]
    split
    · rename_i s1 e heq
      exact (stepWith_scoped ctx hmono fuel st p0 vos0 s1 _ heq).2 q hq.1
    · rename_i s1 o1 hne heq
      dsimp only
      rw [ih s1 q hq.2]
      exact (stepWith_scoped ctx hmono fuel st p0 vos0 s1 _ heq).2 q hq.1

theorem extLoop_rolledback (ctx : Ctx L V)
    (hmono : ∀ ps parsed, ctx.validate ps = .ok parsed →
      ∀ k, k ∈ parsed.map Prod.fst → k ∈ ps.map Prod.fst) (fuel : Nat) :
    ∀ (ps : Adjustment L V) (st : St L V), (ps.map Prod.fst).Nodup →
      ∀ p, (p, StepOutcome.rolledBack) ∈
          (extLoopWith (fun c s a r => adjustFuel fuel c s a r false)
            (extendWith (fun c s a r => adjustFuel fuel c s a r false)) ctx st ps).2.1 →
        dataOf (extLoopWith (fun c s a r => adjustFuel fuel c s a r false)
          (extendWith (fun c s a r => adjustFuel fuel c s a r false)) ctx st ps).1 p =
          dataOf st p := by
  intro ps
  induction ps with
  | nil =>
    intro st _ p hp
    simp [extLoopWith] at hp
  | cons pv rest ih =>
    intro st hnd p hp
    obtain ⟨p0, vos0⟩ := pv
    simp only [List.map_cons, List.nodup_cons] at hnd
    obtain ⟨hp0, hndr⟩ := hnd
    simp only [extLoopWith] at hp ⊢
    split at hp
    · rename_i s1 e heq
      simp at hp
    · rename_i s1 o1 hne heq
      dsimp only at hp
      dsimp only
      rcases List.mem_cons.mp hp with hh | hh
      · rw [Prod.mk.injEq] at hh
        obtain ⟨hh1, hh2⟩ := hh
        subst hh1
        rw [extLoop_frame ctx hmono fuel rest s1 p hp0]
        exact (stepWith_scoped ctx hmono fuel st p vos0 s1 _ heq).1 hh2.symm
      · have hpkeys : p ∈ rest.map Prod.fst :=
          extLoop_outs_keys _ _ ctx rest s1 p _ hh
        have hne2 : ¬ p = p0 := fun hc => hp0 (hc ▸ hpkeys)
        rw [ih s1 hndr p hh]
        exact (stepWith_scoped ctx hmono fuel st p0 vos0 s1 _ heq).2 p hne2

/-- C7: during `adjust` with an extend label configured (and a validator
that never invents parameter names), a validation failure in one
parameter's delete/merge/extend sequence triggers a rollback scoped to
that parameter: the failing sequence restores the parameter's record list
to its pre-adjustment snapshot while leaving every other parameter —
including parameters successfully adjusted earlier in the same call —
unchanged; over the whole call, every rolled-back parameter ends at its
snapshot, parameters outside the adjustment are untouched, and the call's
final data is exactly the per-parameter loop's data. -/
theorem c7_scoped_rollback (ctx : Ctx L V) (lbl : String)
    (hlbl : ctx.labelToExtend = some lbl)
    (hmono : ∀ ps parsed, ctx.validate ps = .ok parsed →
      ∀ k, k ∈ parsed.map Prod.fst → k ∈ ps.map Prod.fst)
    (st : St L V) (params parsed : Adjustment L V) (re : Bool)
    (hval : ctx.validate params = .ok parsed)
    (herr : st.errors = none)
    (hnd : (parsed.map Prod.fst).Nodup) :
    (∀ (s : St L V) (p : String) (vos : List (ValueObject L V)) (s1 : St L V)
        (o : StepOutcome L),
      stepWith (fun c s2 a r => adjustFuel 1 c s2 a r false)
          (extendWith (fun c s2 a r => adjustFuel 1 c s2 a r false)) ctx s p vos =
        (s1, o) →
      (o = StepOutcome.rolledBack → dataOf s1 p = dataOf s p) ∧
      (∀ q, ¬ q = p → dataOf s1 q = dataOf s q)) ∧
    (adjustRun ctx st params re true).1.data =
      (extLoopWith (fun c s2 a r => adjustFuel 1 c s2 a r false)
        (extendWith (fun c s2 a r => adjustFuel 1 c s2 a r false)) ctx st parsed).1.data ∧
    (∀ p, (p, StepOutcome.rolledBack) ∈
        (extLoopWith (fun c s2 a r => adjustFuel 1 c s2 a r false)
          (extendWith (fun c s2 a r => adjustFuel 1 c s2 a r false)) ctx st parsed).2.1 →
      dataOf (extLoopWith (fun c s2 a r => adjustFuel 1 c s2 a r false)
        (extendWith (fun c s2 a r => adjustFuel 1 c s2 a r false)) ctx st parsed).1 p =
        dataOf st p) ∧
    (∀ q, ¬ q ∈ parsed.map Prod.fst →
      dataOf (extLoopWith (fun c s2 a r => adjustFuel 1 c s2 a r false)
        (extendWith (fun c s2 a r => adjustFuel 1 c s2 a r false)) ctx st parsed).1 q =
        dataOf st q) := by
  refine ⟨?_, ?_, ?_, ?_⟩
  · intro s p vos s1 o h
    exact stepWith_scoped ctx hmono 1 s p vos s1 o h
  · show (adjustBody (fun c s2 a r => adjustFuel 1 c s2 a r false)
      (extendWith (fun c s2 a r => adjustFuel 1 c s2 a r false))
      ctx st params re true).1.data = _
    unfold adjustBody
    rw [hval]
    dsimp only
    rw [if_neg (by rw [herr]; simp)]
    rw [if_pos (by rw [hlbl]; simp)]
    cases hres : extLoopWith (fun c s2 a r => adjustFuel 1 c s2 a r false)
        (extendWith (fun c s2 a r => adjustFuel 1 c s2 a r false)) ctx st parsed with
    | mk s1 rest2 =>
      obtain ⟨outs, oe⟩ := rest2
      cases oe with
      | none =>
        dsimp only
        rw [finishAdjust_fst]
      | some e =>
        dsimp only
  · intro p hp
    exact extLoop_rolledback ctx hmono 1 parsed st hnd p hp
  · intro q hq
    exact extLoop_frame ctx hmono 1 parsed st q hq

/-- C7 witness: the concrete extend-label configuration `ctx7`, state
`st7` and adjustment `params7` satisfy every hypothesis, and the scoped
rollback conclusion holds for them. -/
theorem c7_witness :
    (ctx7.labelToExtend = some "y" ∧ ctx7.validate params7 = .ok params7 ∧
      st7.errors = none ∧ (params7.map Prod.fst).Nodup) ∧
    ((∀ (s : St Int Int) (p : String) (vos : List (ValueObject Int Int))
        (s1 : St Int Int) (o : StepOutcome Int),
      stepWith adj7 ext7 ctx7 s p vos = (s1, o) →
      (o = StepOutcome.rolledBack → dataOf s1 p = dataOf s p) ∧
      (∀ q, ¬ q = p → dataOf s1 q = dataOf s q)) ∧
    (adjustRun ctx7 st7 params7 true true).1.data =
      (extLoopWith adj7 ext7 ctx7 st7 params7).1.data ∧
    (∀ p, (p, StepOutcome.rolledBack) ∈ (extLoopWith adj7 ext7 ctx7 st7 params7).2.1 →
      dataOf (extLoopWith adj7 ext7 ctx7 st7 params7).1 p = dataOf st7 p) ∧
    (∀ q, ¬ q ∈ params7.map Prod.fst →
      dataOf (extLoopWith adj7 ext7 ctx7 st7 params7).1 q = dataOf st7 q)) :=
  ⟨⟨rfl, rfl, rfl, by decide⟩,
   c7_scoped_rollback ctx7 "y" rfl
     (by intro ps parsed h k hk; injection h with h1; rw [← h1] at hk; exact hk)
     st7 params7 params7 true rfl rfl (by decide)⟩

theorem mapExc_map_ok {α β γ ε : Type} (f : β → Except ε γ) (h : α → β) (g : α → γ) :
    ∀ l : List α, (∀ x ∈ l, f (h x) = .ok (g x)) →
      mapExc f (l.map h) = .ok (l.map g) := by
  intro l
  induction l with
  | nil => intro _; rfl
  | cons x xs ih =>
    intro hall
    simp only [List.map_cons, mapExc, hall x (by simp),
      ih (fun y hy => hall y (by simp [hy]))]

theorem voEquivB_refl (a : ValueObject L V) : voEquivB a a = true := by
  simp [voEquivB, sameTupleB]

theorem memVoSet_of_mem {s : List (ValueObject L V)} {w : ValueObject L V}
    (h : w ∈ s) : memVoSet s w = true :=
  List.any_eq_true.mpr ⟨w, h, voEquivB_refl w⟩

theorem memVoSet_append_right (a b : List (ValueObject L V)) (w : ValueObject L V)
    (h : memVoSet b w = true) : memVoSet (a ++ b) w = true := by
  unfold memVoSet at h ⊢
  rw [List.any_append, h, Bool.or_true]

theorem foldl_processVo_skip (lbl : String) (grid : List L)
    (fullData : List (ValueObject L V)) :
    ∀ (l : List (ValueObject L V)) (acc : List (ValueObject L V) × List (ValueObject L V)),
      (∀ vo ∈ l, memVoSet acc.1 vo = true) →
      l.foldl (processVo lbl grid fullData) acc = acc := by
  intro l
  induction l with
  | nil => intro acc _; rfl
  | cons vo rest ih =>
    intro acc hall
    have hstep : processVo lbl grid fullData acc vo = acc := by
      unfold processVo
      rw [if_pos (hall vo (by simp))]
    rw [List.foldl_cons, hstep]
    exact ih acc (fun w hw => hall w (by simp [hw]))

theorem fillMissing_exVos_mono (lbl : String) (grid : List L)
    (eq : List (ValueObject L V)) (dv : List L) :
    ∀ (ms : List L) (acc : FillAcc L V) (w : ValueObject L V),
      memVoSet acc.exVos w = true →
      memVoSet (fillMissing lbl grid eq dv ms acc).exVos w = true := by
  intro ms
  induction ms with
  | nil => intro acc w h; exact h
  | cons g rest ih =>
    intro acc w h
    simp only [fillMissing]
    apply ih
    exact memVoSet_append_right _ _ _ h

theorem lookupByL_append_none {β : Type} (m l : List (L × β)) (q : L)
    (h : lookupByL m q = none) : lookupByL (m ++ l) q = lookupByL l q := by
  induction m with
  | nil => rfl
  | cons p rest ih =>
    simp only [lookupByL] at h
    simp only [List.cons_append, lookupByL]
    split at h
    · cases h
    · rename_i hpq
      rw [if_neg hpq]
      exact ih h

theorem lookupByL_remove_ne {β : Type} (x q : L) (h : ¬ q = x) :
    ∀ m : List (L × β), lookupByL (removeByL m x) q = lookupByL m q := by
  intro m
  induction m with
  | nil => rfl
  | cons p rest ih =>
    obtain ⟨k, v⟩ := p
    simp only [removeByL, lookupByL]
    by_cases hkx : k = x
    · rw [if_pos hkx, if_neg (fun hc : k = q => h (hc ▸ hkx ▸ rfl))]
    · rw [if_neg hkx]
      simp only [lookupByL]
      by_cases hkq : k = q
      · rw [if_pos hkq, if_pos hkq]
      · rw [if_neg hkq, if_neg hkq, ih]

theorem lookupByL_remove_none {β : Type} (x q : L) :
    ∀ m : List (L × β), lookupByL m q = none →
      lookupByL (removeByL m x) q = none := by
  intro m
  induction m with
  | nil => intro _; rfl
  | cons p rest ih =>
    obtain ⟨k, v⟩ := p
    intro h
    simp only [lookupByL] at h
    split at h
    · cases h
    · rename_i hkq
      simp only [removeByL]
      by_cases hkx : k = x
      · rw [if_pos hkx]
        exact h
      · rw [if_neg hkx]
        simp only [lookupByL]
        rw [if_neg hkq]
        exact ih h

theorem appendByL_of_none {β : Type} (m : List (L × List β)) (k : L) (vs : List β)
    (h : lookupByL m k = none) (hne : vs ≠ []) :
    appendByL m k vs = m ++ [(k, vs)] := by
  unfold appendByL
  rw [h]
  rw [if_neg (by simpa using hne)]

theorem setLabel_single (lbl : String) (d g : L) (w : Option V) :
    setLabel (ValueObject.mk [(lbl, d)] w) lbl g = ValueObject.mk [(lbl, g)] w := by
  simp [setLabel, setAssoc]

theorem gridIdx_getElem (l : List L) (h : l.Nodup) (k : Nat) (hk : k < l.length) :
    gridIdx l l[k] = k := by
  have hmap := map_gridIdx_of_nodup l h
  have h1 : (l.map (fun x => gridIdx l x))[k]? = (List.range l.length)[k]? := by
    rw [hmap]
  rw [List.getElem?_map, List.getElem?_eq_getElem hk] at h1
  rw [List.getElem?_range hk] at h1
  simp only [Option.map_some'] at h1
  exact Option.some.inj h1

theorem flat_buckets {α : Type} (keyOf : α → Nat) :
    ∀ (n m : Nat) (xs : List α), xs ≠ [] →
      (∀ x ∈ xs, m ≤ keyOf x ∧ keyOf x < m + n) →
      ∃ x0 tail,
        (List.range' m n).flatMap (fun i => xs.filter (fun x => keyOf x = i)) =
          x0 :: tail ∧
        x0 ∈ xs ∧ (∀ x ∈ xs, keyOf x0 ≤ keyOf x) ∧ (∀ y ∈ tail, y ∈ xs) := by
  intro n
  induction n with
  | zero =>
    intro m xs hne hall
    cases xs with
    | nil => exact absurd rfl hne
    | cons a l =>
      have := hall a (by simp)
      omega
  | succ n ih =>
    intro m xs hne hall
    rw [List.range'_succ]
    simp only [List.flatMap_cons]
    cases hf : xs.filter (fun x => keyOf x = m) with
    | nil =>
      rw [List.nil_append]
      refine ih (m + 1) xs hne ?_
      intro x hx
      have h1 := hall x hx
      have h2 : ¬ keyOf x = m := by
        intro hc
        have hmem : x ∈ xs.filter (fun x => keyOf x = m) :=
          List.mem_filter.mpr ⟨hx, by simp [hc]⟩
        rw [hf] at hmem
        cases hmem
      omega
    | cons x0 t1 =>
      rw [List.cons_append]
      have hx0 : x0 ∈ xs.filter (fun x => keyOf x = m) := by
        rw [hf]; simp
      refine ⟨x0, _, rfl, (List.mem_filter.mp hx0).1, ?_, ?_⟩
      · intro x hx
        have hkey : keyOf x0 = m :=
          of_decide_eq_true (List.mem_filter.mp hx0).2
        rw [hkey]
        exact (hall x hx).1
      · intro y hy
        rcases List.mem_append.mp hy with hy | hy
        · have hmem : y ∈ xs.filter (fun x => keyOf x = m) := by
            rw [hf]; simp [hy]
          exact (List.mem_filter.mp hmem).1
        · obtain ⟨i, _, hyi⟩ := List.mem_flatMap.mp hy
          exact (List.mem_filter.mp hyi).1

theorem sortByKey_head {α : Type} (keyOf : α → Nat) (bound : Nat) (xs : List α)
    (hne : xs ≠ []) (hall : ∀ x ∈ xs, keyOf x ≤ bound) :
    ∃ x0 tail, sortByKey keyOf bound xs = x0 :: tail ∧ x0 ∈ xs ∧
      (∀ x ∈ xs, keyOf x0 ≤ keyOf x) ∧ (∀ y ∈ tail, y ∈ xs) := by
  unfold sortByKey
  rw [List.range_eq_range']
  exact flat_buckets keyOf (bound + 1) 0 xs hne
    (fun x hx => ⟨Nat.zero_le _, by have := hall x hx; omega⟩)

theorem firstDefined_filter (D : List L) (f : L → V) (dv : List L)
    (hdv : ∀ x, x ∈ dv ↔ x ∈ D) :
    ∀ grid : List L, (∃ g ∈ grid, g ∈ D) →
      ∃ fd, (grid.filter (fun d => d ∈ dv)).head? = some fd ∧ fd ∈ D ∧
        firstDefined (fun g => if g ∈ D then some (f g) else none) grid =
          some (f fd) := by
  intro grid
  induction grid with
  | nil =>
    rintro ⟨g, hg, _⟩
    cases hg
  | cons g rest ih =>
    intro hex
    by_cases hgD : g ∈ D
    · refine ⟨g, ?_, hgD, ?_⟩
      · rw [List.filter_cons, if_pos (by simpa using (hdv g).mpr hgD)]
        rfl
      · simp only [firstDefined]
        rw [if_pos hgD]
    · have hex2 : ∃ g1 ∈ rest, g1 ∈ D := by
        obtain ⟨g1, hg1, hg1D⟩ := hex
        rcases List.mem_cons.mp hg1 with h | h
        · exact absurd (h ▸ hg1D) hgD
        · exact ⟨g1, h, hg1D⟩
      obtain ⟨fd, h1, h2, h3⟩ := ih hex2
      refine ⟨fd, ?_, h2, ?_⟩
      · rw [List.filter_cons, if_neg (by simpa using fun hc => hgD ((hdv g).mp hc))]
        exact h1
      · simp only [firstDefined]
        rw [if_neg hgD]
        exact h3

theorem select_eq_append (a b : List (ValueObject L V)) (ex : Bool)
    (pr : List (String × List L)) :
    select_eq (a ++ b) ex pr = select_eq a ex pr ++ select_eq b ex pr := by
  unfold select_eq selectCmp
  exact List.filter_append _ _

theorem lookupLbl_skip_mid (lbl k : String) (g : L) (hk : ¬ k = lbl) :
    ∀ (pre post : List (String × L)),
      lookupLbl (pre ++ (lbl, g) :: post) k = lookupLbl (pre ++ post) k := by
  intro pre post
  induction pre with
  | nil =>
    simp only [List.nil_append, lookupLbl]
    rw [if_neg (fun hc => hk hc.symm)]
  | cons p rest ih =>
    simp only [List.cons_append, lookupLbl]
    by_cases hp : p.1 = k
    · rw [if_pos hp, if_pos hp]
    · rw [if_neg hp, if_neg hp]
      exact ih

theorem lookupLbl_mid (lbl : String) (d : L) :
    ∀ (pre post : List (String × L)), (∀ p ∈ pre, ¬ p.1 = lbl) →
      lookupLbl (pre ++ (lbl, d) :: post) lbl = some d := by
  intro pre post
  induction pre with
  | nil =>
    intro _
    simp [lookupLbl]
  | cons p rest ih =>
    intro h
    simp only [List.cons_append, lookupLbl]
    rw [if_neg (h p (by simp))]
    exact ih (fun q hq => h q (by simp [hq]))

theorem lookup_entry_of_nodup (k : String) (v : L) :
    ∀ m : List (String × L), (m.map Prod.fst).Nodup → (k, v) ∈ m →
      lookupLbl m k = some v := by
  intro m
  induction m with
  | nil =>
    intro _ h
    cases h
  | cons p rest ih =>
    intro hnd hm
    obtain ⟨k1, v1⟩ := p
    simp only [List.map_cons, List.nodup_cons] at hnd
    rcases List.mem_cons.mp hm with he | hr
    · injection he with h1 h2
      simp [lookupLbl, h1.symm, h2.symm]
    · have hk1 : ¬ k1 = k := by
        intro hc
        exact hnd.1 (hc ▸ List.mem_map.mpr ⟨(k, v), hr, rfl⟩)
      simp only [lookupLbl]
      rw [if_neg hk1]
      exact ih hnd.2 hr

theorem getLbl_cohortVO_lbl (lbl : String) (c : Cohort L) (d : L) (w : Option V)
    (hpre : ∀ p ∈ c.pre, ¬ p.1 = lbl) :
    getLbl (cohortVO lbl c d w) lbl = some d :=
  lookupLbl_mid lbl d c.pre c.post hpre

theorem getLbl_cohortVO_ne (lbl k : String) (c : Cohort L) (d : L) (w : Option V)
    (hk : ¬ k = lbl) :
    getLbl (cohortVO lbl c d w) k = lookupLbl (cohortBase c) k :=
  lookupLbl_skip_mid lbl k d hk c.pre c.post

theorem map_keep_of_none {α : Type} (f : α → α) :
    ∀ l : List α, (∀ a ∈ l, f a = a) → l.map f = l := by
  intro l
  induction l with
  | nil => intro _; rfl
  | cons a rest ih =>
    intro h
    simp only [List.map_cons, h a (by simp), ih (fun b hb => h b (by simp [hb]))]

theorem setLabel_cohortVO (lbl : String) (c : Cohort L) (d g : L) (w : Option V)
    (hpre : ∀ p ∈ c.pre, ¬ p.1 = lbl) (hpost : ∀ p ∈ c.post, ¬ p.1 = lbl) :
    setLabel (cohortVO lbl c d w) lbl g = cohortVO lbl c g w := by
  unfold setLabel cohortVO setAssoc
  rw [if_pos]
  · simp only [ValueObject.mk.injEq, and_true]
    rw [List.map_append, List.map_cons]
    rw [map_keep_of_none _ c.pre (fun p hp => by rw [if_neg (hpre p hp)])]
    rw [map_keep_of_none _ c.post (fun p hp => by rw [if_neg (hpost p hp)])]
    rw [if_pos rfl]
  · refine List.any_eq_true.mpr ⟨(lbl, d), ?_, by simp⟩
    exact List.mem_append.mpr (Or.inr (by simp))

theorem filterLabels_cohortVO (lbl : String) (c : Cohort L) (d : L) (w : Option V)
    (hpre : ∀ p ∈ c.pre, ¬ p.1 = lbl) (hpost : ∀ p ∈ c.post, ¬ p.1 = lbl) :
    filterLabels (cohortVO lbl c d w) [lbl] = cohortBase c := by
  unfold filterLabels cohortVO cohortBase
  rw [List.filter_append, List.filter_cons]
  rw [if_neg (by simp)]
  rw [List.filter_eq_self.mpr (fun p hp => by simp [hpre p hp]),
    List.filter_eq_self.mpr (fun p hp => by simp [hpost p hp])]

theorem memVoSet_cons_right (a : ValueObject L V) (b : List (ValueObject L V))
    (w : ValueObject L V) (h : memVoSet b w = true) :
    memVoSet (a :: b) w = true := by
  unfold memVoSet at h ⊢
  rw [List.any_cons, h, Bool.or_true]

theorem sameTupleB_cohort_ne (lbl : String) (c c' : Cohort L) (g g' : L)
    (w w' : Option V) (k : String) (hkmem : k ∈ (cohortBase c).map Prod.fst)
    (hk : ¬ k = lbl)
    (hdiff : ¬ lookupLbl (cohortBase c) k = lookupLbl (cohortBase c') k) :
    sameTupleB (cohortVO lbl c g w) (cohortVO lbl c' g' w') = false := by
  unfold sameTupleB
  rw [Bool.eq_false_iff]
  intro hall
  have hkin : k ∈ labelKeys (cohortVO lbl c g w) := by
    unfold cohortBase at hkmem
    rw [List.map_append] at hkmem
    unfold labelKeys cohortVO
    dsimp only
    rw [List.map_append, List.map_cons]
    rcases List.mem_append.mp hkmem with h1 | h1
    · exact List.mem_append.mpr (Or.inl h1)
    · exact List.mem_append.mpr (Or.inr (List.mem_cons_of_mem _ h1))
  have := List.all_eq_true.mp hall k
    (List.mem_append.mpr (Or.inl hkin))
  rw [getLbl_cohortVO_ne lbl k c g w hk, getLbl_cohortVO_ne lbl k c' g' w' hk]
    at this
  exact hdiff (eq_of_beq this)

theorem cohortVO_ne (lbl : String) (c c' : Cohort L) (g g' : L)
    (w w' : Option V) (k : String) (hk : ¬ k = lbl)
    (hdiff : ¬ lookupLbl (cohortBase c) k = lookupLbl (cohortBase c') k) :
    ¬ cohortVO lbl c g w = cohortVO lbl c' g' w' := by
  intro he
  have hl : (cohortVO lbl c g w).labels = (cohortVO lbl c' g' w').labels :=
    congrArg ValueObject.labels he
  have h1 := getLbl_cohortVO_ne lbl k c g w hk
  have h2 := getLbl_cohortVO_ne lbl k c' g' w' hk
  unfold getLbl at h1 h2
  rw [hl, h2] at h1
  exact hdiff h1.symm

theorem matchB (lbl : String) (c : Cohort L) (g : L) (w : Option V)
    (hpre : ∀ p ∈ c.pre, ¬ p.1 = lbl) (hpost : ∀ p ∈ c.post, ¬ p.1 = lbl)
    (hbk : ((cohortBase c).map Prod.fst).Nodup) :
    ((predsOf (cohortBase c)).all fun p =>
      match getLbl (cohortVO lbl c g w) p.1 with
      | some x => p.2.any (fun v => x = v)
      | none => !true) = true := by
  refine List.all_eq_true.mpr ?_
  intro pr hpr
  obtain ⟨q, hq, rfl⟩ := List.mem_map.mp hpr
  have hqlbl : ¬ q.1 = lbl := by
    rcases List.mem_append.mp hq with h1 | h1
    · exact hpre q h1
    · exact hpost q h1
  rw [getLbl_cohortVO_ne lbl q.1 c g w hqlbl]
  rw [lookup_entry_of_nodup q.1 q.2 (cohortBase c) hbk hq]
  simp

theorem matchX (lbl : String) (c c' : Cohort L) (g : L) (w : Option V)
    (hbk : ((cohortBase c).map Prod.fst).Nodup) (k : String)
    (hkmem : k ∈ (cohortBase c).map Prod.fst) (hk : ¬ k = lbl)
    (hdiff : ¬ lookupLbl (cohortBase c) k = lookupLbl (cohortBase c') k) :
    ((predsOf (cohortBase c)).all fun p =>
      match getLbl (cohortVO lbl c' g w) p.1 with
      | some x => p.2.any (fun v => x = v)
      | none => !true) = false := by
  obtain ⟨q, hq, hqk⟩ := List.mem_map.mp hkmem
  have hlk : lookupLbl (cohortBase c) k = some q.2 := by
    rw [← hqk]
    exact lookup_entry_of_nodup q.1 q.2 (cohortBase c) hbk (by
      rw [show (q.1, q.2) = q from rfl]
      exact hq)
  rw [Bool.eq_false_iff]
  intro hall
  have hx := List.all_eq_true.mp hall (q.1, [q.2])
    (List.mem_map.mpr ⟨q, hq, rfl⟩)
  rw [show (q.1, [q.2]).1 = k from hqk] at hx
  rw [getLbl_cohortVO_ne lbl k c' g w hk] at hx
  cases hlook : lookupLbl (cohortBase c') k with
  | none =>
    rw [hlook] at hx
    simp at hx
  | some x =>
    rw [hlook] at hx
    simp only [List.any_cons, List.any_nil, Bool.or_false,
      decide_eq_true_eq] at hx
    rw [hx] at hlook
    rw [hlook] at hdiff
    exact hdiff hlk

theorem filter_flatMap {α β : Type} (p : β → Bool) (h : α → List β) :
    ∀ l : List α, (l.flatMap h).filter p = l.flatMap (fun a => (h a).filter p) := by
  intro l
  induction l with
  | nil => rfl
  | cons a rest ih =>
    simp only [List.flatMap_cons, List.filter_append, ih]

theorem flatMap_congr_mem {α β : Type} (f g : α → List β) :
    ∀ l : List α, (∀ a ∈ l, f a = g a) → l.flatMap f = l.flatMap g := by
  intro l
  induction l with
  | nil => intro _; rfl
  | cons a rest ih =>
    intro h
    simp only [List.flatMap_cons, h a (by simp),
      ih (fun b hb => h b (by simp [hb]))]

theorem flatMap_one_survivor {α β : Type} (F : α → List β) (j : α) :
    ∀ cs : List α, j ∈ cs → cs.Nodup → (∀ c ∈ cs, ¬ c = j → F c = []) →
      cs.flatMap F = F j := by
  intro cs
  induction cs with
  | nil =>
    intro h
    cases h
  | cons c rest ih =>
    intro hj hnd hz
    simp only [List.nodup_cons] at hnd
    by_cases hcj : c = j
    · subst hcj
      simp only [List.flatMap_cons]
      have hrest : rest.flatMap F = [] := by
        refine List.flatMap_eq_nil_iff.mpr ?_
        intro c1 hc1
        exact hz c1 (by simp [hc1]) (fun hc => hnd.1 (hc ▸ hc1))
      rw [hrest, List.append_nil]
    · simp only [List.flatMap_cons, hz c (by simp) hcj, List.nil_append]
      refine ih ?_ hnd.2 (fun c1 hc1 => hz c1 (by simp [hc1]))
      rcases List.mem_cons.mp hj with h1 | h1
      · exact absurd h1.symm hcj
      · exact h1

theorem mapExc_ok_all {α β ε : Type} (f : α → Except ε β) (g : α → β) :
    ∀ l : List α, (∀ x ∈ l, f x = .ok (g x)) → mapExc f l = .ok (l.map g) := by
  intro l
  induction l with
  | nil => intro _; rfl
  | cons x xs ih =>
    intro hall
    simp only [List.map_cons, mapExc, hall x (by simp),
      ih (fun y hy => hall y (by simp [hy]))]

theorem specFills_cons_some (mkr : L → Option V → ValueObject L V)
    (defined : L → Option V) (prev : Option V) (g : L) (rest : List L)
    (v : V) (h : defined g = some v) :
    specFills mkr defined prev (g :: rest) = specFills mkr defined (some v) rest := by
  simp only [specFills, h]

theorem specFills_cons_none (mkr : L → Option V → ValueObject L V)
    (defined : L → Option V) (prev : Option V) (g : L) (rest : List L)
    (h : defined g = none) :
    specFills mkr defined prev (g :: rest) =
      mkr g prev :: specFills mkr defined prev rest := by
  simp only [specFills, h]

theorem fillMissing_spec (lbl : String) (grid : List L) (hgnd : grid.Nodup)
    (D : List L) (f : L → V) (mkr : L → Option V → ValueObject L V)
    (eq : List (ValueObject L V)) (dv : List L)
    (Hdv : ∀ x, x ∈ dv ↔ x ∈ D)
    (HselD : ∀ d ∈ D, select_eq eq true [(lbl, [d])] = [mkr d (some (f d))])
    (Hset : ∀ x w g, setLabel (mkr x w) lbl g = mkr g w)
    (Hfd : ∃ fd, (grid.filter (fun d => d ∈ dv)).head? = some fd ∧ fd ∈ D ∧
      firstDefined (fun g => if g ∈ D then some (f g) else none) grid =
        some (f fd)) :
    ∀ (suf : List L) (k : Nat) (prev : Option V)
      (ext0 : List (L × List (ValueObject L V)))
      (exv adj0 : List (ValueObject L V)),
      suf = grid.drop k →
      ((k = 0 ∧ prev = firstDefined
          (fun g => if g ∈ D then some (f g) else none) grid) ∨
        (∃ gpv, 1 ≤ k ∧ grid.drop (k - 1) = gpv :: suf ∧
          ((gpv ∈ D ∧ prev = some (f gpv)) ∨
           (¬ gpv ∈ D ∧ lookupByL ext0 gpv = some [mkr gpv prev])))) →
      (∀ x ∈ grid.drop k, lookupByL ext0 x = none) →
      (∀ d ∈ D, lookupByL ext0 d = none) →
      (fillMissing lbl grid eq dv (suf.filter (fun g => ¬ g ∈ dv))
        ⟨ext0, exv, adj0⟩).adj =
        adj0 ++ specFills mkr (fun g => if g ∈ D then some (f g) else none)
          prev suf := by
  intro suf
  induction suf with
  | nil =>
    intro k prev ext0 exv adj0 _ _ _ _
    simp only [List.filter_nil, fillMissing, specFills, List.append_nil]
  | cons g rest ih =>
    intro k prev ext0 exv adj0 hsuf hP hI2 hI3
    have hklen : k < grid.length := by
      have hlen := congrArg List.length hsuf
      simp only [List.length_cons, List.length_drop] at hlen
      omega
    have hdropk := List.drop_eq_getElem_cons hklen
    rw [hdropk] at hsuf
    injection hsuf with hg hrest
    have hgidx : gridIdx grid g = k := by
      rw [hg]
      exact gridIdx_getElem grid hgnd k hklen
    have hsufback : grid.drop k = g :: rest := by
      rw [hdropk, ← hg, ← hrest]
    have hnd2 : (g :: rest).Nodup := by
      rw [← hsufback]
      exact (List.drop_sublist k grid).nodup hgnd
    have hgrest : ¬ g ∈ rest := (List.nodup_cons.mp hnd2).1
    by_cases hgD : g ∈ D
    · have hgdv : g ∈ dv := (Hdv g).mpr hgD
      rw [List.filter_cons, if_neg (by simpa using hgdv)]
      have hspec : specFills mkr (fun g => if g ∈ D then some (f g) else none)
          prev (g :: rest) = specFills mkr
            (fun g => if g ∈ D then some (f g) else none) (some (f g)) rest :=
        specFills_cons_some mkr _ prev g rest (f g) (by simp [hgD])
      rw [hspec]
      refine ih (k + 1) (some (f g)) ext0 exv adj0 hrest ?_ ?_ hI3
      · right
        refine ⟨g, by omega, ?_, Or.inl ⟨hgD, rfl⟩⟩
        simp only [Nat.add_sub_cancel]
        exact hsufback
      · intro x hx
        refine hI2 x ?_
        rw [hsufback]
        rw [← hrest] at hx
        exact List.mem_cons_of_mem g hx
    · have hgdv : ¬ g ∈ dv := fun hc => hgD ((Hdv g).mp hc)
      rw [List.filter_cons, if_pos (by simpa using hgdv)]
      have hspec : specFills mkr (fun g => if g ∈ D then some (f g) else none)
          prev (g :: rest) = mkr g prev ::
            specFills mkr (fun g => if g ∈ D then some (f g) else none)
              prev rest :=
        specFills_cons_none mkr _ prev g rest (by simp [hgD])
      rw [hspec]
      have hlookg : lookupByL ext0 g = none := by
        refine hI2 g ?_
        rw [hsufback]
        exact List.mem_cons_self g rest
      simp only [fillMissing]
      rw [hgidx]
      cases k with
      | zero =>
        rcases hP with ⟨_, hprev0⟩ | ⟨gpv, hk1, _, _⟩
        · obtain ⟨fd, hfd1, hfdD, hfd2⟩ := Hfd
          have hprev : prev = some (f fd) := hprev0.trans hfd2
          rw [if_pos rfl]
          simp only [hfd1]
          rw [HselD fd hfdD, ← hprev]
          simp only [List.map_cons, List.map_nil, Hset]
          have happ : appendByL ext0 g [mkr g prev] =
              ext0 ++ [(g, [mkr g prev])] :=
            appendByL_of_none ext0 g _ hlookg (by simp)
          rw [happ]
          have hres := ih 1 prev (ext0 ++ [(g, [mkr g prev])])
            ([mkr fd prev] ++ exv)
            (adj0 ++ [mkr g prev]) hrest ?_ ?_ ?_
          · rw [hres, List.append_assoc]
            rfl
          · right
            refine ⟨g, by omega, ?_, Or.inr ⟨hgD, ?_⟩⟩
            · simpa using hsufback
            · rw [lookupByL_append_none ext0 _ g hlookg]
              simp [lookupByL]
          · intro x hx
            rw [← hrest] at hx
            have hxg : ¬ g = x := fun hc => hgrest (hc ▸ hx)
            have hx0 : lookupByL ext0 x = none := by
              refine hI2 x ?_
              rw [hsufback]
              exact List.mem_cons_of_mem g hx
            rw [lookupByL_append_none ext0 _ x hx0]
            simp [lookupByL, hxg]
          · intro d hd
            have hdg : ¬ g = d := fun hc => hgD (hc ▸ hd)
            rw [lookupByL_append_none ext0 _ d (hI3 d hd)]
            simp [lookupByL, hdg]
        · omega
      | succ k1 =>
        rcases hP with ⟨hk0, _⟩ | ⟨gpv, _, hgpd, hcase⟩
        · exact absurd hk0 (Nat.succ_ne_zero k1)
        · simp only [Nat.add_sub_cancel] at hgpd
          have hk1len : k1 < grid.length := by omega
          have hdropk1 := List.drop_eq_getElem_cons hk1len
          rw [hdropk1] at hgpd
          injection hgpd with hgpv hgprest
          have hget : grid.get? (k1 + 1 - 1) = some gpv := by
            simp only [Nat.add_sub_cancel]
            rw [List.get?_eq_getElem?, List.getElem?_eq_getElem hk1len, ← hgpv]
          rw [if_neg (Nat.succ_ne_zero k1)]
          simp only [hget]
          have hgpnd : (gpv :: g :: rest).Nodup := by
            rw [← hgpv, hg, hrest, ← hdropk, ← hdropk1]
            exact (List.drop_sublist k1 grid).nodup hgnd
          have hgpvg : ¬ gpv = g := by
            have := (List.nodup_cons.mp hgpnd).1
            intro hc
            exact this (hc ▸ List.mem_cons_self g rest)
          have hgpvrest : ¬ gpv ∈ rest := by
            have := (List.nodup_cons.mp hgpnd).1
            intro hc
            exact this (List.mem_cons_of_mem g hc)
          rcases hcase with ⟨hgpvD, hprev⟩ | ⟨hgpvD, hlook⟩
          · simp only [hI3 gpv hgpvD]
            rw [HselD gpv hgpvD, ← hprev]
            simp only [List.map_cons, List.map_nil, Hset]
            have happ : appendByL ext0 g [mkr g prev] =
                ext0 ++ [(g, [mkr g prev])] :=
              appendByL_of_none ext0 g _ hlookg (by simp)
            rw [happ]
            have hres := ih (k1 + 2) prev
              (ext0 ++ [(g, [mkr g prev])])
              ([mkr gpv prev] ++ exv)
              (adj0 ++ [mkr g prev]) hrest ?_ ?_ ?_
            · rw [hres, List.append_assoc]
              rfl
            · right
              refine ⟨g, by omega, ?_, Or.inr ⟨hgD, ?_⟩⟩
              · simpa using hsufback
              · rw [lookupByL_append_none ext0 _ g hlookg]
                simp [lookupByL]
            · intro x hx
              rw [← hrest] at hx
              have hxg : ¬ g = x := fun hc => hgrest (hc ▸ hx)
              have hx0 : lookupByL ext0 x = none := by
                refine hI2 x ?_
                rw [hsufback]
                exact List.mem_cons_of_mem g hx
              rw [lookupByL_append_none ext0 _ x hx0]
              simp [lookupByL, hxg]
            · intro d hd
              have hdg : ¬ g = d := fun hc => hgD (hc ▸ hd)
              rw [lookupByL_append_none ext0 _ d (hI3 d hd)]
              simp [lookupByL, hdg]
          · simp only [hlook]
            simp only [List.map_cons, List.map_nil, Hset]
            have hlookrg : lookupByL (removeByL ext0 gpv) g = none := by
              rw [lookupByL_remove_ne gpv g (fun hc => hgpvg hc.symm)]
              exact hlookg
            have happ : appendByL (removeByL ext0 gpv) g
                [mkr g prev] =
                removeByL ext0 gpv ++ [(g, [mkr g prev])] :=
              appendByL_of_none _ g _ hlookrg (by simp)
            rw [happ]
            have hres := ih (k1 + 2) prev
              (removeByL ext0 gpv ++ [(g, [mkr g prev])])
              ([mkr gpv prev] ++ exv)
              (adj0 ++ [mkr g prev]) hrest ?_ ?_ ?_
            · rw [hres, List.append_assoc]
              rfl
            · right
              refine ⟨g, by omega, ?_, Or.inr ⟨hgD, ?_⟩⟩
              · simpa using hsufback
              · rw [lookupByL_append_none _ _ g hlookrg]
                simp [lookupByL]
            · intro x hx
              rw [← hrest] at hx
              have hxg : ¬ g = x := fun hc => hgrest (hc ▸ hx)
              have hxgpv : ¬ x = gpv := fun hc => hgpvrest (hc ▸ hx)
              have hx0 : lookupByL ext0 x = none := by
                refine hI2 x ?_
                rw [hsufback]
                exact List.mem_cons_of_mem g hx
              have hx1 : lookupByL (removeByL ext0 gpv) x = none := by
                rw [lookupByL_remove_ne gpv x hxgpv]
                exact hx0
              rw [lookupByL_append_none _ _ x hx1]
              simp [lookupByL, hxg]
            · intro d hd
              have hdg : ¬ g = d := fun hc => hgD (hc ▸ hd)
              have hd1 : lookupByL (removeByL ext0 gpv) d = none :=
                lookupByL_remove_none gpv d ext0 (hI3 d hd)
              rw [lookupByL_append_none _ _ d hd1]
              simp [lookupByL, hdg]

theorem lookupByL_mem {β : Type} (q : L) :
    ∀ m : List (L × β), ∀ vs, lookupByL m q = some vs → (q, vs) ∈ m := by
  intro m
  induction m with
  | nil =>
    intro vs h
    cases h
  | cons p rest ih =>
    intro vs h
    obtain ⟨k, v⟩ := p
    simp only [lookupByL] at h
    by_cases hk : k = q
    · rw [if_pos hk] at h
      injection h with hv
      rw [← hk, ← hv]
      exact List.mem_cons_self _ _
    · rw [if_neg hk] at h
      exact List.mem_cons_of_mem _ (ih vs h)

theorem removeByL_subset {β : Type} (x : L) :
    ∀ m : List (L × β), ∀ p ∈ removeByL m x, p ∈ m := by
  intro m
  induction m with
  | nil =>
    intro p hp
    cases hp
  | cons q rest ih =>
    intro p hp
    obtain ⟨k, v⟩ := q
    simp only [removeByL] at hp
    by_cases hk : k = x
    · rw [if_pos hk] at hp
      exact List.mem_cons_of_mem _ hp
    · rw [if_neg hk] at hp
      rcases List.mem_cons.mp hp with he | hr
      · rw [he]
        exact List.mem_cons_self _ _
      · exact List.mem_cons_of_mem _ (ih p hr)

theorem appendByL_entries {β : Type} (m : List (L × List β)) (k : L)
    (vs : List β) :
    ∀ p ∈ appendByL m k vs, ∀ w ∈ p.2, (∃ q ∈ m, w ∈ q.2) ∨ w ∈ vs := by
  intro p hp w hw
  unfold appendByL at hp
  cases hl : lookupByL m k with
  | some old =>
    rw [hl] at hp
    obtain ⟨q, hq, hqe⟩ := List.mem_map.mp hp
    by_cases hqk : q.1 = k
    · rw [if_pos hqk] at hqe
      rw [← hqe] at hw
      rcases List.mem_append.mp hw with h1 | h1
      · exact Or.inl ⟨(k, old), lookupByL_mem k m old hl, h1⟩
      · exact Or.inr h1
    · rw [if_neg hqk] at hqe
      rw [← hqe] at hw
      exact Or.inl ⟨q, hq, hw⟩
  | none =>
    rw [hl] at hp
    by_cases hv : vs.isEmpty
    · rw [if_pos hv] at hp
      exact Or.inl ⟨p, hp, hw⟩
    · rw [if_neg hv] at hp
      rcases List.mem_append.mp hp with h1 | h1
      · exact Or.inl ⟨p, h1, hw⟩
      · rcases List.mem_cons.mp h1 with he | hr
        · rw [he] at hw
          exact Or.inr hw
        · cases hr

theorem fillMissing_exVos_shape (lbl : String) (grid : List L)
    (eq : List (ValueObject L V)) (dv : List L)
    (mkr : L → Option V → ValueObject L V)
    (Heq : ∀ u ∈ eq, ∃ g0 w2, u = mkr g0 w2)
    (Hset : ∀ x w g, setLabel (mkr x w) lbl g = mkr g w) :
    ∀ (ms : List L) (acc : FillAcc L V),
      (∀ p ∈ acc.extended, ∀ u ∈ p.2, ∃ g0 w2, u = mkr g0 w2) →
      ∀ w ∈ (fillMissing lbl grid eq dv ms acc).exVos,
        w ∈ acc.exVos ∨ ∃ g0 w2, w = mkr g0 w2 := by
  intro ms
  induction ms with
  | nil =>
    intro acc hext w hw
    exact Or.inl hw
  | cons g rest ih =>
    intro acc hext w hw
    have hsrc : ∀ src : List (ValueObject L V) × List (L × List (ValueObject L V)),
        (∀ u ∈ src.1, ∃ g0 w2, u = mkr g0 w2) →
        (∀ p ∈ src.2, ∀ u ∈ p.2, ∃ g0 w2, u = mkr g0 w2) →
        ∀ w1 ∈ (fillMissing lbl grid eq dv rest
          (FillAcc.mk
            (appendByL src.2 g (src.1.map (fun vo => setLabel vo lbl g)))
            (src.1 ++ acc.exVos)
            (acc.adj ++ src.1.map (fun vo => setLabel vo lbl g)))).exVos,
          w1 ∈ acc.exVos ∨ ∃ g0 w2, w1 = mkr g0 w2 := by
      intro src h1 h2 w1 hw1
      have hext2 : ∀ p ∈ appendByL src.2 g
          (src.1.map (fun vo => setLabel vo lbl g)),
          ∀ u ∈ p.2, ∃ g0 w2, u = mkr g0 w2 := by
        intro p hp u hu
        rcases appendByL_entries src.2 g _ p hp u hu with ⟨q, hq, huq⟩ | humem
        · exact h2 q hq u huq
        · obtain ⟨v0, hv0, hv0e⟩ := List.mem_map.mp humem
          obtain ⟨g0, w2, hshape⟩ := h1 v0 hv0
          refine ⟨g, w2, ?_⟩
          rw [← hv0e, hshape, Hset]
      rcases ih _ hext2 w1 hw1 with hmem | hshape
      · rcases List.mem_append.mp hmem with h | h
        · exact Or.inr (h1 w1 h)
        · exact Or.inl h
      · exact Or.inr hshape
    simp only [fillMissing] at hw
    refine hsrc _ ?_ ?_ w hw
    · intro u hu
      split at hu
      · dsimp only at hu
        split at hu
        · exact Heq u (List.mem_of_mem_filter hu)
        · cases hu
      · split at hu
        · dsimp only at hu
          cases hu
        · rename_i gp heq2
          split at hu
          · rename_i vs hl
            dsimp only at hu
            exact hext (gp, vs) (lookupByL_mem gp acc.extended vs hl) u hu
          · dsimp only at hu
            exact Heq u (List.mem_of_mem_filter hu)
    · intro p hp
      split at hp
      · dsimp only at hp
        exact hext p hp
      · split at hp
        · dsimp only at hp
          exact hext p hp
        · rename_i gp heq2
          split at hp
          · rename_i vs hl
            dsimp only at hp
            intro u hu
            exact hext _ (removeByL_subset gp acc.extended p hp) u hu
          · dsimp only at hp
            exact hext p hp

theorem specFills_all_defined (mkr : L → Option V → ValueObject L V)
    (defined : L → Option V) :
    ∀ (grid : List L) (prev : Option V),
      (∀ g ∈ grid, (defined g).isSome = true) →
      specFills mkr defined prev grid = [] := by
  intro grid
  induction grid with
  | nil =>
    intro prev _
    rfl
  | cons g rest ih =>
    intro prev hall
    cases hd : defined g with
    | none =>
      have hs := hall g (by simp)
      rw [hd] at hs
      cases hs
    | some v =>
      rw [specFills_cons_some mkr defined prev g rest v hd]
      exact ih (some v) (fun x hx => hall x (by simp [hx]))

theorem getLbl_cohortRecB (lbl : String) (F : List (String × L) → L → V)
    (c : Cohort L) (d : L) (hpre : ∀ p ∈ c.pre, ¬ p.1 = lbl) :
    getLbl (cohortRecB lbl F c d) lbl = some d :=
  getLbl_cohortVO_lbl lbl c d _ hpre

theorem select_eq_map_lbl (lbl : String) (F : List (String × L) → L → V)
    (c : Cohort L) (d0 : L) (hpre : ∀ p ∈ c.pre, ¬ p.1 = lbl)
    (l : List L) :
    select_eq (l.map (cohortRecB lbl F c)) true [(lbl, [d0])] =
      (l.filter (fun x => x = d0)).map (cohortRecB lbl F c) := by
  unfold select_eq selectCmp
  rw [List.filter_map]
  congr 1
  refine List.filter_congr ?_
  intro x _
  simp only [Function.comp_apply, List.all_cons, List.all_nil,
    getLbl_cohortRecB lbl F c x hpre, List.any_cons, List.any_nil,
    Bool.or_false, Bool.and_true]

theorem select_gt_map_lbl (lbl : String) (F : List (String × L) → L → V)
    (c : Cohort L) (d : L) (grid : List L)
    (hpre : ∀ p ∈ c.pre, ¬ p.1 = lbl) (l : List L) :
    select_gt_ix (l.map (cohortRecB lbl F c)) true [(lbl, [d])] grid =
      (l.filter (fun x => gridIdx grid d < gridIdx grid x)).map
        (cohortRecB lbl F c) := by
  unfold select_gt_ix selectCmp
  rw [List.filter_map]
  congr 1
  refine List.filter_congr ?_
  intro x _
  simp only [Function.comp_apply, List.all_cons, List.all_nil,
    getLbl_cohortRecB lbl F c x hpre, List.any_cons, List.any_nil,
    Bool.or_false, Bool.and_true]

theorem select_eq_flatMap {α : Type} (h : α → List (ValueObject L V))
    (cs : List α) (ex : Bool) (pr : List (String × List L)) :
    select_eq (cs.flatMap h) ex pr =
      cs.flatMap (fun a => select_eq (h a) ex pr) := by
  unfold select_eq selectCmp
  exact filter_flatMap _ h cs

theorem select_gt_flatMap {α : Type} (h : α → List (ValueObject L V))
    (cs : List α) (ex : Bool) (pr : List (String × List L)) (grid : List L) :
    select_gt_ix (cs.flatMap h) ex pr grid =
      cs.flatMap (fun a => select_gt_ix (h a) ex pr grid) := by
  unfold select_gt_ix selectCmp
  exact filter_flatMap _ h cs

theorem filterMap_getLbl_map (lbl : String) (F : List (String × L) → L → V)
    (c : Cohort L) (hpre : ∀ p ∈ c.pre, ¬ p.1 = lbl) :
    ∀ l : List L,
      (l.map (cohortRecB lbl F c)).filterMap (fun e => getLbl e lbl) = l := by
  intro l
  induction l with
  | nil => rfl
  | cons x rest ih =>
    rw [List.map_cons, List.filterMap_cons]
    simp only [getLbl_cohortRecB lbl F c x hpre]
    rw [ih]

theorem select_eq_predsOf (base : List (String × L))
    (vos : List (ValueObject L V)) :
    select_eq vos true (predsOf base) = vos.filter (basePred base) := rfl

theorem basePred_self (lbl : String) (c : Cohort L) (g : L) (w : Option V)
    (hpre : ∀ p ∈ c.pre, ¬ p.1 = lbl) (hpost : ∀ p ∈ c.post, ¬ p.1 = lbl)
    (hbk : ((cohortBase c).map Prod.fst).Nodup) :
    basePred (cohortBase c) (cohortVO lbl c g w) = true :=
  matchB lbl c g w hpre hpost hbk

theorem basePred_other (lbl : String) (c c' : Cohort L) (g : L) (w : Option V)
    (hbk : ((cohortBase c).map Prod.fst).Nodup) (k : String)
    (hkmem : k ∈ (cohortBase c).map Prod.fst) (hk : ¬ k = lbl)
    (hdiff : ¬ lookupLbl (cohortBase c) k = lookupLbl (cohortBase c') k) :
    basePred (cohortBase c) (cohortVO lbl c' g w) = false :=
  matchX lbl c c' g w hbk k hkmem hk hdiff

theorem cohortData_shape (lbl : String) (F : List (String × L) → L → V)
    (cs : List (Cohort L)) :
    ∀ w ∈ cohortData lbl F cs,
      ∃ c ∈ cs, ∃ d0, d0 ∈ c.vals ∧ w = cohortRecB lbl F c d0 := by
  intro w hw
  obtain ⟨c, hc, hw2⟩ := List.mem_flatMap.mp hw
  obtain ⟨d0, hd0, he⟩ := List.mem_map.mp hw2
  exact ⟨c, hc, d0, hd0, he.symm⟩

theorem cohortRecB_mem_data (lbl : String) (F : List (String × L) → L → V)
    (cs : List (Cohort L)) (c : Cohort L) (hc : c ∈ cs) (d0 : L)
    (hd0 : d0 ∈ c.vals) : cohortRecB lbl F c d0 ∈ cohortData lbl F cs :=
  List.mem_flatMap.mpr ⟨c, hc, List.mem_map.mpr ⟨d0, hd0, rfl⟩⟩

theorem gridIdx_inj_of_mem (grid : List L) (hgnd : grid.Nodup) (x y : L)
    (hx : x ∈ grid) (hy : y ∈ grid)
    (hxy : gridIdx grid x = gridIdx grid y) : x = y := by
  obtain ⟨i, hi, hgi⟩ := List.getElem_of_mem hx
  obtain ⟨k, hk, hgk⟩ := List.getElem_of_mem hy
  have h1 : gridIdx grid x = i := by
    rw [← hgi]
    exact gridIdx_getElem grid hgnd i hi
  have h2 : gridIdx grid y = k := by
    rw [← hgk]
    exact gridIdx_getElem grid hgnd k hk
  rw [h1, h2] at hxy
  subst hxy
  rw [← hgi, ← hgk]

theorem dv_mem_iff (grid : List L) (vals : List L) (d : L) (hd : d ∈ vals)
    (hmin : ∀ x ∈ vals, ¬ x = d → gridIdx grid d < gridIdx grid x) :
    ∀ x, x ∈ (vals.filter (fun x => gridIdx grid d < gridIdx grid x) ++ [d]) ↔
      x ∈ vals := by
  intro x
  constructor
  · intro hx
    rcases List.mem_append.mp hx with h1 | h1
    · exact (List.mem_filter.mp h1).1
    · rcases List.mem_cons.mp h1 with he | hf
      · rw [he]
        exact hd
      · cases hf
  · intro hx
    by_cases hxd : x = d
    · rw [hxd]
      exact List.mem_append.mpr (Or.inr (by simp))
    · refine List.mem_append.mpr (Or.inl (List.mem_filter.mpr ⟨hx, ?_⟩))
      simpa using hmin x hx hxd

theorem dv_nodup (grid : List L) (vals : List L) (hvnd : vals.Nodup) (d : L) :
    (vals.filter (fun x => gridIdx grid d < gridIdx grid x) ++ [d]).Nodup := by
  rw [List.nodup_append]
  refine ⟨hvnd.filter _, List.nodup_singleton d, ?_⟩
  intro x hx hxd
  rw [List.mem_singleton] at hxd
  have h2 := of_decide_eq_true (List.mem_filter.mp hx).2
  rw [hxd] at h2
  exact Nat.lt_irrefl _ h2

theorem HselD_cohort (lbl : String) (F : List (String × L) → L → V)
    (grid : List L) (j : Cohort L) (d : L)
    (hpre : ∀ p ∈ j.pre, ¬ p.1 = lbl) (hvnd : j.vals.Nodup) (hd : d ∈ j.vals)
    (hmin : ∀ x ∈ j.vals, ¬ x = d → gridIdx grid d < gridIdx grid x) :
    ∀ d0 ∈ j.vals,
      select_eq ((j.vals.filter (fun x => gridIdx grid d < gridIdx grid x)).map
          (cohortRecB lbl F j) ++ [cohortRecB lbl F j d]) true [(lbl, [d0])] =
        [cohortRecB lbl F j d0] := by
  intro d0 hd0
  rw [show [cohortRecB lbl F j d] = [d].map (cohortRecB lbl F j) from rfl]
  rw [← List.map_append]
  rw [select_eq_map_lbl lbl F j d0 hpre]
  rw [List.filter_append]
  rw [← List.filter_append]
  rw [filter_eq_singleton_of_nodup _ (dv_nodup grid j.vals hvnd d) d0
    ((dv_mem_iff grid j.vals d hd hmin d0).mpr hd0)]
  rfl

theorem eq0_eval (lbl : String) (F : List (String × L) → L → V) (grid : List L)
    (cs : List (Cohort L)) (j : Cohort L) (d : L)
    (hj : j ∈ cs) (hnd : cs.Nodup)
    (hpre : ∀ c ∈ cs, ∀ p ∈ c.pre, ¬ p.1 = lbl)
    (hpost : ∀ c ∈ cs, ∀ p ∈ c.post, ¬ p.1 = lbl)
    (hbk : ∀ c ∈ cs, ((cohortBase c).map Prod.fst).Nodup)
    (hsep : ∀ c ∈ cs, ∀ c' ∈ cs, ¬ c = c' →
      ∃ k ∈ (cohortBase c).map Prod.fst, ¬ k = lbl ∧
        ¬ lookupLbl (cohortBase c) k = lookupLbl (cohortBase c') k) :
    select_eq (select_gt_ix (cohortData lbl F cs) true [(lbl, [d])] grid)
        true (predsOf (cohortBase j)) =
      (j.vals.filter (fun x => gridIdx grid d < gridIdx grid x)).map
        (cohortRecB lbl F j) := by
  unfold cohortData
  rw [select_gt_flatMap, select_eq_flatMap]
  have hz : ∀ c ∈ cs, ¬ c = j →
      select_eq (select_gt_ix (c.vals.map (cohortRecB lbl F c)) true
        [(lbl, [d])] grid) true (predsOf (cohortBase j)) = [] := by
    intro c hc hcj
    rw [select_gt_map_lbl lbl F c d grid (hpre c hc)]
    rw [select_eq_predsOf]
    refine List.filter_eq_nil_iff.mpr ?_
    intro w hw
    obtain ⟨x, hx, he⟩ := List.mem_map.mp hw
    obtain ⟨k, hkmem, hk, hdiff⟩ := hsep j hj c hc (fun h => hcj h.symm)
    rw [← he]
    rw [show cohortRecB lbl F c x =
      cohortVO lbl c x (some (F (cohortBase c) x)) from rfl]
    rw [basePred_other lbl j c x _ (hbk j hj) k hkmem hk hdiff]
    simp
  rw [flatMap_one_survivor _ j cs hj hnd hz]
  rw [select_gt_map_lbl lbl F j d grid (hpre j hj)]
  rw [select_eq_predsOf]
  refine List.filter_eq_self.mpr ?_
  intro w hw
  obtain ⟨x, hx, he⟩ := List.mem_map.mp hw
  rw [← he]
  exact basePred_self lbl j x _ (hpre j hj) (hpost j hj) (hbk j hj)

theorem fillMissing_exVos_mem_mono (lbl : String) (grid : List L)
    (eq : List (ValueObject L V)) (dv : List L) :
    ∀ (ms : List L) (acc : FillAcc L V) (w : ValueObject L V),
      w ∈ acc.exVos → w ∈ (fillMissing lbl grid eq dv ms acc).exVos := by
  intro ms
  induction ms with
  | nil =>
    intro acc w h
    exact h
  | cons g rest ih =>
    intro acc w h
    simp only [fillMissing]
    refine ih _ w ?_
    exact List.mem_append.mpr (Or.inr h)

theorem processVo_step (lbl : String) (F : List (String × L) → L → V)
    (grid : List L) (hgnd : grid.Nodup) (cs : List (Cohort L))
    (hnd : cs.Nodup)
    (hpre : ∀ c ∈ cs, ∀ p ∈ c.pre, ¬ p.1 = lbl)
    (hpost : ∀ c ∈ cs, ∀ p ∈ c.post, ¬ p.1 = lbl)
    (hbk : ∀ c ∈ cs, ((cohortBase c).map Prod.fst).Nodup)
    (hsep : ∀ c ∈ cs, ∀ c' ∈ cs, ¬ c = c' →
      ∃ k ∈ (cohortBase c).map Prod.fst, ¬ k = lbl ∧
        ¬ lookupLbl (cohortBase c) k = lookupLbl (cohortBase c') k)
    (j : Cohort L) (hj : j ∈ cs)
    (hvnd : j.vals.Nodup) (hsub : ∀ x ∈ j.vals, x ∈ grid)
    (d : L) (hd : d ∈ j.vals)
    (hmin : ∀ x ∈ j.vals, ¬ x = d → gridIdx grid d < gridIdx grid x)
    (exv fills : List (ValueObject L V))
    (hmem : memVoSet exv (cohortRecB lbl F j d) = false) :
    ∃ ex1,
      processVo lbl grid (cohortData lbl F cs) (exv, fills)
          (cohortRecB lbl F j d) =
        (ex1, fills ++ specExtendCohort lbl F j grid) ∧
      (∀ w ∈ exv, w ∈ ex1) ∧
      (∀ w ∈ ex1, w ∈ exv ∨ ∃ g0 w2, w = cohortVO lbl j g0 w2) ∧
      (∀ d0 ∈ j.vals, cohortRecB lbl F j d0 ∈ ex1) := by
  unfold processVo
  dsimp only
  rw [if_neg (by rw [hmem]; exact Bool.false_ne_true)]
  simp only [getLbl_cohortRecB lbl F j d (hpre j hj)]
  rw [show filterLabels (cohortRecB lbl F j d) [lbl] = cohortBase j from
    filterLabels_cohortVO lbl j d _ (hpre j hj) (hpost j hj)]
  rw [eq0_eval lbl F grid cs j d hj hnd hpre hpost hbk hsep]
  have hdv : ((j.vals.filter (fun x => gridIdx grid d < gridIdx grid x)).map
      (cohortRecB lbl F j) ++ [cohortRecB lbl F j d]).filterMap
      (fun e => getLbl e lbl) =
      j.vals.filter (fun x => gridIdx grid d < gridIdx grid x) ++ [d] := by
    rw [List.filterMap_append]
    rw [filterMap_getLbl_map lbl F j (hpre j hj)]
    simp only [List.filterMap_cons, List.filterMap_nil,
      getLbl_cohortRecB lbl F j d (hpre j hj)]
  rw [hdv]
  have hmemiff := dv_mem_iff grid j.vals d hd hmin
  by_cases hmiss : (grid.filter (fun g =>
      ¬ g ∈ (j.vals.filter (fun x => gridIdx grid d < gridIdx grid x) ++
        [d]))).isEmpty = true
  · rw [if_pos hmiss]
    have hall : ∀ g ∈ grid, ((definedOf F j) g).isSome = true := by
      intro g hg
      have h3 := List.filter_eq_nil_iff.mp (List.isEmpty_iff.mp hmiss) g hg
      simp only [decide_not, Bool.not_eq_true, decide_eq_false_iff_not,
        not_not] at h3
      have h2 : g ∈ j.vals := by
        refine (hmemiff g).mp ?_
        by_cases hgm : g ∈ (j.vals.filter (fun x =>
          gridIdx grid d < gridIdx grid x) ++ [d])
        · exact hgm
        · exact absurd h3 (by rw [decide_eq_false hgm]; simp)
      unfold definedOf
      rw [if_pos h2]
      rfl
    have hspec0 : specExtendCohort lbl F j grid = [] := by
      unfold specExtendCohort specExtend
      exact specFills_all_defined _ _ grid _ hall
    rw [hspec0, List.append_nil]
    refine ⟨(j.vals.filter (fun x => gridIdx grid d < gridIdx grid x)).map
      (cohortRecB lbl F j) ++ cohortRecB lbl F j d :: exv, rfl, ?_, ?_, ?_⟩
    · intro w hw
      exact List.mem_append.mpr (Or.inr (List.mem_cons_of_mem _ hw))
    · intro w hw
      rcases List.mem_append.mp hw with h1 | h1
      · obtain ⟨x, hx, he⟩ := List.mem_map.mp h1
        exact Or.inr ⟨x, some (F (cohortBase j) x), he.symm⟩
      · rcases List.mem_cons.mp h1 with he | hr
        · exact Or.inr ⟨d, some (F (cohortBase j) d), he⟩
        · exact Or.inl hr
    · intro d0 hd0
      by_cases hd0d : d0 = d
      · rw [hd0d]
        exact List.mem_append.mpr (Or.inr (List.mem_cons_self _ _))
      · refine List.mem_append.mpr (Or.inl (List.mem_map.mpr ⟨d0, ?_, rfl⟩))
        exact List.mem_filter.mpr ⟨hd0, by simpa using hmin d0 hd0 hd0d⟩
  · rw [if_neg hmiss]
    have hsel := HselD_cohort lbl F grid j d (hpre j hj) hvnd hd hmin
    have hfd := firstDefined_filter j.vals (fun g => F (cohortBase j) g)
      (j.vals.filter (fun x => gridIdx grid d < gridIdx grid x) ++ [d])
      hmemiff grid ⟨d, hsub d hd, hd⟩
    have hfill := fillMissing_spec lbl grid hgnd j.vals
      (fun g => F (cohortBase j) g) (cohortVO lbl j)
      ((j.vals.filter (fun x => gridIdx grid d < gridIdx grid x)).map
        (cohortRecB lbl F j) ++ [cohortRecB lbl F j d])
      (j.vals.filter (fun x => gridIdx grid d < gridIdx grid x) ++ [d])
      hmemiff hsel
      (fun x w g => setLabel_cohortVO lbl j x g w (hpre j hj) (hpost j hj))
      hfd grid 0
      (firstDefined (fun g =>
        if g ∈ j.vals then some (F (cohortBase j) g) else none) grid)
      [] ((j.vals.filter (fun x => gridIdx grid d < gridIdx grid x)).map
        (cohortRecB lbl F j) ++ cohortRecB lbl F j d :: exv) fills
      (List.drop_zero grid).symm (Or.inl ⟨rfl, rfl⟩)
      (fun x _ => rfl) (fun x _ => rfl)
    rw [hfill]
    have heqshape : ∀ u ∈ ((j.vals.filter (fun x =>
        gridIdx grid d < gridIdx grid x)).map (cohortRecB lbl F j) ++
        [cohortRecB lbl F j d]),
        ∃ g0 w2, u = cohortVO lbl j g0 w2 := by
      intro u hu
      rcases List.mem_append.mp hu with h1 | h1
      · obtain ⟨x, hx, he⟩ := List.mem_map.mp h1
        exact ⟨x, some (F (cohortBase j) x), he.symm⟩
      · rcases List.mem_cons.mp h1 with he | hr
        · exact ⟨d, some (F (cohortBase j) d), he⟩
        · cases hr
    refine ⟨_, rfl, ?_, ?_, ?_⟩
    · intro w hw
      refine fillMissing_exVos_mem_mono lbl grid _ _ _ _ w ?_
      exact List.mem_append.mpr (Or.inr (List.mem_cons_of_mem _ hw))
    · intro w hw
      have hshape := fillMissing_exVos_shape lbl grid _ _ (cohortVO lbl j)
        heqshape
        (fun x w2 g => setLabel_cohortVO lbl j x g w2 (hpre j hj) (hpost j hj))
        _ _ (fun p hp => absurd hp (List.not_mem_nil p)) w hw
      rcases hshape with hmem2 | hs
      · rcases List.mem_append.mp hmem2 with h1 | h1
        · obtain ⟨x, hx, he⟩ := List.mem_map.mp h1
          exact Or.inr ⟨x, some (F (cohortBase j) x), he.symm⟩
        · rcases List.mem_cons.mp h1 with he | hr
          · exact Or.inr ⟨d, some (F (cohortBase j) d), he⟩
          · exact Or.inl hr
      · exact Or.inr hs
    · intro d0 hd0
      refine fillMissing_exVos_mem_mono lbl grid _ _ _ _ _ ?_
      by_cases hd0d : d0 = d
      · rw [hd0d]
        exact List.mem_append.mpr (Or.inr (List.mem_cons_self _ _))
      · refine List.mem_append.mpr (Or.inl (List.mem_map.mpr ⟨d0, ?_, rfl⟩))
        exact List.mem_filter.mpr ⟨hd0, by simpa using hmin d0 hd0 hd0d⟩

theorem bucket_perm {α : Type} (keyOf : α → Nat) :
    ∀ (n m : Nat) (xs : List α),
      (∀ x ∈ xs, m ≤ keyOf x ∧ keyOf x < m + n) →
      List.Perm ((List.range' m n).flatMap
        (fun i => xs.filter (fun x => keyOf x = i))) xs := by
  intro n
  induction n with
  | zero =>
    intro m xs hall
    cases xs with
    | nil => simp
    | cons a l =>
      have := hall a (by simp)
      omega
  | succ n ih =>
    intro m xs hall
    rw [List.range'_succ]
    simp only [List.flatMap_cons]
    have hb : ∀ i ∈ List.range' (m + 1) n,
        xs.filter (fun x => keyOf x = i) =
        (xs.filter (fun x => ¬ keyOf x = m)).filter (fun x => keyOf x = i) := by
      intro i hi
      have him : m + 1 ≤ i := (List.mem_range'_1.mp hi).1
      rw [List.filter_filter]
      refine List.filter_congr ?_
      intro x hx
      by_cases h : keyOf x = i
      · have hm2 : ¬ i = m := by omega
        simp [h, hm2]
      · simp [h]
    rw [flatMap_congr_mem _ _ (List.range' (m + 1) n) hb]
    have hperm2 := ih (m + 1) (xs.filter (fun x => ¬ keyOf x = m)) ?_
    · refine List.Perm.trans (List.Perm.append_left _ hperm2) ?_
      have hng : xs.filter (fun x => ¬ keyOf x = m) =
          xs.filter (fun x => !(decide (keyOf x = m))) := by
        refine List.filter_congr ?_
        intro x _
        simp [decide_not]
      rw [hng]
      exact List.filter_append_perm _ xs
    · intro x hx
      have h1 := hall x (List.mem_of_mem_filter hx)
      have h2 : ¬ keyOf x = m :=
        of_decide_eq_true (List.mem_filter.mp hx).2
      omega

theorem sortByKey_perm {α : Type} (keyOf : α → Nat) (bound : Nat)
    (xs : List α) (hall : ∀ x ∈ xs, keyOf x ≤ bound) :
    List.Perm (sortByKey keyOf bound xs) xs := by
  unfold sortByKey
  rw [List.range_eq_range']
  exact bucket_perm keyOf (bound + 1) 0 xs
    (fun x hx => ⟨Nat.zero_le _, by have := hall x hx; omega⟩)

theorem pairwise_of_all {α : Type} (R : α → α → Prop) :
    ∀ l : List α, (∀ a ∈ l, ∀ b ∈ l, R a b) → l.Pairwise R := by
  intro l
  induction l with
  | nil =>
    intro _
    exact List.Pairwise.nil
  | cons a rest ih =>
    intro h
    refine List.Pairwise.cons ?_ (ih ?_)
    · intro b hb
      exact h a (by simp) b (by simp [hb])
    · intro x hx y hy
      exact h x (by simp [hx]) y (by simp [hy])

theorem bucket_pairwise {α : Type} (keyOf : α → Nat) :
    ∀ (n m : Nat) (xs : List α),
      ((List.range' m n).flatMap
        (fun i => xs.filter (fun x => keyOf x = i))).Pairwise
        (fun a b => keyOf a ≤ keyOf b) := by
  intro n
  induction n with
  | zero =>
    intro m xs
    simp
  | succ n ih =>
    intro m xs
    rw [List.range'_succ]
    simp only [List.flatMap_cons]
    refine List.pairwise_append.mpr ⟨?_, ih (m + 1) xs, ?_⟩
    · refine pairwise_of_all _ _ ?_
      intro a ha b hb
      have h1 : keyOf a = m := of_decide_eq_true (List.mem_filter.mp ha).2
      have h2 : keyOf b = m := of_decide_eq_true (List.mem_filter.mp hb).2
      omega
    · intro a ha b hb
      have h1 : keyOf a = m := of_decide_eq_true (List.mem_filter.mp ha).2
      obtain ⟨i, hi, hbi⟩ := List.mem_flatMap.mp hb
      have h2 : keyOf b = i := of_decide_eq_true (List.mem_filter.mp hbi).2
      have h3 : m + 1 ≤ i := (List.mem_range'_1.mp hi).1
      omega

theorem sortByKey_pairwise {α : Type} (keyOf : α → Nat) (bound : Nat)
    (xs : List α) :
    (sortByKey keyOf bound xs).Pairwise (fun a b => keyOf a ≤ keyOf b) := by
  unfold sortByKey
  rw [List.range_eq_range']
  exact bucket_pairwise keyOf (bound + 1) 0 xs

theorem fold_cohorts (lbl : String) (F : List (String × L) → L → V)
    (grid : List L) (hgnd : grid.Nodup) (cs : List (Cohort L))
    (hnd : cs.Nodup)
    (hpre : ∀ c ∈ cs, ∀ p ∈ c.pre, ¬ p.1 = lbl)
    (hpost : ∀ c ∈ cs, ∀ p ∈ c.post, ¬ p.1 = lbl)
    (hbk : ∀ c ∈ cs, ((cohortBase c).map Prod.fst).Nodup)
    (hsep : ∀ c ∈ cs, ∀ c' ∈ cs, ¬ c = c' →
      ∃ k ∈ (cohortBase c).map Prod.fst, ¬ k = lbl ∧
        ¬ lookupLbl (cohortBase c) k = lookupLbl (cohortBase c') k)
    (hvals : ∀ c ∈ cs, c.vals.Nodup ∧ ¬ c.vals = [] ∧ ∀ x ∈ c.vals, x ∈ grid) :
    ∀ (todo : List (ValueObject L V)) (done : List (Cohort L))
      (exv fills : List (ValueObject L V)),
      done.Nodup → (∀ c ∈ done, c ∈ cs) →
      (∀ c ∈ cs, ¬ c ∈ done → ∀ d0 ∈ c.vals, cohortRecB lbl F c d0 ∈ todo) →
      (∀ w ∈ todo, ∃ c ∈ cs, ∃ d0, d0 ∈ c.vals ∧ w = cohortRecB lbl F c d0) →
      todo.Pairwise (fun u v => extSortKey lbl grid u ≤ extSortKey lbl grid v) →
      (∀ c ∈ done, ∀ d0 ∈ c.vals,
        memVoSet exv (cohortRecB lbl F c d0) = true) →
      (∀ w ∈ exv, ∃ c ∈ done, ∃ g0 w2, w = cohortVO lbl c g0 w2) →
      ∃ newC : List (Cohort L),
        (todo.foldl (processVo lbl grid (cohortData lbl F cs))
          (exv, fills)).2 =
          fills ++ newC.flatMap (fun c => specExtendCohort lbl F c grid) ∧
        (∀ c ∈ newC, c ∈ cs ∧ ¬ c ∈ done) ∧ newC.Nodup ∧
        (∀ c ∈ cs, ¬ c ∈ done → c ∈ newC) := by
  intro todo
  induction todo with
  | nil =>
    intro done exv fills hdnd hdsub hcov hshape hpw hmarked hexvshape
    refine ⟨[], by simp, by simp, List.nodup_nil, ?_⟩
    intro c hc hcd
    obtain ⟨hnd2, hne, _⟩ := hvals c hc
    obtain ⟨d0, hd0⟩ : ∃ d0, d0 ∈ c.vals := by
      cases hv : c.vals with
      | nil => exact absurd hv hne
      | cons a l => exact ⟨a, by simp⟩
    exact absurd (hcov c hc hcd d0 hd0) (List.not_mem_nil _)
  | cons vo rest ih =>
    intro done exv fills hdnd hdsub hcov hshape hpw hmarked hexvshape
    obtain ⟨j, hj, d, hdj, hvoeq⟩ := hshape vo (by simp)
    subst hvoeq
    rw [List.foldl_cons]
    by_cases hjdone : j ∈ done
    · have hskip : processVo lbl grid (cohortData lbl F cs) (exv, fills)
          (cohortRecB lbl F j d) = (exv, fills) := by
        unfold processVo
        dsimp only
        rw [if_pos (hmarked j hjdone d hdj)]
      rw [hskip]
      refine ih done exv fills hdnd hdsub ?_ ?_
        (List.Pairwise.of_cons hpw) hmarked hexvshape
      · intro c hc hcd d0 hd0
        have h1 := hcov c hc hcd d0 hd0
        rcases List.mem_cons.mp h1 with he | hr
        · exfalso
          have hcj : ¬ c = j := fun hcc => hcd (hcc ▸ hjdone)
          obtain ⟨k, hkmem, hk, hdiff⟩ := hsep c hc j hj hcj
          exact cohortVO_ne lbl c j d0 d _ _ k hk hdiff he
        · exact hr
      · intro w hw
        exact hshape w (List.mem_cons_of_mem _ hw)
    · have hmin : ∀ x ∈ j.vals, ¬ x = d →
          gridIdx grid d < gridIdx grid x := by
        intro x hx hxd
        have hrec := hcov j hj hjdone x hx
        have hne2 : ¬ cohortRecB lbl F j x = cohortRecB lbl F j d := by
          intro hc
          have hl := congrArg ValueObject.labels hc
          have hx2 := List.append_cancel_left
            (show j.pre ++ (lbl, x) :: j.post =
              j.pre ++ (lbl, d) :: j.post from hl)
          injection hx2 with h1 _
          injection h1 with _ h2
          exact hxd h2
        have hxrest : cohortRecB lbl F j x ∈ rest := by
          rcases List.mem_cons.mp hrec with he | hr
          · exact absurd he hne2
          · exact hr
        have hle : extSortKey lbl grid (cohortRecB lbl F j d) ≤
            extSortKey lbl grid (cohortRecB lbl F j x) :=
          (List.pairwise_cons.mp hpw).1 _ hxrest
        have hk1 : extSortKey lbl grid (cohortRecB lbl F j d) =
            gridIdx grid d := by
          unfold extSortKey
          simp only [getLbl_cohortRecB lbl F j d (hpre j hj)]
        have hk2 : extSortKey lbl grid (cohortRecB lbl F j x) =
            gridIdx grid x := by
          unfold extSortKey
          simp only [getLbl_cohortRecB lbl F j x (hpre j hj)]
        rw [hk1, hk2] at hle
        rcases Nat.lt_or_ge (gridIdx grid d) (gridIdx grid x) with h | h
        · exact h
        · exfalso
          have heq2 : gridIdx grid d = gridIdx grid x :=
            Nat.le_antisymm hle h
          obtain ⟨_, _, hsubg⟩ := hvals j hj
          exact hxd (gridIdx_inj_of_mem grid hgnd d x (hsubg d hdj)
            (hsubg x hx) heq2).symm
      have hmemf : memVoSet exv (cohortRecB lbl F j d) = false := by
        unfold memVoSet
        refine List.any_eq_false.mpr ?_
        intro w hw
        obtain ⟨c, hc, g0, w2, hwshape⟩ := hexvshape w hw
        have hcj : ¬ c = j := fun hcc => hjdone (hcc ▸ hc)
        obtain ⟨k, hkmem, hk, hdiff⟩ := hsep c (hdsub c hc) j hj hcj
        rw [hwshape]
        unfold voEquivB
        rw [show cohortRecB lbl F j d =
          cohortVO lbl j d (some (F (cohortBase j) d)) from rfl]
        rw [sameTupleB_cohort_ne lbl c j g0 d w2 _ k hkmem hk hdiff]
        rw [Bool.false_and]
        simp
      obtain ⟨hvndj, _, hsubj⟩ := hvals j hj
      obtain ⟨ex1, hstep, hmono, hshape1, hcover⟩ :=
        processVo_step lbl F grid hgnd cs hnd hpre hpost hbk hsep j hj
          hvndj hsubj d hdj hmin exv fills hmemf
      rw [hstep]
      have hih := ih (j :: done) ex1 (fills ++ specExtendCohort lbl F j grid)
        (List.nodup_cons.mpr ⟨hjdone, hdnd⟩)
        (fun c hc => by
          rcases List.mem_cons.mp hc with he | hr
          · rw [he]
            exact hj
          · exact hdsub c hr)
        ?_ ?_ (List.Pairwise.of_cons hpw) ?_ ?_
      · obtain ⟨newC, h1, h2, h3, h4⟩ := hih
        refine ⟨j :: newC, ?_, ?_, ?_, ?_⟩
        · rw [h1, List.flatMap_cons, ← List.append_assoc]
        · intro c hc
          rcases List.mem_cons.mp hc with he | hr
          · rw [he]
            exact ⟨hj, hjdone⟩
          · obtain ⟨hcs2, hnd2⟩ := h2 c hr
            exact ⟨hcs2, fun hcd => hnd2 (List.mem_cons_of_mem _ hcd)⟩
        · refine List.nodup_cons.mpr ⟨?_, h3⟩
          intro hjn
          exact (h2 j hjn).2 (List.mem_cons_self _ _)
        · intro c hc hcd
          by_cases hcj : c = j
          · rw [hcj]
            exact List.mem_cons_self _ _
          · refine List.mem_cons_of_mem _ (h4 c hc ?_)
            intro hcm
            rcases List.mem_cons.mp hcm with he | hr
            · exact hcj he
            · exact hcd hr
      · intro c hc hcd d0 hd0
        have hcd2 : ¬ c ∈ done := fun h => hcd (List.mem_cons_of_mem _ h)
        have hcj : ¬ c = j := fun h => hcd (by
          rw [h]
          exact List.mem_cons_self _ _)
        have h1 := hcov c hc hcd2 d0 hd0
        rcases List.mem_cons.mp h1 with he | hr
        · exfalso
          obtain ⟨k, hkmem, hk, hdiff⟩ := hsep c hc j hj hcj
          exact cohortVO_ne lbl c j d0 d _ _ k hk hdiff he
        · exact hr
      · intro w hw
        exact hshape w (List.mem_cons_of_mem _ hw)
      · intro c hc d0 hd0
        rcases List.mem_cons.mp hc with he | hr
        · rw [he] at hd0 ⊢
          exact memVoSet_of_mem (hcover d0 hd0)
        · have h1 := hmarked c hr d0 hd0
          unfold memVoSet at h1 ⊢
          obtain ⟨w, hwmem, hweq⟩ := List.any_eq_true.mp h1
          exact List.any_eq_true.mpr ⟨w, hmono w hwmem, hweq⟩
      · intro w hw
        rcases hshape1 w hw with h1 | h1
        · obtain ⟨c, hc, rest2⟩ := hexvshape w h1
          exact ⟨c, List.mem_cons_of_mem _ hc, rest2⟩
        · exact ⟨j, List.mem_cons_self _ _, h1⟩

theorem extSortKey_cohortRecB (lbl : String) (F : List (String × L) → L → V)
    (grid : List L) (c : Cohort L) (d0 : L)
    (hpre : ∀ p ∈ c.pre, ¬ p.1 = lbl) :
    extSortKey lbl grid (cohortRecB lbl F c d0) = gridIdx grid d0 := by
  unfold extSortKey
  simp only [getLbl_cohortRecB lbl F c d0 hpre]

/-- C1: for every parameter whose records split into cohorts — records
sharing all non-extend-label labels (an arbitrary label context around the
extend label), with per-cohort explicit grid values — the batch generated
by the extension pass equals, cohort by cohort (over some enumeration
`doneCs` of all the cohorts), the reference forward-fill written from the
spec's recurrence: one record per missing grid value, taking its value from
the immediately preceding grid position (the freshly filled record there, or
the cohort's explicit record), and below the first defined position from the
cohort's defined record with the smallest grid index; moreover the claim's
concrete example holds end to end — grid `[2020, 2021, 2022]`, a record
explicit only at `2020` valued `5` extends to `5, 5, 5`, re-adjusting with
an explicit `7` at `2021` yields `5, 7, 7` — as does a genuinely
multi-label, multi-cohort example (cohorts `m=0` and `m=1`). -/
theorem c1_extension_forward_fill (lbl : String)
    (F : List (String × L) → L → V) (grid : List L) (cs : List (Cohort L))
    (hgnd : grid.Nodup) (hnd : cs.Nodup)
    (hlblfree : ∀ c ∈ cs, (∀ p ∈ c.pre, ¬ p.1 = lbl) ∧
      (∀ p ∈ c.post, ¬ p.1 = lbl))
    (hbk : ∀ c ∈ cs, ((cohortBase c).map Prod.fst).Nodup)
    (hvals : ∀ c ∈ cs, c.vals.Nodup ∧ ¬ c.vals = [] ∧ ∀ x ∈ c.vals, x ∈ grid)
    (hsep : ∀ c ∈ cs, ∀ c' ∈ cs, ¬ c = c' →
      ∃ k ∈ (cohortBase c).map Prod.fst, ¬ k = lbl ∧
        ¬ lookupLbl (cohortBase c) k = lookupLbl (cohortBase c') k) :
    (∃ doneCs : List (Cohort L), List.Perm doneCs cs ∧
      extendParam lbl grid (cohortData lbl F cs) (cohortData lbl F cs) =
        .ok (doneCs.flatMap (fun c => specExtendCohort lbl F c grid))) ∧
    (extendRun ctxC1 stC1 none true).1.data =
      [("p", [ValueObject.mk [("y", 2020)] (some 5),
              ValueObject.mk [("y", 2021)] (some 5),
              ValueObject.mk [("y", 2022)] (some 5)])] ∧
    (adjustRun ctxC1 (extendRun ctxC1 stC1 none true).1
        [("p", [ValueObject.mk [("y", 2021)] (some 7)])] true true).1.data =
      [("p", [ValueObject.mk [("y", 2020)] (some 5),
              ValueObject.mk [("y", 2021)] (some 7),
              ValueObject.mk [("y", 2022)] (some 7)])] ∧
    (extendRun ctxC1b stC1b none true).1.data =
      [("p", [ValueObject.mk [("m", 0), ("y", 2020)] (some 5),
              ValueObject.mk [("m", 1), ("y", 2020)] (some 6),
              ValueObject.mk [("m", 0), ("y", 2021)] (some 5),
              ValueObject.mk [("m", 1), ("y", 2021)] (some 6)])] := by
  refine ⟨?_, by rfl, by rfl, by rfl⟩
  have hpre : ∀ c ∈ cs, ∀ p ∈ c.pre, ¬ p.1 = lbl :=
    fun c hc => (hlblfree c hc).1
  have hpost : ∀ c ∈ cs, ∀ p ∈ c.post, ¬ p.1 = lbl :=
    fun c hc => (hlblfree c hc).2
  by_cases hcs : cs = []
  · subst hcs
    exact ⟨[], List.Perm.refl [], rfl⟩
  · obtain ⟨c1, hc1⟩ : ∃ c1, c1 ∈ cs := by
      cases cs with
      | nil => exact absurd rfl hcs
      | cons a l => exact ⟨a, by simp⟩
    obtain ⟨d1, hd1⟩ : ∃ d1, d1 ∈ c1.vals := by
      obtain ⟨_, hne, _⟩ := hvals c1 hc1
      cases hv : c1.vals with
      | nil => exact absurd hv hne
      | cons a l => exact ⟨a, by simp⟩
    have hany : (cohortData lbl F cs).any
        (fun vo => (getLbl vo lbl).isSome) = true := by
      refine List.any_eq_true.mpr
        ⟨cohortRecB lbl F c1 d1, cohortRecB_mem_data lbl F cs c1 hc1 d1 hd1, ?_⟩
      rw [getLbl_cohortRecB lbl F c1 d1 (hpre c1 hc1)]
      rfl
    have hmapex : mapExc (fun vo =>
        match getLbl vo lbl with
        | none => Except.error (AdjErr.keyError lbl)
        | some x =>
          if gridIdx grid x = grid.length then Except.error AdjErr.indexError
          else Except.ok (gridIdx grid x, vo)) (cohortData lbl F cs) =
        (.ok ((cohortData lbl F cs).map
          (fun vo => (extSortKey lbl grid vo, vo))) :
          Except (AdjErr L) (List (Nat × ValueObject L V))) := by
      refine mapExc_ok_all _ _ (cohortData lbl F cs) ?_
      intro vo hvo
      obtain ⟨c, hc, d0, hd0, hveq⟩ := cohortData_shape lbl F cs vo hvo
      subst hveq
      simp only [getLbl_cohortRecB lbl F c d0 (hpre c hc)]
      rw [if_neg (Nat.ne_of_lt (gridIdx_lt_length grid d0
        ((hvals c hc).2.2 d0 hd0)))]
      rw [extSortKey_cohortRecB lbl F grid c d0 (hpre c hc)]
    have hbound : ∀ p ∈ (cohortData lbl F cs).map
        (fun vo => (extSortKey lbl grid vo, vo)),
        (fun pr : Nat × ValueObject L V => pr.1) p ≤ grid.length := by
      intro p hp
      obtain ⟨vo, hvo, he⟩ := List.mem_map.mp hp
      obtain ⟨c, hc, d0, hd0, hveq⟩ := cohortData_shape lbl F cs vo hvo
      rw [← he, hveq]
      dsimp only
      rw [extSortKey_cohortRecB lbl F grid c d0 (hpre c hc)]
      exact Nat.le_of_lt (gridIdx_lt_length grid d0 ((hvals c hc).2.2 d0 hd0))
    have hpermK := sortByKey_perm (fun pr : Nat × ValueObject L V => pr.1)
      grid.length ((cohortData lbl F cs).map
        (fun vo => (extSortKey lbl grid vo, vo))) hbound
    have hpermS : List.Perm ((sortByKey
        (fun pr : Nat × ValueObject L V => pr.1) grid.length
        ((cohortData lbl F cs).map
          (fun vo => (extSortKey lbl grid vo, vo)))).map Prod.snd)
        (cohortData lbl F cs) := by
      refine List.Perm.trans (hpermK.map Prod.snd) ?_
      rw [List.map_map]
      have : (Prod.snd ∘ fun vo : ValueObject L V =>
          ((extSortKey lbl grid vo, vo) : Nat × ValueObject L V)) = id := by
        funext vo
        rfl
      rw [this, List.map_id]
    have hmemK : ∀ p ∈ sortByKey (fun pr : Nat × ValueObject L V => pr.1)
        grid.length ((cohortData lbl F cs).map
          (fun vo => (extSortKey lbl grid vo, vo))),
        p.1 = extSortKey lbl grid p.2 := by
      intro p hp
      have hp2 := hpermK.mem_iff.mp hp
      obtain ⟨vo, hvo, he⟩ := List.mem_map.mp hp2
      rw [← he]
    have hpwK := sortByKey_pairwise (fun pr : Nat × ValueObject L V => pr.1)
      grid.length ((cohortData lbl F cs).map
        (fun vo => (extSortKey lbl grid vo, vo)))
    have hpwS : ((sortByKey (fun pr : Nat × ValueObject L V => pr.1)
        grid.length ((cohortData lbl F cs).map
          (fun vo => (extSortKey lbl grid vo, vo)))).map Prod.snd).Pairwise
        (fun u v => extSortKey lbl grid u ≤ extSortKey lbl grid v) := by
      refine List.pairwise_map.mpr ?_
      refine List.Pairwise.imp_of_mem ?_ hpwK
      intro a b ha hb hr
      rw [← hmemK a ha, ← hmemK b hb]
      exact hr
    obtain ⟨newC, h1, h2, h3, h4⟩ := fold_cohorts lbl F grid hgnd cs hnd
      hpre hpost hbk hsep hvals
      ((sortByKey (fun pr : Nat × ValueObject L V => pr.1) grid.length
        ((cohortData lbl F cs).map
          (fun vo => (extSortKey lbl grid vo, vo)))).map Prod.snd)
      [] [] []
      List.nodup_nil (fun c hc => absurd hc (List.not_mem_nil c))
      (fun c hc _ d0 hd0 => hpermS.mem_iff.mpr
        (cohortRecB_mem_data lbl F cs c hc d0 hd0))
      (fun w hw => cohortData_shape lbl F cs w (hpermS.mem_iff.mp hw))
      hpwS
      (fun c hc => absurd hc (List.not_mem_nil c))
      (fun w hw => absurd hw (List.not_mem_nil w))
    refine ⟨newC, ?_, ?_⟩
    · refine List.Subperm.antisymm (h3.subperm ?_) (hnd.subperm ?_)
      · intro c hc
        exact (h2 c hc).1
      · intro c hc
        exact h4 c hc (List.not_mem_nil c)
    · unfold extendParam
      rw [if_neg (fun hc => hc hany)]
      dsimp only
      simp only [hmapex]
      rw [h1, List.nil_append]

theorem c1_witness :
    (([2020, 2021, 2022] : List Int).Nodup ∧
      ([Cohort.mk [("m", (0 : Int))] [] [2020],
        Cohort.mk [("m", 1)] [] [2021]] : List (Cohort Int)).Nodup) ∧
    (∃ doneCs : List (Cohort Int),
      List.Perm doneCs [Cohort.mk [("m", (0 : Int))] [] [2020],
        Cohort.mk [("m", 1)] [] [2021]] ∧
      extendParam "y" [2020, 2021, 2022]
        (cohortData "y" (fun _ d => d)
          [Cohort.mk [("m", (0 : Int))] [] [2020],
           Cohort.mk [("m", 1)] [] [2021]])
        (cohortData "y" (fun _ d => d)
          [Cohort.mk [("m", (0 : Int))] [] [2020],
           Cohort.mk [("m", 1)] [] [2021]]) =
        .ok (doneCs.flatMap (fun c => specExtendCohort "y" (fun _ d => d) c
          [2020, 2021, 2022]))) ∧
    (extendRun ctxC1b stC1b none true).1.data =
      [("p", [ValueObject.mk [("m", 0), ("y", 2020)] (some 5),
              ValueObject.mk [("m", 1), ("y", 2020)] (some 6),
              ValueObject.mk [("m", 0), ("y", 2021)] (some 5),
              ValueObject.mk [("m", 1), ("y", 2021)] (some 6)])] := by
  refine ⟨⟨by decide, by decide⟩, ?_, ?_⟩
  · exact (c1_extension_forward_fill "y" (fun _ d => d) [2020, 2021, 2022]
      [Cohort.mk [("m", (0 : Int))] [] [2020], Cohort.mk [("m", 1)] [] [2021]]
      (by decide) (by decide) (by decide) (by decide) (by decide)
      (by decide)).1
  · exact (c1_extension_forward_fill "y" (fun _ d => d) [2020, 2021, 2022]
      [Cohort.mk [("m", (0 : Int))] [] [2020], Cohort.mk [("m", 1)] [] [2021]]
      (by decide) (by decide) (by decide) (by decide) (by decide)
      (by decide)).2.2.2

end ParamTools
